import Mathlib

-- Verification of the J2P JSON-Schema to proto3 translator (internal/jsparser.go).
-- The Go code is embedded shallowly: Go maps become association lists whose list
-- order models the (unspecified) map iteration order, Go panics become an explicit
-- Fault value (nilDeref for nil-pointer dereference crashes, message for the
-- explicit panic calls in the source), and the mutable parser state (the pushBacks
-- work queue and the typeNames dedup list) is threaded functionally.  The byte
-- oriented Go string code is modelled on ASCII characters; unicode.IsUpper and
-- unicode.IsNumber agree with Char.isUpper and Char.isDigit on that alphabet.

namespace J2P

-- Types is a string in the source; these are the named constants.
abbrev Types := String

def NONE : Types := ""
def STRING : Types := "string"
def NUMBER : Types := "number"
def INTEGER : Types := "integer"
def OBJECT : Types := "object"
def ARRAY : Types := "array"
def BOOLEAN : Types := "boolean"
def NULL : Types := "null"
def ANY : Types := "Any"

inductive PropertyType where
  | ENUM_TYPE
  | UNION_TYPE
  | COMPLEX_ARRAY_TYPE
  | REF_ARRAY_TYPE
  | PRIMITIVE_ARRAY_TYPE
  | UNKOWN_ARRAY_TYPE
  | NESTED_OBJECT_TYPE
  | REF_TYPE
  | PRIMITIVE_TYPE
deriving DecidableEq, Repr

-- Properties mirrors the Go struct: pointer fields become Option so that an
-- absent JSON field is distinct from a zero value; the properties map is an
-- association list whose order models map iteration order.  Fields that never
-- influence the translation (description, minimum, pattern, ...) are omitted.
inductive Properties where
  | mk (type : Types) (items : Option Properties) (ref : Option String)
       (anyOf : Option (List Properties)) (enum : Option (List String))
       (properties : List (String × Properties))

def Properties.type : Properties → Types
  | .mk t _ _ _ _ _ => t

def Properties.items : Properties → Option Properties
  | .mk _ it _ _ _ _ => it

def Properties.ref : Properties → Option String
  | .mk _ _ r _ _ _ => r

def Properties.anyOf : Properties → Option (List Properties)
  | .mk _ _ _ a _ _ => a

def Properties.enum : Properties → Option (List String)
  | .mk _ _ _ _ e _ => e

def Properties.properties : Properties → List (String × Properties)
  | .mk _ _ _ _ _ p => p

-- Properties.empty is the Go zero value of the struct (the value a map lookup
-- yields for a missing key).
def Properties.empty : Properties := .mk NONE none none none none []

-- Fault models abnormal termination: nilDeref is a runtime nil-pointer crash,
-- message is an explicit panic with the given text, fuel marks exhaustion of the
-- fuel that stands in for the (terminating) drain loop of Parse.
inductive Fault where
  | nilDeref
  | message (s : String)
  | fuel
deriving DecidableEq, Repr

-- QItem is the tagged form of the dynamically typed values the source stores in
-- the pushBacks queue: a properties map, a whole property node, or enum values.
inductive QItem where
  | props (m : List (String × Properties))
  | node (p : Properties)
  | enumVals (l : List String)

-- lookupProps is a Go map read: the first matching entry, or the zero value.
def lookupProps (m : List (String × Properties)) (k : String) : Properties :=
  match m.find? (fun e => e.1 == k) with
  | some e => e.2
  | none => Properties.empty

-- fixChar is the character action of fixString: each of the five separator
-- characters becomes an underscore.
def fixChar (c : Char) : Char :=
  if c = '#' ∨ c = ' ' ∨ c = '-' ∨ c = '/' ∨ c = '.' then '_' else c

def fixString (s : String) : String :=
  String.mk (s.toList.map fixChar)

-- upperStr is strings.ToUpper on the ASCII alphabet.
def upperStr (s : String) : String :=
  String.mk (s.toList.map Char.toUpper)

-- sjoin concatenates a list of strings, modelling sequential buffer writes.
def sjoin : List String → String
  | [] => ""
  | s :: rest => s ++ sjoin rest

def toCamelCase (s : String) : String :=
  match (fixString s).toList with
  | [] => ""
  | c :: cs => String.mk (c.toLower :: cs)

def toPascalCase (s : String) : String :=
  if s.toList.contains '.' then s
  else
    match (fixString s).toList with
    | [] => ""
    | c :: cs => String.mk (c.toUpper :: cs)

-- snakeAux is the byte-scanning loop of toSnakeCase.  The threaded state is the
-- byte index, the prev-was-digit flag, the prev-was-underscore flag and the
-- changed flag; the accumulator holds the output characters.
def snakeAux : List Char → Nat → Bool → Bool → Bool → List Char → (List Char × Bool)
  | [], _, _, _, conv, acc => (acc, conv)
  | c :: rest, idx, prevNum, prevUnd, conv, acc =>
    if c = '_' then
      snakeAux rest (idx + 1) prevNum true true (acc ++ [c.toLower])
    else if c.isUpper then
      if idx ≠ 0 then
        snakeAux rest (idx + 1) prevNum prevUnd true (acc ++ ['_', c.toLower])
      else
        snakeAux rest (idx + 1) prevNum prevUnd conv (acc ++ [c.toLower])
    else if c.isDigit then
      if prevNum then
        snakeAux rest (idx + 1) prevNum prevUnd conv (acc ++ [c.toLower])
      else
        if idx ≠ 0 then
          snakeAux rest (idx + 1) true prevUnd true (acc ++ ['_', c.toLower])
        else
          snakeAux rest (idx + 1) true prevUnd conv (acc ++ [c.toLower])
    else
      if prevNum then
        snakeAux rest (idx + 1) false prevUnd true (acc ++ ['_', c.toLower])
      else
        snakeAux rest (idx + 1) prevNum false conv (acc ++ [c])

def toSnakeCase (s : String) : String × Bool :=
  let r := snakeAux (fixString s).toList 0 false false false []
  (String.mk r.1, r.2)

-- GetType is the nine-way property classifier.  The source dereferences
-- properties.Items without a nil check when type is array, so an array node
-- without items is a crash, modelled as none.
def GetType (p : Properties) : Option PropertyType :=
  if p.enum.isSome then some .ENUM_TYPE
  else if p.anyOf.isSome then some .UNION_TYPE
  else if p.type = ARRAY then
    match p.items with
    | none => none
    | some it =>
      if it.type = NONE ∧ it.ref.isNone then some .UNKOWN_ARRAY_TYPE
      else if it.ref.isSome then some .REF_ARRAY_TYPE
      else if it.type = OBJECT then some .COMPLEX_ARRAY_TYPE
      else some .PRIMITIVE_ARRAY_TYPE
  else if p.type = OBJECT then some .NESTED_OBJECT_TYPE
  else if p.ref.isSome then some .REF_TYPE
  else some .PRIMITIVE_TYPE

-- splitAux and splitOnSlash give strings.Split(s, "/"): the list of segments
-- between slashes, with the empty string for an empty input.
def splitAux (sep : Char) : List Char → List Char → List String
  | [], acc => [String.mk acc.reverse]
  | c :: rest, acc =>
    if c = sep then String.mk acc.reverse :: splitAux sep rest []
    else splitAux sep rest (c :: acc)

def splitOnSlash (s : String) : List String :=
  splitAux '/' s.toList []

-- lowerStr is strings.ToLower on the ASCII alphabet.
def lowerStr (s : String) : String :=
  String.mk (s.toList.map Char.toLower)

-- startsWithHttp is strings.HasPrefix(strings.ToLower(s), "http").
def startsWithHttp (s : String) : Bool :=
  match (lowerStr s).toList with
  | 'h' :: 't' :: 't' :: 'p' :: _ => true
  | _ => false

-- descend walks the remaining JSON-pointer segments, taking the properties map
-- of each looked-up entry (a missing key yields the zero value, as in Go).
def descend (m : List (String × Properties)) : List String → List (String × Properties)
  | [] => m
  | s :: rest => descend ((lookupProps m s).properties) rest

def GetRef (p : Properties) (root : List (String × Properties)) :
    Except Fault (String × List (String × Properties)) :=
  match p.ref with
  | none => .error .nilDeref
  | some r =>
    if startsWithHttp r then
      .error (.message ("External Json Schemas are not supported by J2P compiler"))
    else
      let path := splitOnSlash r
      match path with
      | [] => .ok ("", root)
      | [single] => .ok (single, root)
      | _ :: seg1 :: rest =>
        if seg1 = "$defs" then
          .error (.message ("$defs is a Json Schema specification which is not supported by J2P compiler"))
        else
          let start := if seg1 = "definitions" then root else (lookupProps root seg1).properties
          .ok (path.getLastD (""), descend start rest)

def GetRefType (p : Properties) (root : List (String × Properties)) : String :=
  match p.ref with
  | none => ""
  | some r => ((splitOnSlash r).getLastD (""))

-- protoScalarName is the switch of ToPrimitiveProperty mapping a schema type to
-- a proto3 scalar; unknown values pass through verbatim except the literal
-- "String", which is remapped to "string".
def protoScalarName (typeName : Types) : String :=
  if typeName = INTEGER then "int32"
  else if typeName = NUMBER then "double"
  else if typeName = BOOLEAN then "bool"
  else if typeName = NULL then "optional google.protobuf.Any"
  else if typeName = "String" then "string"
  else typeName

def ToPrimitiveProperty (propertyName : String) (typeName : Types) (i : Nat) : String × Nat :=
  let sn := toSnakeCase propertyName
  let line :=
    if sn.2 then
      "\t" ++ protoScalarName typeName ++ " " ++ toCamelCase propertyName ++ " = " ++
        Nat.repr i ++ " [json_name=\"" ++ sn.1 ++ "\"];"
    else
      "\t" ++ protoScalarName typeName ++ " " ++ toCamelCase propertyName ++ " = " ++
        Nat.repr i ++ ";"
  (line, i + 1)

-- dropOneTab is strings.TrimPrefix(s, tab): removes one leading tab if present.
def dropOneTab (s : String) : String :=
  match s.toList with
  | '\t' :: rest => String.mk rest
  | _ => s

-- dropTabs is strings.TrimLeft(s, tab): removes every leading tab.
def dropTabs (s : String) : String :=
  String.mk (s.toList.dropWhile (fun c => c = '\t'))

def ToPrimitiveArrayProperty (propertyName : String) (typeName : Types) (i : Nat) : String × Nat :=
  let r := ToPrimitiveProperty propertyName typeName i
  ("\trepeated " ++ dropOneTab r.1, r.2)

def ToRefArrayProperty (propertyName : String) (typeName : String) (i : Nat) : String × Nat :=
  let sn := toSnakeCase propertyName
  let line :=
    if sn.2 then
      "\trepeated " ++ toPascalCase typeName ++ " " ++ toCamelCase propertyName ++ " = " ++
        Nat.repr i ++ " [json_name=\"" ++ sn.1 ++ "\"];"
    else
      "\trepeated " ++ toPascalCase typeName ++ " " ++ toCamelCase propertyName ++ " = " ++
        Nat.repr i ++ ";"
  (line, i + 1)

def ToRefProperty (propertyName : String) (typeName : String) (i : Nat) : String × Nat :=
  let sn := toSnakeCase propertyName
  let line :=
    if sn.2 then
      "\t" ++ toPascalCase typeName ++ " " ++ toCamelCase propertyName ++ " = " ++
        Nat.repr i ++ " [json_name=\"" ++ sn.1 ++ "\"];"
    else
      "\t" ++ toPascalCase typeName ++ " " ++ toCamelCase propertyName ++ " = " ++
        Nat.repr i ++ ";"
  (line, i + 1)

-- unionMemberType computes the effective member type: the member type field, or
-- when that is absent, the final segment of the member ref.
def unionMemberType (v : Properties) (root : List (String × Properties)) : String :=
  if v.type = NONE then GetRefType v root else v.type

def unionPanicText : String := "Unions without types or formatted unions are not supported by J2P"

-- wrapUnion instantiates UNION_TEMPLATE around the member lines.
def wrapUnion (unionName : String) (body : String) : String :=
  "\n\toneof " ++ toCamelCase unionName ++ "_union \x7b\n" ++ body ++ "\n\t\x7d\n"

-- ToField renders one field from a classified property; ToUnionProperty handles
-- the anyOf cases (the two-member union with a null member becomes an optional
-- single field, every other union becomes a oneof block); unionLines is the
-- member loop of the oneof rendering and optionalMember the optional rendering.
-- Each returns the rendered text, the updated field counter, and the list of
-- (name, item) pairs handed to the nested-object handler, in call order.
mutual

def ToField (root : List (String × Properties)) (propertyName : String) (p : Properties)
    (i : Nat) : Except Fault (String × Nat × List (String × QItem)) :=
  match p, GetType p with
  | _, none => .error .nilDeref
  | p, some .PRIMITIVE_TYPE =>
    let r := ToPrimitiveProperty propertyName p.type i
    .ok (r.1, r.2, [])
  | p, some .REF_TYPE =>
    match GetRef p root with
    | .error e => .error e
    | .ok (refType, ref) =>
      let r := ToRefProperty propertyName refType i
      .ok (r.1, r.2, [(propertyName, .props ref)])
  | p, some .PRIMITIVE_ARRAY_TYPE =>
    match p.items with
    | none => .error .nilDeref
    | some it =>
      let r := ToPrimitiveArrayProperty propertyName it.type i
      .ok (r.1, r.2, [])
  | _, some .UNKOWN_ARRAY_TYPE =>
    let r := ToRefArrayProperty propertyName ("google.protobuf.Any") i
    .ok (r.1, r.2, [])
  | p, some .REF_ARRAY_TYPE =>
    match p.items with
    | none => .error .nilDeref
    | some it =>
      match GetRef it root with
      | .error e => .error e
      | .ok (refType, ref) =>
        let r := ToRefArrayProperty propertyName refType i
        .ok (r.1, r.2, [(propertyName, .props ref)])
  | _, some .COMPLEX_ARRAY_TYPE => .ok ("--Invalid Type--", i, [])
  | p, some .ENUM_TYPE =>
    match p.enum with
    | none => .error .nilDeref
    | some l =>
      let r := ToRefProperty propertyName propertyName i
      .ok (r.1, r.2, [(propertyName, .enumVals l)])
  | p, some .NESTED_OBJECT_TYPE =>
    let r := ToRefProperty propertyName propertyName i
    .ok (r.1, r.2, [(propertyName, .node p)])
  | .mk _ _ _ (some l) _ _, some .UNION_TYPE => ToUnionProperty root propertyName l i
  | _, some .UNION_TYPE => .error .nilDeref
termination_by structural p

-- ToUnionProperty is the union renderer.  The two-member case with a null member
-- becomes a single optional field (the loop over the two members that finds the
-- null flag and the last non-null member is resolved by direct case analysis);
-- every other union becomes a oneof block over the member lines.  As in the
-- source, the per-member logic (effective type, panic on a member with neither
-- type nor ref, composite field name) appears inline at each use; the first loop
-- step of the oneof path is unrolled so that the recursion stays structural.
def ToUnionProperty (root : List (String × Properties)) (unionName : String)
    (unionValue : List Properties) (i : Nat) :
    Except Fault (String × Nat × List (String × QItem)) :=
  match unionValue with
  | [a, b] =>
    if b.type = NULL then
      if a.type = NULL then .error .nilDeref
      else
        let t := unionMemberType a root
        if t = "" then .error (.message unionPanicText)
        else
          match ToField root (toCamelCase unionName ++ "_" ++ toCamelCase t) a i with
          | .error e => .error e
          | .ok (s, i2, q) => .ok ("\toptional " ++ dropTabs s, i2, q)
    else if a.type = NULL then
      let t := unionMemberType b root
      if t = "" then .error (.message unionPanicText)
      else
        match ToField root (toCamelCase unionName ++ "_" ++ toCamelCase t) b i with
        | .error e => .error e
        | .ok (s, i2, q) => .ok ("\toptional " ++ dropTabs s, i2, q)
    else
      let ta := unionMemberType a root
      if ta = "" then .error (.message unionPanicText)
      else
        match ToField root (toCamelCase unionName ++ "_" ++ toCamelCase ta) a i with
        | .error e => .error e
        | .ok (s1, i2, q1) =>
          let tb := unionMemberType b root
          if tb = "" then .error (.message unionPanicText)
          else
            match ToField root (toCamelCase unionName ++ "_" ++ toCamelCase tb) b i2 with
            | .error e => .error e
            | .ok (s2, i3, q2) =>
              .ok (wrapUnion unionName ("\t" ++ s1 ++ "\n" ++ ("\t" ++ s2 ++ "\n" ++ "")), i3,
                q1 ++ (q2 ++ []))
  | [] => .ok (wrapUnion unionName "", i, [])
  | a :: tail =>
    let t := unionMemberType a root
    if t = "" then .error (.message unionPanicText)
    else
      match ToField root (toCamelCase unionName ++ "_" ++ toCamelCase t) a i with
      | .error e => .error e
      | .ok (s, i2, q1) =>
        match unionLines root unionName tail i2 with
        | .error e => .error e
        | .ok (body, i3, q2) =>
          .ok (wrapUnion unionName ("\t" ++ s ++ "\n" ++ body), i3, q1 ++ q2)
termination_by structural unionValue

def unionLines (root : List (String × Properties)) (unionName : String)
    (l : List Properties) (i : Nat) : Except Fault (String × Nat × List (String × QItem)) :=
  match l with
  | [] => .ok ("", i, [])
  | v :: rest =>
    let t := unionMemberType v root
    if t = "" then .error (.message unionPanicText)
    else
      match ToField root (toCamelCase unionName ++ "_" ++ toCamelCase t) v i with
      | .error e => .error e
      | .ok (s, i2, q1) =>
        match unionLines root unionName rest i2 with
        | .error e => .error e
        | .ok (s2, i3, q2) => .ok ("\t" ++ s ++ "\n" ++ s2, i3, q1 ++ q2)
termination_by structural l

end

-- sortedKeys models sort.Slice over the key list with the length comparator.
-- The Go sort is unstable and the input order is map iteration order, which is
-- unspecified; the stable mergeSort over the association-list order realises one
-- legal outcome, with the list order standing for the iteration order.
def sortedKeys (props : List (String × Properties)) : List String :=
  List.insertionSort (fun a b => a.length ≤ b.length) (props.map Prod.fst)

-- ToMessageFields is the field loop of ToMessage: each sorted key is looked up
-- and rendered, threading the field counter; the rendered fields are kept as a
-- list (the buffer content is their concatenation with a newline after each).
def ToMessageFields (root : List (String × Properties)) (props : List (String × Properties))
    (keys : List String) (i : Nat) :
    Except Fault (List String × Nat × List (String × QItem)) :=
  match keys with
  | [] => .ok ([], i, [])
  | k :: rest =>
    match ToField root k (lookupProps props k) i with
    | .error e => .error e
    | .ok (s, i2, q1) =>
      match ToMessageFields root props rest i2 with
      | .error e => .error e
      | .ok (fs, i3, q2) => .ok (s :: fs, i3, q1 ++ q2)

-- renderMessage instantiates MESSAGE_TEMPLATE (note the tab the template places
-- after the value slot).
def renderMessage (name : String) (body : String) : String :=
  "\nmessage " ++ name ++ " \x7b\n" ++ body ++ "\t\n\x7d\n"

-- ToMessage consults the dedup list first: an already recorded Pascal name
-- yields the empty string and no work; otherwise the name is recorded, the
-- properties are rendered in ascending key-length order starting from field
-- number 1, and the message template is instantiated.
def ToMessage (root : List (String × Properties)) (messageName : String)
    (props : List (String × Properties)) (tn : List String) :
    Except Fault (String × List String × List (String × QItem)) :=
  let typeName := toPascalCase messageName
  if tn.contains typeName then .ok ("", tn, [])
  else
    match ToMessageFields root props (sortedKeys props) 1 with
    | .error e => .error e
    | .ok (fs, _, q) =>
      .ok (renderMessage typeName (sjoin (fs.map (· ++ "\n"))), tn ++ [typeName], q)

-- enumBody renders the member lines of an enum: the upper-cased concatenation of
-- the Pascal enum name and the sanitized value, numbered from zero.
def enumBody (enumName : String) (vals : List String) : String :=
  sjoin (vals.enum.map (fun e =>
    "\t" ++ upperStr (enumName ++ "_" ++ fixString e.2) ++ " = " ++ Nat.repr e.1 ++ ";\n"))

def renderEnum (name : String) (body : String) : String :=
  "\nenum " ++ name ++ " \x7b\n" ++ body ++ "\n\x7d\n"

def ToEnum (enumName : String) (enumValue : List String) (tn : List String) :
    String × List String :=
  let name := toPascalCase enumName
  if tn.contains name then ("", tn)
  else (renderEnum name (enumBody name enumValue), tn ++ [name])

-- ToProtobufBlocks is the definition loop of ToProtobuf, kept as a list of the
-- blocks written to the buffer: enums go through ToEnum, everything else through
-- ToMessage over the definition properties.
def ToProtobufBlocks (root : List (String × Properties)) (defs : List (String × Properties))
    (keys : List String) (tn : List String) :
    Except Fault (List String × List String × List (String × QItem)) :=
  match keys with
  | [] => .ok ([], tn, [])
  | k :: rest =>
    let value := lookupProps defs k
    let step : Except Fault (String × List String × List (String × QItem)) :=
      match GetType value with
      | none => .error .nilDeref
      | some .ENUM_TYPE =>
        match value.enum with
        | none => .error .nilDeref
        | some l =>
          let r := ToEnum k l tn
          .ok (r.1, r.2, [])
      | some _ => ToMessage root k value.properties tn
    match step with
    | .error e => .error e
    | .ok (s, tn2, q1) =>
      match ToProtobufBlocks root defs rest tn2 with
      | .error e => .error e
      | .ok (bs, tn3, q2) => .ok (s :: bs, tn3, q1 ++ q2)

-- ToProtobuf concatenates the blocks, writing a newline after each definition.
def ToProtobuf (defs : List (String × Properties)) (tn : List String) :
    Except Fault (String × List String × List (String × QItem)) :=
  match ToProtobufBlocks defs defs (sortedKeys defs) tn with
  | .error e => .error e
  | .ok (bs, tn2, q) => .ok (sjoin (bs.map (· ++ "\n")), tn2, q)

-- qUpdate is a Go map write on the queue: overwrite in place when the key is
-- present, append otherwise; qUpdateAll applies a list of writes in order.
def qUpdate (q : List (String × QItem)) (k : String) (v : QItem) : List (String × QItem) :=
  if q.any (fun e => e.1 == k) then q.map (fun e => if e.1 == k then (k, v) else e)
  else q ++ [(k, v)]

def qUpdateAll (q : List (String × QItem)) : List (String × QItem) → List (String × QItem)
  | [] => q
  | (k, v) :: rest => qUpdateAll (qUpdate q k v) rest

-- processEntry dispatches one queue entry on the shape of the stored value, as
-- the type switches in Parse do: a properties map or a whole node becomes a
-- message under the queue key, an enum value list becomes an enum.
def processEntry (root : List (String × Properties)) (k : String) (item : QItem)
    (tn : List String) : Except Fault (String × List String × List (String × QItem)) :=
  match item with
  | .props m => ToMessage root k m tn
  | .node p => ToMessage root k p.properties tn
  | .enumVals l =>
    let r := ToEnum k l tn
    .ok (r.1, r.2, [])

def processPass (root : List (String × Properties)) (entries : List (String × QItem))
    (tn : List String) : Except Fault (List String × List String × List (String × QItem)) :=
  match entries with
  | [] => .ok ([], tn, [])
  | (k, item) :: rest =>
    match processEntry root k item tn with
    | .error e => .error e
    | .ok (s, tn2, q1) =>
      match processPass root rest tn2 with
      | .error e => .error e
      | .ok (fs, tn3, q2) => .ok (s :: fs, tn3, q1 ++ q2)

-- drain is the pushBacks loop of Parse: process the current queue entries,
-- apply the map writes produced along the way, delete the processed keys, and
-- repeat until the queue is empty.  The source loop terminates because every
-- pass either records a fresh Pascal name or enqueues nothing new; the fuel
-- argument stands in for that bound, and running out of fuel is the distinct
-- Fault.fuel outcome so that no real behaviour is conflated with it.
def drain (root : List (String × Properties)) (fuel : Nat) (queue : List (String × QItem))
    (tn : List String) : Except Fault (List String × List String) :=
  match fuel with
  | 0 => match queue with | [] => .ok ([], tn) | _ => .error .fuel
  | fuel + 1 =>
    match queue with
    | [] => .ok ([], tn)
    | _ =>
      match processPass root queue tn with
      | .error e => .error e
      | .ok (fs, tn2, adds) =>
        let snapKeys := queue.map Prod.fst
        let newQueue := (qUpdateAll queue adds).filter (fun e => ¬ snapKeys.contains e.1)
        match drain root fuel newQueue tn2 with
        | .error e => .error e
        | .ok (fs2, tn3) => .ok (fs ++ fs2, tn3)

-- Schema keeps the one field of the decoded root document that drives the
-- translation.
structure Schema where
  definitions : List (String × Properties)

-- headers instantiates HEADERS with the package name.
def headers (packageName : String) : String :=
  "\nsyntax = \"proto3\";\n\npackage " ++ packageName ++
    ";\n\nimport \"google/protobuf/any.proto\";\n\n"

-- Parse is the top-level operation: the header fragment, then the root
-- definitions fragment, then one fragment per processed queue entry.
def Parse (schema : Schema) (packageName : String) (fuel : Nat) :
    Except Fault (List String) :=
  match ToProtobuf schema.definitions [] with
  | .error e => .error e
  | .ok (body, tn, adds) =>
    match drain schema.definitions fuel (qUpdateAll [] adds) tn with
    | .error e => .error e
    | .ok (fs, _) => .ok (headers packageName :: body :: fs)

-- ParseBlocks lists every message or enum block of a run individually: the root
-- blocks of ToProtobufBlocks followed by the queue fragments, together with the
-- final dedup list.  Parse renders the same root blocks joined into one
-- fragment.
def ParseBlocks (schema : Schema) (fuel : Nat) :
    Except Fault (List String × List String) :=
  match ToProtobufBlocks schema.definitions schema.definitions
      (sortedKeys schema.definitions) [] with
  | .error e => .error e
  | .ok (bs, tn, adds) =>
    match drain schema.definitions fuel (qUpdateAll [] adds) tn with
    | .error e => .error e
    | .ok (fs, tn2) => .ok (bs ++ fs, tn2)

-- The remaining definitions are observers over the produced text and the
-- well-formedness predicates under which the format theorems are stated; they
-- are not part of the embedded program.

-- numsGo scans characters for the pattern space, equals, space followed by a
-- digit run and collects the digit runs in order: these are the field (or enum
-- member) numbers readable from a rendered block.  It is a four-state machine:
-- state 0 scanning, state 1 after a space, state 2 after space equals, state 3
-- after space equals space collecting digits into acc.
def stepState (c : Char) : Nat :=
  if c = ' ' then 1 else 0

def numsGo : List Char → Nat → List Char → List String
  | [], st, acc => if st = 3 ∧ ¬acc.isEmpty then [String.mk acc.reverse] else []
  | c :: rest, st, acc =>
    if st = 3 then
      if c.isDigit then numsGo rest 3 (c :: acc)
      else if acc.isEmpty then numsGo rest (stepState c) []
      else String.mk acc.reverse :: numsGo rest (stepState c) []
    else if st = 2 then
      if c = ' ' then numsGo rest 3 []
      else numsGo rest (stepState c) []
    else if st = 1 then
      if c = '=' then numsGo rest 2 []
      else numsGo rest (stepState c) []
    else
      numsGo rest (stepState c) []

def nums (s : String) : List String :=
  numsGo s.toList 0 []

-- blockName reads the defined type name off a rendered block: the word after
-- "message " or "enum " on the first line.  The empty string (a deduplicated
-- emission) has no name.
def blockName (b : String) : Option String :=
  match b.toList with
  | '\n' :: 'm' :: 'e' :: 's' :: 's' :: 'a' :: 'g' :: 'e' :: ' ' :: rest =>
    some (String.mk (rest.takeWhile (fun c => c ≠ ' ')))
  | '\n' :: 'e' :: 'n' :: 'u' :: 'm' :: ' ' :: rest =>
    some (String.mk (rest.takeWhile (fun c => c ≠ ' ')))
  | _ => none

-- plainChar and plainName delimit the identifier alphabet the format theorems
-- assume for names taken from the schema: ASCII letters, digits, underscore and
-- dash.  Such names survive the case converters without producing a space, an
-- equals sign, a quote, a brace or a newline.  idChar is the image alphabet
-- after sanitization (no dash left).
def validChars : List Char :=
  ("abcdefghijklmnopqrstuvwxyzABCDEFGHIJKLMNOPQRSTUVWXYZ0123456789_-").toList

def plainChar (c : Char) : Bool :=
  validChars.contains c

def plainName (s : String) : Bool :=
  s.toList.all plainChar

def idChars : List Char :=
  ("abcdefghijklmnopqrstuvwxyzABCDEFGHIJKLMNOPQRSTUVWXYZ0123456789_").toList

def idChar (c : Char) : Bool :=
  idChars.contains c

def idName (s : String) : Bool :=
  s.toList.all idChar

-- noEq and noSpEq are the side conditions of the number scanner: a chunk with
-- no equals sign at all, and a chunk in which no equals sign directly follows a
-- space.
def noEq (l : List Char) : Bool :=
  l.all (fun c => c ≠ '=')

def noSpEq : List Char → Bool
  | [] => true
  | [_] => true
  | c1 :: c2 :: rest => (¬(c1 = ' ' ∧ c2 = '=') : Bool) && noSpEq (c2 :: rest)

-- endSt is the scanner state left behind by a chunk free of captures: the
-- state after its last character (or the entry state for the empty chunk).
def endSt (l : List Char) (st : Nat) : Nat :=
  l.foldl (fun _ c => stepState c) st

-- EmitsNums s ns states that scanning s followed by anything, entering in the
-- neutral states, reads off exactly the numbers ns from s and hands the rest of
-- the input to the scanner in state zero.
def EmitsNums (s : String) (ns : List String) : Prop :=
  ∀ ys st, st ≤ 1 → numsGo (s.toList ++ ys) st [] = ns ++ numsGo ys 0 []

-- safeHead holds of a string that still has a character other than an equals
-- sign after its leading tabs; every rendered field satisfies it.
def safeHead (s : String) : Bool :=
  match (s.toList.dropWhile (fun c => c = '\t')).head? with
  | some c => c ≠ '='
  | none => false

-- plainSegs requires the final slash segment of a ref string, the one the
-- translator uses as a type name, to be a plain name.
def plainSegs (r : String) : Bool :=
  plainName ((splitOnSlash r).getLastD (""))

-- canonicalType lists the type strings a well-formed schema uses; the scalar
-- mapper turns each into a fixed proto3 type text free of digits and equals
-- signs.
def canonicalType (t : Types) : Bool :=
  t = NONE ∨ t = STRING ∨ t = NUMBER ∨ t = INTEGER ∨ t = OBJECT ∨ t = ARRAY ∨
    t = BOOLEAN ∨ t = NULL ∨ t = ANY ∨ t = "String"

-- goodProps: every type canonical, every ref made of plain segments, every
-- property key plain, recursively through items, union members and nested
-- properties.
mutual

def goodProps : Properties → Bool
  | .mk ty it rf ao _ pr =>
    canonicalType ty &&
    (match it with | none => true | some p => goodProps p) &&
    (match rf with | none => true | some r => plainSegs r) &&
    (match ao with | none => true | some l => goodPropsList l) &&
    goodPropsAssoc pr

def goodPropsList : List Properties → Bool
  | [] => true
  | p :: rest => goodProps p && goodPropsList rest

def goodPropsAssoc : List (String × Properties) → Bool
  | [] => true
  | (k, p) :: rest => plainName k && goodProps p && goodPropsAssoc rest

end

-- specRefWalk follows the wording of the reference-resolution claim: drop the
-- leading hash segment and skip an index-1 definitions segment; the remaining
-- segments are the ones descended through.  It exists to be compared with the
-- walk GetRef performs.
def specRefWalk (path : List String) : List String :=
  match path.drop 1 with
  | [] => []
  | s :: rest => if s = "definitions" then rest else s :: rest

-- Concrete nodes and schemas used by the counterexamples and witnesses.

def arrayComplexNode : Properties :=
  .mk ARRAY (some (.mk OBJECT none none none none [])) none none none []

def arrayNoItems : Properties := .mk ARRAY none none none none []

def nullMember : Properties := .mk NULL none none none none []

def emptyMember : Properties := .mk NONE none none none none []

def stringMember : Properties := .mk STRING none none none none []

def allNullUnion : Properties := .mk NONE none none (some [nullMember, nullMember]) none []

-- refToItem is a bare reference to the Item definition; c4Schema reaches the
-- Item target through two distinct field names.
def refToItem : Properties := .mk NONE none (some ("#/definitions/Item")) none none []

def itemDef : Properties := .mk OBJECT none none none none [("a", stringMember)]

def c4Schema : Schema :=
  ⟨[("Foo", .mk OBJECT none none none none [("x", refToItem), ("y", refToItem)]),
    ("Item", itemDef)]⟩

-- c2a and c2b hold the same definitions map handed over in two iteration
-- orders; the two keys share a length, so the length sort does not separate
-- them.
def c2DefA : Properties := .mk OBJECT none none none none [("p", stringMember)]

def c2DefB : Properties := .mk OBJECT none none none none [("q", stringMember)]

def c2a : Schema := ⟨[("Aa", c2DefA), ("Ab", c2DefB)]⟩

def c2b : Schema := ⟨[("Ab", c2DefB), ("Aa", c2DefA)]⟩

-- isPrefixList and containsSub give strings.Contains at the character level;
-- hasJsonName observes whether a rendered field line carries the json_name
-- attribute.  eqPre holds of a chunk in which every equals sign immediately
-- follows a space: the shape of every attribute-free field line, and a shape
-- in which json_name= cannot occur.
def isPrefixList : List Char → List Char → Bool
  | [], _ => true
  | _ :: _, [] => false
  | a :: as, b :: bs => ((a = b) : Bool) && isPrefixList as bs

def containsSub (pat : List Char) : List Char → Bool
  | [] => isPrefixList pat []
  | c :: rest => isPrefixList pat (c :: rest) || containsSub pat rest

def hasJsonName (s : String) : Bool :=
  containsSub (("json_name=").toList) s.toList

def eqPre : List Char → Bool
  | c1 :: c2 :: rest => ((¬(c2 = '=') ∨ c1 = ' ') : Bool) && eqPre (c2 :: rest)
  | _ => true

-- goodItem and goodQueue extend the schema well-formedness to handler queue
-- entries: plain keys, and well-formed stored maps and nodes.
def goodItem : QItem → Bool
  | .props m => goodPropsAssoc m
  | .node p => goodProps p
  | .enumVals _ => true

def goodQueue : List (String × QItem) → Bool
  | [] => true
  | (k, it) :: rest => plainName k && goodItem it && goodQueue rest

-- refOk holds of a reference string whose slash path has at least three
-- segments, the shape "#/definitions/Name" takes.  GetRef resolves such a
-- reference by key lookups and property projections alone and never hands the
-- root map itself back, so the resolution depends on the root only through
-- lookups.
def refOk (r : String) : Bool :=
  decide (2 < (splitOnSlash r).length)

-- refDeep: every reference in the node, recursively through items, union
-- members and nested properties, is a three-or-more-segment path.
mutual

def refDeep : Properties → Bool
  | .mk _ it rf ao _ pr =>
    (match rf with | none => true | some r => refOk r) &&
    (match it with | none => true | some p => refDeep p) &&
    (match ao with | none => true | some l => refDeepList l) &&
    refDeepAssoc pr

def refDeepList : List Properties → Bool
  | [] => true
  | p :: rest => refDeep p && refDeepList rest

def refDeepAssoc : List (String × Properties) → Bool
  | [] => true
  | (_, p) :: rest => refDeep p && refDeepAssoc rest

end

-- refDeepItem and refDeepQueue extend the reference-shape condition to queue
-- entries.
def refDeepItem : QItem → Bool
  | .props m => refDeepAssoc m
  | .node p => refDeep p
  | .enumVals _ => true

def refDeepQueue : List (String × QItem) → Bool
  | [] => true
  | (_, it) :: rest => refDeepItem it && refDeepQueue rest

-- c2cDef and the c2c/c2d definition lists: the same ref-carrying definitions
-- map handed over in two iteration orders, with key lengths the length sort
-- separates.
def c2cDef : Properties := .mk OBJECT none none none none [("p", refToItem)]

def c2cDefs : List (String × Properties) := [("A", c2cDef), ("Item", itemDef)]

def c2dDefs : List (String × Properties) := [("Item", itemDef), ("A", c2cDef)]

end J2P

namespace J2P

/-- C1 counterexample: an ARRAY-COMPLEX field does not emit nothing.  On a
concrete array-of-objects node the field emitter returns the nonempty
placeholder text, while the claim asserts that no text at all is contributed;
the counter is indeed left unchanged and nothing is enqueued. -/
theorem C1_counterexample :
    ToField [] ("x") arrayComplexNode 1 = .ok ("--Invalid Type--", 1, []) ∧
    ("--Invalid Type--" : String) ≠ "" :=
  ⟨rfl, by decide⟩

set_option maxHeartbeats 3200000 in
/-- C1 amended: for every property node classified ARRAY-COMPLEX the field
emitter returns the fixed placeholder text, leaves the field-number counter
unchanged and enqueues nothing. -/
theorem C1_amended (root : List (String × Properties)) (name : String) (p : Properties)
    (i : Nat) (h : GetType p = some .COMPLEX_ARRAY_TYPE) :
    ToField root name p i = .ok ("--Invalid Type--", i, []) := by
  obtain ⟨ty, it, rf, ao, en, pr⟩ := p
  rw [ToField.eq_def, h]
  cases ao <;> rfl

/-- C1 amended witness: the amended statement evaluated on the concrete
array-of-objects node. -/
theorem C1_amended_witness :
    GetType arrayComplexNode = some .COMPLEX_ARRAY_TYPE ∧
    ToField [] ("x") arrayComplexNode 1 = .ok ("--Invalid Type--", 1, []) :=
  ⟨rfl, C1_amended [] ("x") arrayComplexNode 1 rfl⟩

/-- C3 counterexample: the classifier is not total.  On a node with type array
and items absent it dereferences a nil pointer (modelled none) instead of
returning one of the nine kinds. -/
theorem C3_counterexample : GetType arrayNoItems = none := rfl

/-- C3 amended: on every property node that is not an array without items, the
classifier returns exactly one of the nine kinds by first match in the
documented order: ENUM when enum is present, else UNION when anyOf is present,
else the four array subcases when type is array, else OBJECT-NESTED, else REF,
else PRIMITIVE. -/
theorem C3_amended (p : Properties) (h : p.type = ARRAY → p.items ≠ none) :
    (∃ k, GetType p = some k) ∧
    (p.enum.isSome → GetType p = some .ENUM_TYPE) ∧
    (p.enum = none → p.anyOf.isSome → GetType p = some .UNION_TYPE) ∧
    (p.enum = none → p.anyOf = none → p.type = ARRAY → ∀ it, p.items = some it →
      GetType p = some (if it.type = NONE ∧ it.ref.isNone then .UNKOWN_ARRAY_TYPE
        else if it.ref.isSome then .REF_ARRAY_TYPE
        else if it.type = OBJECT then .COMPLEX_ARRAY_TYPE
        else .PRIMITIVE_ARRAY_TYPE)) ∧
    (p.enum = none → p.anyOf = none → p.type ≠ ARRAY → p.type = OBJECT →
      GetType p = some .NESTED_OBJECT_TYPE) ∧
    (p.enum = none → p.anyOf = none → p.type ≠ ARRAY → p.type ≠ OBJECT → p.ref.isSome →
      GetType p = some .REF_TYPE) ∧
    (p.enum = none → p.anyOf = none → p.type ≠ ARRAY → p.type ≠ OBJECT → p.ref = none →
      GetType p = some .PRIMITIVE_TYPE) := by
  obtain ⟨ty, it, rf, ao, en, pr⟩ := p
  simp only [Properties.enum, Properties.anyOf, Properties.type, Properties.items,
    Properties.ref] at h ⊢
  refine ⟨?_, ?_, ?_, ?_, ?_, ?_, ?_⟩
  · cases en with
    | some l => exact ⟨.ENUM_TYPE, by simp [GetType, Properties.enum]⟩
    | none =>
      cases ao with
      | some l => exact ⟨.UNION_TYPE, by simp [GetType, Properties.enum, Properties.anyOf]⟩
      | none =>
        by_cases hARR : ty = ARRAY
        · subst hARR
          cases hit : it with
          | none => exact absurd hit (h rfl)
          | some itv =>
            subst hit
            obtain ⟨t2, i2, r2, a2, e2, pr2⟩ := itv
            simp only [GetType, Properties.enum, Properties.anyOf, Properties.type,
              Properties.items, Properties.ref, Option.isSome_none, Bool.false_eq_true,
              if_false, if_pos rfl]
            split_ifs <;> exact ⟨_, rfl⟩
        · by_cases hOBJ : ty = OBJECT
          · subst hOBJ
            exact ⟨.NESTED_OBJECT_TYPE, by simp +decide [GetType, Properties.enum,
              Properties.anyOf, Properties.type]⟩
          · cases rf with
            | some r =>
              exact ⟨.REF_TYPE, by simp [GetType, Properties.enum, Properties.anyOf,
                Properties.type, Properties.ref, hARR, hOBJ]⟩
            | none =>
              exact ⟨.PRIMITIVE_TYPE, by simp [GetType, Properties.enum, Properties.anyOf,
                Properties.type, Properties.ref, hARR, hOBJ]⟩
  · intro he
    simp only [GetType, Properties.enum, he, Option.isSome_some, if_true]
  · intro he ha
    subst he
    simp [GetType, Properties.enum, Properties.anyOf, ha]
  · intro he ha hARR itv hit
    subst he ha hARR hit
    obtain ⟨t2, i2, r2, a2, e2, pr2⟩ := itv
    simp only [GetType, Properties.enum, Properties.anyOf, Properties.type, Properties.items,
      Properties.ref, Option.isSome_none, Bool.false_eq_true, if_false, if_pos rfl]
    split_ifs <;> rfl
  · intro he ha hARR hOBJ
    subst he ha hOBJ
    simp [GetType, Properties.enum, Properties.anyOf, Properties.type, hARR]
  · intro he ha hARR hOBJ hr
    subst he ha
    simp [GetType, Properties.enum, Properties.anyOf, Properties.type, Properties.ref,
      hARR, hOBJ, hr]
  · intro he ha hARR hOBJ hr
    subst he ha hr
    simp [GetType, Properties.enum, Properties.anyOf, Properties.type, Properties.ref,
      hARR, hOBJ]

/-- C3 amended witness: the amended statement evaluated at a node of type object
with a nested property, where the array hypothesis is vacuous. -/
theorem C3_amended_witness :
    (∃ k, GetType (Properties.mk OBJECT none none none none []) = some k) ∧
    ((Properties.mk OBJECT none none none none []).enum.isSome →
      GetType (Properties.mk OBJECT none none none none []) = some .ENUM_TYPE) ∧
    ((Properties.mk OBJECT none none none none []).enum = none →
      (Properties.mk OBJECT none none none none []).anyOf.isSome →
      GetType (Properties.mk OBJECT none none none none []) = some .UNION_TYPE) ∧
    ((Properties.mk OBJECT none none none none []).enum = none →
      (Properties.mk OBJECT none none none none []).anyOf = none →
      (Properties.mk OBJECT none none none none []).type = ARRAY →
      ∀ it, (Properties.mk OBJECT none none none none []).items = some it →
      GetType (Properties.mk OBJECT none none none none []) =
        some (if it.type = NONE ∧ it.ref.isNone then .UNKOWN_ARRAY_TYPE
          else if it.ref.isSome then .REF_ARRAY_TYPE
          else if it.type = OBJECT then .COMPLEX_ARRAY_TYPE
          else .PRIMITIVE_ARRAY_TYPE)) ∧
    ((Properties.mk OBJECT none none none none []).enum = none →
      (Properties.mk OBJECT none none none none []).anyOf = none →
      (Properties.mk OBJECT none none none none []).type ≠ ARRAY →
      (Properties.mk OBJECT none none none none []).type = OBJECT →
      GetType (Properties.mk OBJECT none none none none []) = some .NESTED_OBJECT_TYPE) ∧
    ((Properties.mk OBJECT none none none none []).enum = none →
      (Properties.mk OBJECT none none none none []).anyOf = none →
      (Properties.mk OBJECT none none none none []).type ≠ ARRAY →
      (Properties.mk OBJECT none none none none []).type ≠ OBJECT →
      (Properties.mk OBJECT none none none none []).ref.isSome →
      GetType (Properties.mk OBJECT none none none none []) = some .REF_TYPE) ∧
    ((Properties.mk OBJECT none none none none []).enum = none →
      (Properties.mk OBJECT none none none none []).anyOf = none →
      (Properties.mk OBJECT none none none none []).type ≠ ARRAY →
      (Properties.mk OBJECT none none none none []).type ≠ OBJECT →
      (Properties.mk OBJECT none none none none []).ref = none →
      GetType (Properties.mk OBJECT none none none none []) = some .PRIMITIVE_TYPE) :=
  C3_amended (Properties.mk OBJECT none none none none [])
    (by intro hx; exact absurd hx (by decide))

/-- C10: a two-member union whose members are both of type null crashes with a
nil dereference in the union emitter, both at the emitter itself and through the
field emitter on a node carrying that anyOf list, and this crash is distinct
from the documented fatal failure for unions lacking both type and ref. -/
theorem C10_theorem :
    ToUnionProperty [] ("n") [nullMember, nullMember] 1 = .error .nilDeref ∧
    ToField [] ("n") allNullUnion 1 = .error .nilDeref ∧
    Fault.nilDeref ≠ Fault.message unionPanicText :=
  ⟨rfl, rfl, by decide⟩

/-- C8: for a property node whose ref is set, the resolver fails exactly when
the ref starts with http case-insensitively or its segment at index 1 is the
defs container; otherwise it returns the final segment together with the map
reached by dropping the leading segment, skipping an index-1 definitions
segment, and descending through the properties map of every remaining
segment. -/
theorem C8_theorem (p : Properties) (root : List (String × Properties)) (r : String)
    (h : p.ref = some r) :
    ((∃ e, GetRef p root = .error e) ↔
      (startsWithHttp r = true ∨ (splitOnSlash r).get? 1 = some ("$defs"))) ∧
    (startsWithHttp r = false → (splitOnSlash r).get? 1 ≠ some ("$defs") →
      GetRef p root =
        .ok ((splitOnSlash r).getLastD (""), descend root (specRefWalk (splitOnSlash r)))) := by
  by_cases hh : startsWithHttp r
  · refine ⟨?_, ?_⟩
    · simp only [GetRef, h, hh, if_true]
      exact ⟨fun _ => Or.inl (by simp [hh]), fun _ => ⟨_, rfl⟩⟩
    · intro hf
      exact absurd hh (by simp [hf])
  · simp only [GetRef, h, hh, Bool.false_eq_true, if_false]
    rcases hpath : splitOnSlash r with _ | ⟨s0, rest0⟩
    · simp [specRefWalk, descend]
    · rcases rest0 with _ | ⟨s1, rest1⟩
      · simp [specRefWalk, descend]
      · by_cases hd : s1 = "$defs"
        · subst hd
          simp
        · simp only [hd, Bool.false_eq_true, if_false, List.get?]
          refine ⟨⟨fun he => ?_, fun hor => ?_⟩, fun _ _ => ?_⟩
          · obtain ⟨e, he⟩ := he
            by_cases hdef : s1 = "definitions" <;> simp [hdef] at he
          · rcases hor with hor | hor
            · exact absurd hor (by simp [hh])
            · exact absurd hor (by simp [hd])
          · by_cases hdef : s1 = "definitions"
            · subst hdef
              simp [specRefWalk]
            · simp [hdef, specRefWalk, descend]

/-- C8 witness: the resolver characterization evaluated at a node referencing
the Foo definition. -/
theorem C8_witness :
    ((∃ e, GetRef (Properties.mk NONE none (some ("#/definitions/Foo")) none none [])
        [("Foo", Properties.mk OBJECT none none none none [("a", Properties.empty)])] =
        .error e) ↔
      (startsWithHttp "#/definitions/Foo" = true ∨
        (splitOnSlash "#/definitions/Foo").get? 1 = some ("$defs"))) ∧
    (startsWithHttp "#/definitions/Foo" = false →
      (splitOnSlash "#/definitions/Foo").get? 1 ≠ some ("$defs") →
      GetRef (Properties.mk NONE none (some ("#/definitions/Foo")) none none [])
        [("Foo", Properties.mk OBJECT none none none none [("a", Properties.empty)])] =
        .ok ((splitOnSlash "#/definitions/Foo").getLastD (""),
          descend [("Foo", Properties.mk OBJECT none none none none [("a", Properties.empty)])]
            (specRefWalk (splitOnSlash "#/definitions/Foo")))) :=
  C8_theorem (Properties.mk NONE none (some ("#/definitions/Foo")) none none [])
    [("Foo", Properties.mk OBJECT none none none none [("a", Properties.empty)])]
    ("#/definitions/Foo") rfl

/-- C9 counterexample: a two-member union with exactly one null member whose
other member has neither a type nor a ref does not render an optional field
line; the emitter fails with the documented union panic instead. -/
theorem C9_counterexample :
    ToUnionProperty [] ("name") [emptyMember, nullMember] 1 =
      .error (.message unionPanicText) ∧
    (ToUnionProperty [] ("name") [emptyMember, nullMember] 1).isOk = false :=
  ⟨rfl, rfl⟩

set_option maxHeartbeats 3200000 in
/-- C9 amended: a two-member union with exactly one null member renders the
non-null member as a single optional field line under the composite name,
with no oneof wrapper, in either member order, provided the non-null member
has a nonempty effective type and its own field rendering succeeds. -/
theorem C9_amended (root : List (String × Properties)) (unionName : String)
    (v nl : Properties) (i : Nat) (s : String) (i2 : Nat) (q : List (String × QItem))
    (hnl : nl.type = NULL) (hv : v.type ≠ NULL)
    (ht : unionMemberType v root ≠ "")
    (hf : ToField root (toCamelCase unionName ++ "_" ++
      toCamelCase (unionMemberType v root)) v i = .ok (s, i2, q)) :
    ToUnionProperty root unionName [v, nl] i = .ok ("\toptional " ++ dropTabs s, i2, q) ∧
    ToUnionProperty root unionName [nl, v] i = .ok ("\toptional " ++ dropTabs s, i2, q) := by
  constructor
  · rw [ToUnionProperty.eq_def]
    simp [hnl, hv, ht, hf]
  · rw [ToUnionProperty.eq_def]
    simp [hnl, hv, ht, hf]

/-- C9 amended witness: the optional rendering evaluated on the anyOf string or
null union of the specification, in both member orders. -/
theorem C9_amended_witness :
    ToUnionProperty [] ("name") [stringMember, nullMember] 1 =
      .ok ("\toptional string name_string = 1 [json_name=\"name_string\"];", 2, []) ∧
    ToUnionProperty [] ("name") [nullMember, stringMember] 1 =
      .ok ("\toptional string name_string = 1 [json_name=\"name_string\"];", 2, []) :=
  C9_amended [] ("name") stringMember nullMember 1
    ("\tstring name_string = 1 [json_name=\"name_string\"];") 2 [] rfl (by decide)
    (by decide) rfl

/-- C4 counterexample: a reached ref target does not yield exactly one emitted
definition.  In a schema with two definitions in which the single target Item
is reached by the two field names x and y, the run emits four message blocks:
Item itself plus one copy per referencing field name, each with the identical
body, because the resolved properties are enqueued under the field name rather
than the target name. -/
theorem C4_counterexample :
    ParseBlocks c4Schema 3 =
      .ok (["\nmessage Foo \x7b\n\tItem x = 1;\n\tItem y = 2;\n\t\n\x7d\n",
            "\nmessage Item \x7b\n\tstring a = 1;\n\t\n\x7d\n",
            "\nmessage X \x7b\n\tstring a = 1;\n\t\n\x7d\n",
            "\nmessage Y \x7b\n\tstring a = 1;\n\t\n\x7d\n"],
           ["Foo", "Item", "X", "Y"]) ∧
    GetRef refToItem c4Schema.definitions = .ok ("Item", [("a", stringMember)]) ∧
    c4Schema.definitions.length = 2 :=
  ⟨rfl, rfl, rfl⟩

set_option maxHeartbeats 3200000 in
/-- C4 amended: every reached ref target is enqueued exactly once per reaching
field, under the referencing field name rather than the target name: a field
classified REF (or ARRAY-REF) whose reference resolves emits one line naming
the Pascal-cased target and hands the handler exactly the pair of the field
name and the resolved map, so one emitted copy arises per distinct reaching
field name (subject to deduplication), not exactly one per target. -/
theorem C4_amended :
    (∀ root name p i refType ref, GetType p = some .REF_TYPE →
      GetRef p root = .ok (refType, ref) →
      ToField root name p i =
        .ok ((ToRefProperty name refType i).1, i + 1, [(name, .props ref)])) ∧
    (∀ root name p it i refType ref, GetType p = some .REF_ARRAY_TYPE →
      p.items = some it → GetRef it root = .ok (refType, ref) →
      ToField root name p i =
        .ok ((ToRefArrayProperty name refType i).1, i + 1, [(name, .props ref)])) := by
  constructor
  · intro root name p i refType ref h hr
    obtain ⟨ty, it, rf, ao, en, pr⟩ := p
    rw [ToField.eq_def, h]
    cases ao
    · simp [hr, ToRefProperty]
    · simp [hr, ToRefProperty]
  · intro root name p it i refType ref h hit hr
    obtain ⟨ty, it0, rf, ao, en, pr⟩ := p
    simp only [Properties.items] at hit
    subst hit
    rw [ToField.eq_def, h]
    cases ao
    · simp [Properties.items, hr, ToRefArrayProperty, ToRefProperty]
    · simp [Properties.items, hr, ToRefArrayProperty, ToRefProperty]

/-- C4 amended witness: the enqueue behaviour evaluated on the x field of the
counterexample schema, and on an array of references to Item. -/
theorem C4_amended_witness :
    ToField c4Schema.definitions ("x") refToItem 1 =
      .ok ((ToRefProperty ("x") ("Item") 1).1, 2, [(("x"), .props [("a", stringMember)])]) ∧
    ToField c4Schema.definitions ("xs")
      (Properties.mk ARRAY (some refToItem) none none none []) 1 =
      .ok ((ToRefArrayProperty ("xs") ("Item") 1).1, 2, [(("xs"), .props [("a", stringMember)])]) :=
  ⟨C4_amended.1 c4Schema.definitions ("x") refToItem 1 ("Item") [("a", stringMember)] rfl rfl,
   C4_amended.2 c4Schema.definitions ("xs") (Properties.mk ARRAY (some refToItem) none none none [])
     refToItem 1 ("Item") [("a", stringMember)] rfl rfl rfl⟩

/-- C2 counterexample: two runs on the same definitions map, modelled by the
same association list in two iteration orders, produce different bytes even
though no anonymous type is queued at all: the root definitions Aa and Ab have
keys of equal length, the length sort does not separate them, and the two
fragment lists differ in the root fragment while both consist of only the
header and the root fragment, so the difference is not intra-pass queue
ordering. -/
theorem C2_counterexample :
    c2a.definitions.Perm c2b.definitions ∧
    Parse c2a ("test") 1 =
      .ok ["\nsyntax = \"proto3\";\n\npackage test;\n\nimport \"google/protobuf/any.proto\";\n\n",
           "\nmessage Aa \x7b\n\tstring p = 1;\n\t\n\x7d\n\n\nmessage Ab \x7b\n\tstring q = 1;\n\t\n\x7d\n\n"] ∧
    Parse c2b ("test") 1 =
      .ok ["\nsyntax = \"proto3\";\n\npackage test;\n\nimport \"google/protobuf/any.proto\";\n\n",
           "\nmessage Ab \x7b\n\tstring q = 1;\n\t\n\x7d\n\n\nmessage Aa \x7b\n\tstring p = 1;\n\t\n\x7d\n\n"] ∧
    Parse c2a ("test") 1 ≠ Parse c2b ("test") 1 := by
  refine ⟨List.Perm.swap _ _ _, rfl, rfl, ?_⟩
  intro h
  have h2 : (["\nsyntax = \"proto3\";\n\npackage test;\n\nimport \"google/protobuf/any.proto\";\n\n",
      "\nmessage Aa \x7b\n\tstring p = 1;\n\t\n\x7d\n\n\nmessage Ab \x7b\n\tstring q = 1;\n\t\n\x7d\n\n"] : List String) =
      ["\nsyntax = \"proto3\";\n\npackage test;\n\nimport \"google/protobuf/any.proto\";\n\n",
       "\nmessage Ab \x7b\n\tstring q = 1;\n\t\n\x7d\n\n\nmessage Aa \x7b\n\tstring p = 1;\n\t\n\x7d\n\n"] := by
    have ha : Parse c2a ("test") 1 =
        .ok ["\nsyntax = \"proto3\";\n\npackage test;\n\nimport \"google/protobuf/any.proto\";\n\n",
             "\nmessage Aa \x7b\n\tstring p = 1;\n\t\n\x7d\n\n\nmessage Ab \x7b\n\tstring q = 1;\n\t\n\x7d\n\n"] := rfl
    have hb : Parse c2b ("test") 1 =
        .ok ["\nsyntax = \"proto3\";\n\npackage test;\n\nimport \"google/protobuf/any.proto\";\n\n",
             "\nmessage Ab \x7b\n\tstring q = 1;\n\t\n\x7d\n\n\nmessage Aa \x7b\n\tstring p = 1;\n\t\n\x7d\n\n"] := rfl
    rw [ha, hb] at h
    exact Except.ok.inj h
  simp +decide at h2

-- Character alphabet lemmas, all by finite enumeration of the two alphabets.

theorem mem_validChars_of_plainChar {c : Char} (h : plainChar c = true) : c ∈ validChars :=
  List.elem_iff.mp h

theorem mem_idChars_of_idChar {c : Char} (h : idChar c = true) : c ∈ idChars :=
  List.elem_iff.mp h

theorem idChar_fixChar {c : Char} (h : plainChar c = true) : idChar (fixChar c) = true := by
  have hall : validChars.all (fun c => idChar (fixChar c)) = true := by decide
  exact List.all_eq_true.mp hall c (mem_validChars_of_plainChar h)

theorem plainChar_of_idChar {c : Char} (h : idChar c = true) : plainChar c = true := by
  have hall : idChars.all (fun c => plainChar c) = true := by decide
  exact List.all_eq_true.mp hall c (mem_idChars_of_idChar h)

theorem idChar_toLower {c : Char} (h : idChar c = true) : idChar c.toLower = true := by
  have hall : idChars.all (fun c => idChar c.toLower) = true := by decide
  exact List.all_eq_true.mp hall c (mem_idChars_of_idChar h)

theorem idChar_toUpper {c : Char} (h : idChar c = true) : idChar c.toUpper = true := by
  have hall : idChars.all (fun c => idChar c.toUpper) = true := by decide
  exact List.all_eq_true.mp hall c (mem_idChars_of_idChar h)

theorem idChar_excludes {c : Char} (h : idChar c = true) :
    c ≠ '=' ∧ c ≠ ' ' ∧ c ≠ '\n' ∧ c ≠ '\t' ∧ c ≠ '"' ∧ c ≠ '.' := by
  have hall : idChars.all
      (fun c => c ≠ '=' ∧ c ≠ ' ' ∧ c ≠ '\n' ∧ c ≠ '\t' ∧ c ≠ '"' ∧ c ≠ '.' : Char → Bool)
      = true := by decide
  have := List.all_eq_true.mp hall c (mem_idChars_of_idChar h)
  simp only [decide_eq_true_eq] at this
  exact this

theorem plainChar_ne_dot {c : Char} (h : plainChar c = true) : c ≠ '.' := by
  have hall : validChars.all (fun c => c ≠ '.' : Char → Bool) = true := by decide
  have := List.all_eq_true.mp hall c (mem_validChars_of_plainChar h)
  simpa using this

-- Name lemmas: the case converters keep plain names inside the sanitized
-- identifier alphabet.

theorem idName_fixString {s : String} (h : plainName s = true) :
    idName (fixString s) = true := by
  simp only [idName, fixString]
  rw [List.all_eq_true]
  intro x hx
  have hx2 : x ∈ s.toList.map fixChar := hx
  rw [List.mem_map] at hx2
  obtain ⟨c, hc, rfl⟩ := hx2
  exact idChar_fixChar (List.all_eq_true.mp h c hc)

theorem idName_toCamelCase {s : String} (h : plainName s = true) :
    idName (toCamelCase s) = true := by
  have hf := idName_fixString h
  unfold toCamelCase
  cases hl : (fixString s).toList with
  | nil => decide
  | cons c cs =>
    simp only [idName] at hf ⊢
    rw [hl] at hf
    rw [List.all_eq_true] at hf ⊢
    intro x hx
    have hx2 : x ∈ c.toLower :: cs := hx
    rcases List.mem_cons.mp hx2 with rfl | hx3
    · exact idChar_toLower (hf c (List.mem_cons_self _ _))
    · exact hf x (List.mem_cons_of_mem _ hx3)

theorem idName_toPascalCase {s : String} (h : plainName s = true) :
    idName (toPascalCase s) = true := by
  have hf := idName_fixString h
  have hdot : s.toList.contains '.' = false := by
    by_contra hcon
    rw [Bool.not_eq_false] at hcon
    exact plainChar_ne_dot (List.all_eq_true.mp h _ (List.elem_iff.mp hcon)) rfl
  unfold toPascalCase
  rw [hdot]
  simp only [Bool.false_eq_true, if_false]
  cases hl : (fixString s).toList with
  | nil => decide
  | cons c cs =>
    simp only [idName] at hf ⊢
    rw [hl] at hf
    rw [List.all_eq_true] at hf ⊢
    intro x hx
    have hx2 : x ∈ c.toUpper :: cs := hx
    rcases List.mem_cons.mp hx2 with rfl | hx3
    · exact idChar_toUpper (hf c (List.mem_cons_self _ _))
    · exact hf x (List.mem_cons_of_mem _ hx3)

theorem snakeAux_idName (l : List Char) (idx : Nat) (pn pu cv : Bool) (acc : List Char)
    (hl : l.all idChar = true) (hacc : acc.all idChar = true) :
    (snakeAux l idx pn pu cv acc).1.all idChar = true := by
  induction l generalizing idx pn pu cv acc with
  | nil => simpa [snakeAux] using hacc
  | cons c rest ih =>
    rw [List.all_cons, Bool.and_eq_true] at hl
    obtain ⟨hc, hrest⟩ := hl
    have hlow : idChar c.toLower = true := idChar_toLower hc
    have hund : idChar '_' = true := by decide
    unfold snakeAux
    split_ifs <;>
      apply ih _ _ _ _ _ hrest <;>
      simp [List.all_append, hacc, hlow, hund, hc]

theorem idName_toSnakeCase {s : String} (h : plainName s = true) :
    idName (toSnakeCase s).1 = true := by
  have hf := idName_fixString h
  simpa [toSnakeCase, idName] using
    snakeAux_idName (fixString s).toList 0 false false false [] hf (by decide)

theorem plainName_of_idName {s : String} (h : idName s = true) : plainName s = true := by
  simp only [idName, plainName, List.all_eq_true] at h ⊢
  exact fun c hc => plainChar_of_idChar (h c hc)

theorem idName_append {a b : String} (ha : idName a = true) (hb : idName b = true) :
    idName (a ++ b) = true := by
  simp only [idName] at ha hb ⊢
  have : (a ++ b).toList = a.toList ++ b.toList := rfl
  rw [this, List.all_append, ha, hb]
  rfl

-- Scanner lemmas: a chunk in which no equals sign follows a space is scanned
-- without capturing anything, and the space equals space digit-run pattern
-- captures exactly the digit run.

theorem noEq_mem {l : List Char} {c : Char} (h : noEq l = true) (hc : c ∈ l) : c ≠ '=' := by
  have := List.all_eq_true.mp h c hc
  simpa using this

theorem noSpEq_of_noEq {l : List Char} (h : noEq l = true) : noSpEq l = true := by
  induction l with
  | nil => rfl
  | cons c rest ih =>
    cases rest with
    | nil => rfl
    | cons c2 rest2 =>
      have h2 : noEq (c2 :: rest2) = true := by
        simp only [noEq, List.all_cons, Bool.and_eq_true] at h ⊢
        exact ⟨h.2.1, h.2.2⟩
      have hne : c2 ≠ '=' := noEq_mem h (by simp)
      simp only [noSpEq, Bool.and_eq_true]
      exact ⟨by simp [hne], ih h2⟩

theorem noSpEq_append {a b : List Char} (ha : noSpEq a = true) (hb : noSpEq b = true)
    (hcross : a.getLast? = some ' ' → b.head? ≠ some '=') : noSpEq (a ++ b) = true := by
  induction a with
  | nil => simpa using hb
  | cons c rest ih =>
    cases hr : rest with
    | nil =>
      subst hr
      cases b with
      | nil => rfl
      | cons d b2 =>
        have hd : d ≠ '=' ∨ c ≠ ' ' := by
          by_cases hc : c = ' '
          · subst hc
            exact Or.inl (fun hdd => hcross rfl (by simp [hdd]))
          · exact Or.inr hc
        simp only [List.cons_append, List.nil_append, noSpEq, Bool.and_eq_true]
        refine ⟨?_, hb⟩
        rcases hd with hd | hd <;> simp [hd]
    | cons c2 rest2 =>
      subst hr
      simp only [noSpEq, Bool.and_eq_true] at ha
      have hstep := ih ha.2 (fun hl => hcross (by
        rw [List.getLast?_cons_cons] at *
        exact hl))
      simp only [List.cons_append, noSpEq, Bool.and_eq_true] at hstep ⊢
      exact ⟨ha.1, hstep⟩

theorem endSt_le_one {l : List Char} {st : Nat} (h : st ≤ 1) : endSt l st ≤ 1 := by
  induction l generalizing st with
  | nil => exact h
  | cons c rest ih =>
    have : endSt (c :: rest) st = endSt rest (stepState c) := rfl
    rw [this]
    exact ih (by unfold stepState; split <;> omega)

theorem endSt_of_getLast {l : List Char} (hne : l ≠ []) (hl : l.getLast? ≠ some ' ')
    (st : Nat) : endSt l st = 0 := by
  induction l generalizing st with
  | nil => exact absurd rfl hne
  | cons c rest ih =>
    have hrw : endSt (c :: rest) st = endSt rest (stepState c) := rfl
    rw [hrw]
    cases hr : rest with
    | nil =>
      subst hr
      have : c ≠ ' ' := by
        intro hc
        exact hl (by simp [hc])
      simp [endSt, stepState, this]
    | cons c2 rest2 =>
      subst hr
      exact ih (by simp) (by rw [List.getLast?_cons_cons] at hl; exact hl) _

theorem numsGo_skip (xs : List Char) : ∀ (st : Nat) (ys : List Char),
    noSpEq xs = true → st ≤ 1 → (st = 1 → xs.head? ≠ some '=') →
    numsGo (xs ++ ys) st [] = numsGo ys (endSt xs st) [] := by
  induction xs with
  | nil => intro st ys _ _ _; rfl
  | cons c rest ih =>
    intro st ys h1 h2 h3
    have hstep : numsGo (c :: (rest ++ ys)) st [] = numsGo (rest ++ ys) (stepState c) [] := by
      interval_cases st
      · simp [numsGo]
      · have hc : c ≠ '=' := by
          intro hc
          exact h3 rfl (by simp [hc])
        simp [numsGo, hc]
    have hrest : noSpEq rest = true := by
      cases rest with
      | nil => rfl
      | cons c2 rest2 =>
        have h1b : (¬c = ' ' ∨ ¬c2 = '=') ∧ noSpEq (c2 :: rest2) = true := by
          simpa [noSpEq] using h1
        exact h1b.2
    have hcross : stepState c = 1 → rest.head? ≠ some '=' := by
      intro hs
      have hc : c = ' ' := by
        by_contra hcc
        simp [stepState, hcc] at hs
      subst hc
      cases rest with
      | nil => simp
      | cons c2 rest2 =>
        simp only [noSpEq, Bool.and_eq_true] at h1
        intro hh
        have : c2 = '=' := by simpa using hh
        simp [this] at h1
    have hle : stepState c ≤ 1 := by unfold stepState; split <;> omega
    rw [List.cons_append, hstep, ih _ _ hrest hle hcross]
    rfl

theorem numsGo_digits (ds : List Char) : ∀ (acc : List Char) (c0 : Char) (ys : List Char),
    ds.all Char.isDigit = true → c0.isDigit = false → (acc ≠ [] ∨ ds ≠ []) →
    numsGo (ds ++ c0 :: ys) 3 acc =
      String.mk (acc.reverse ++ ds) :: numsGo ys (stepState c0) [] := by
  induction ds with
  | nil =>
    intro acc c0 ys _ h0 hne
    have hacc : acc ≠ [] := by
      rcases hne with h | h
      · exact h
      · exact absurd rfl h
    simp [numsGo, h0, List.isEmpty_iff, hacc]
  | cons d ds ih =>
    intro acc c0 ys hds h0 _
    rw [List.all_cons, Bool.and_eq_true] at hds
    have hrw : numsGo ((d :: ds) ++ c0 :: ys) 3 acc = numsGo (ds ++ c0 :: ys) 3 (d :: acc) := by
      simp [numsGo, hds.1]
    rw [hrw, ih (d :: acc) c0 ys hds.2 h0 (Or.inl (by simp))]
    simp

theorem numsGo_capture {st : Nat} (hst : st ≤ 1) (ds : List Char) (hne : ds ≠ [])
    (hds : ds.all Char.isDigit = true) (c0 : Char) (h0 : c0.isDigit = false)
    (ys : List Char) :
    numsGo (' ' :: '=' :: ' ' :: (ds ++ c0 :: ys)) st [] =
      String.mk ds :: numsGo ys (stepState c0) [] := by
  have h1 : numsGo (' ' :: '=' :: ' ' :: (ds ++ c0 :: ys)) st [] =
      numsGo ('=' :: ' ' :: (ds ++ c0 :: ys)) 1 [] := by
    interval_cases st <;> simp [numsGo, stepState]
  have h2 : numsGo ('=' :: ' ' :: (ds ++ c0 :: ys)) 1 [] =
      numsGo (' ' :: (ds ++ c0 :: ys)) 2 [] := by
    simp [numsGo]
  have h3 : numsGo (' ' :: (ds ++ c0 :: ys)) 2 [] = numsGo (ds ++ c0 :: ys) 3 [] := by
    simp [numsGo]
  rw [h1, h2, h3, numsGo_digits ds [] c0 ys hds h0 (Or.inr hne)]
  simp

-- EmitsNums composition and base cases.

theorem EmitsNums_congr {s t : String} {ns : List String} (h : s.toList = t.toList)
    (ht : EmitsNums t ns) : EmitsNums s ns := by
  intro ys st hst
  rw [h]
  exact ht ys st hst

theorem EmitsNums_append {a b : String} {na nb : List String}
    (ha : EmitsNums a na) (hb : EmitsNums b nb) : EmitsNums (a ++ b) (na ++ nb) := by
  intro ys st hst
  have h1 : (a ++ b).toList ++ ys = a.toList ++ (b.toList ++ ys) := by
    show (a.toList ++ b.toList) ++ ys = _
    rw [List.append_assoc]
  rw [h1, ha _ _ hst, hb _ 0 (by omega), List.append_assoc]

theorem EmitsNums_of_noEq {s : String} (hne : s.toList ≠ []) (h : noEq s.toList = true)
    (hlast : s.toList.getLast? ≠ some ' ') : EmitsNums s [] := by
  intro ys st hst
  have hhead : st = 1 → s.toList.head? ≠ some '=' := by
    intro _ hh
    cases hl : s.toList with
    | nil => exact hne hl
    | cons c rest =>
      rw [hl] at hh
      have : c = '=' := by simpa using hh
      exact noEq_mem h (by rw [hl]; simp) this
  rw [numsGo_skip s.toList st ys (noSpEq_of_noEq h) hst hhead,
    endSt_of_getLast hne hlast st]
  rfl

-- Decimal rendering facts: the characters of Nat.repr are digits and the
-- rendering is nonempty.

theorem digitChar_isDigit {m : Nat} (h : m < 10) : (Nat.digitChar m).isDigit = true := by
  interval_cases m <;> decide

theorem toDigitsCore_digits (fuel : Nat) : ∀ (n : Nat) (acc : List Char),
    acc.all Char.isDigit = true → (Nat.toDigitsCore 10 fuel n acc).all Char.isDigit = true := by
  induction fuel with
  | zero => intro n acc hacc; simpa [Nat.toDigitsCore] using hacc
  | succ fuel ih =>
    intro n acc hacc
    rw [Nat.toDigitsCore]
    have hd : (Nat.digitChar (n % 10)).isDigit = true :=
      digitChar_isDigit (Nat.mod_lt _ (by omega))
    split
    · simp [hd, hacc]
    · exact ih _ _ (by simp [hd, hacc])

theorem toDigitsCore_ne_nil (fuel : Nat) : ∀ (n : Nat) (acc : List Char),
    0 < fuel ∨ acc ≠ [] → Nat.toDigitsCore 10 fuel n acc ≠ [] := by
  induction fuel with
  | zero =>
    intro n acc h
    rcases h with h | h
    · omega
    · simpa [Nat.toDigitsCore] using h
  | succ fuel ih =>
    intro n acc _
    rw [Nat.toDigitsCore]
    split
    · simp
    · exact ih _ _ (Or.inr (by simp))

theorem repr_digits (n : Nat) : (Nat.repr n).toList.all Char.isDigit = true := by
  have : (Nat.repr n).toList = Nat.toDigitsCore 10 (n + 1) n [] := rfl
  rw [this]
  exact toDigitsCore_digits _ _ _ rfl

theorem repr_ne_nil (n : Nat) : (Nat.repr n).toList ≠ [] := by
  have : (Nat.repr n).toList = Nat.toDigitsCore 10 (n + 1) n [] := rfl
  rw [this]
  exact toDigitsCore_ne_nil _ _ _ (Or.inl (by omega))

-- Field-line lemmas: a rendered line consisting of an equals-free prefix, the
-- field number and either a bare semicolon or a json_name attribute emits
-- exactly its field number.

theorem emits_line_plain (pre : List Char) (hpre : noEq pre = true) (i : Nat) :
    EmitsNums (String.mk (pre ++ ' ' :: '=' :: ' ' :: ((Nat.repr i).toList ++ [';'])))
      [Nat.repr i] := by
  intro ys st hst
  have hassoc : (pre ++ ' ' :: '=' :: ' ' :: ((Nat.repr i).toList ++ [';'])) ++ ys =
      pre ++ ' ' :: '=' :: ' ' :: ((Nat.repr i).toList ++ ';' :: ys) := by
    simp [List.append_assoc]
  have hhead : st = 1 → pre.head? ≠ some '=' := by
    intro _ hh
    cases hp : pre with
    | nil => simp [hp] at hh
    | cons c r =>
      rw [hp] at hh
      have hc : c = '=' := by simpa using hh
      exact absurd hc (noEq_mem hpre (by rw [hp]; exact List.mem_cons_self c r))
  show numsGo ((pre ++ ' ' :: '=' :: ' ' :: ((Nat.repr i).toList ++ [';'])) ++ ys) st [] = _
  rw [hassoc, numsGo_skip pre st _ (noSpEq_of_noEq hpre) hst hhead,
    numsGo_capture (endSt_le_one hst) _ (repr_ne_nil i) (repr_digits i) ';' (by decide) ys]
  have : String.mk (Nat.repr i).toList = Nat.repr i := rfl
  rw [this]
  rfl

theorem emits_line_attr (pre sn : List Char) (hpre : noEq pre = true) (hsn : noEq sn = true)
    (i : Nat) :
    EmitsNums (String.mk (pre ++ ' ' :: '=' :: ' ' ::
        ((Nat.repr i).toList ++ ' ' :: ('[' :: ("json_name=\"").toList ++ sn ++ ['"', ']', ';']))))
      [Nat.repr i] := by
  intro ys st hst
  have hhead : st = 1 → pre.head? ≠ some '=' := by
    intro _ hh
    cases hp : pre with
    | nil => simp [hp] at hh
    | cons c r =>
      rw [hp] at hh
      have hc : c = '=' := by simpa using hh
      exact absurd hc (noEq_mem hpre (by rw [hp]; exact List.mem_cons_self c r))
  have hassoc : (pre ++ ' ' :: '=' :: ' ' ::
      ((Nat.repr i).toList ++ ' ' :: ('[' :: ("json_name=\"").toList ++ sn ++ ['"', ']', ';']))) ++ ys =
      pre ++ ' ' :: '=' :: ' ' ::
      ((Nat.repr i).toList ++ ' ' :: (('[' :: ("json_name=\"").toList ++ sn ++ ['"', ']', ';']) ++ ys)) := by
    simp [List.append_assoc]
  show numsGo ((pre ++ ' ' :: '=' :: ' ' ::
      ((Nat.repr i).toList ++ ' ' :: ('[' :: ("json_name=\"").toList ++ sn ++ ['"', ']', ';']))) ++ ys)
      st [] = _
  rw [hassoc, numsGo_skip pre st _ (noSpEq_of_noEq hpre) hst hhead,
    numsGo_capture (endSt_le_one hst) _ (repr_ne_nil i) (repr_digits i) ' ' (by decide)]
  have htail : noSpEq ('[' :: ("json_name=\"").toList ++ sn ++ ['"', ']', ';']) = true := by
    have h1 : noSpEq ('[' :: ("json_name=\"").toList) = true := by decide
    have h2 : noSpEq (sn ++ ['"', ']', ';']) = true := by
      refine noSpEq_append (noSpEq_of_noEq hsn) (by decide) ?_
      intro _ hh
      simp at hh
    have h3 : noSpEq (('[' :: ("json_name=\"").toList) ++ (sn ++ ['"', ']', ';'])) = true := by
      refine noSpEq_append h1 h2 ?_
      intro hl
      simp [List.getLast?] at hl
    simpa [List.append_assoc] using h3
  have hh2 : stepState ' ' = 1 → ('[' :: ("json_name=\"").toList ++ sn ++ ['"', ']', ';']).head? ≠ some '=' := by
    intro _
    simp
  have hskip := numsGo_skip ('[' :: ("json_name=\"").toList ++ sn ++ ['"', ']', ';'])
    (stepState ' ') ys htail (by decide) hh2
  have hassoc2 : '[' :: ("json_name=\"").toList ++ sn ++ ['"', ']', ';'] ++ ys =
      ('[' :: ("json_name=\"").toList ++ sn ++ ['"', ']', ';']) ++ ys := by
    simp [List.append_assoc]
  rw [← hassoc2] at hskip
  rw [hskip]
  have hend : endSt ('[' :: ("json_name=\"").toList ++ sn ++ ['"', ']', ';']) (stepState ' ') = 0 := by
    refine endSt_of_getLast (by simp) ?_ _
    have hsplit : '[' :: ("json_name=\"").toList ++ sn ++ ['"', ']', ';'] =
        ('[' :: ("json_name=\"").toList ++ sn ++ ['"', ']']) ++ [';'] := by
      simp
    rw [hsplit, List.getLast?_concat]
    simp
  rw [hend]
  have : String.mk (Nat.repr i).toList = Nat.repr i := rfl
  rw [this]
  rfl

-- Per-emitter instances: every leaf field emitter emits exactly its field
-- number and increments the counter by one.

theorem toList_append (a b : String) : (a ++ b).toList = a.toList ++ b.toList := rfl

theorem toList_mk (l : List Char) : (String.mk l).toList = l := rfl

theorem noEq_of_idName {s : String} (h : idName s = true) : noEq s.toList = true := by
  rw [noEq, List.all_eq_true]
  intro c hc
  have := (idChar_excludes (List.all_eq_true.mp h c hc)).1
  simpa using this

theorem noEq_append {a b : List Char} (ha : noEq a = true) (hb : noEq b = true) :
    noEq (a ++ b) = true := by
  rw [noEq] at ha hb ⊢
  rw [List.all_append, ha, hb]
  rfl

theorem noEq_cons {c : Char} {l : List Char} (hc : c ≠ '=') (hl : noEq l = true) :
    noEq (c :: l) = true := by
  rw [noEq] at hl ⊢
  rw [List.all_cons, hl]
  simp [hc]

theorem emits_invalid : EmitsNums ("--Invalid Type--") [] :=
  EmitsNums_of_noEq (by decide) (by decide) (by decide)

theorem emits_newline : EmitsNums ("\n") [] :=
  EmitsNums_of_noEq (by decide) (by decide) (by decide)

theorem emits_ToPrimitiveProperty (name : String) (t : Types) (i : Nat)
    (hname : plainName name = true) (ht : noEq (protoScalarName t).toList = true) :
    EmitsNums (ToPrimitiveProperty name t i).1 [Nat.repr i] ∧
      (ToPrimitiveProperty name t i).2 = i + 1 := by
  have hN : noEq (toCamelCase name).toList = true := noEq_of_idName (idName_toCamelCase hname)
  have hS : noEq (toSnakeCase name).1.toList = true := noEq_of_idName (idName_toSnakeCase hname)
  have hpre : noEq ('\t' :: ((protoScalarName t).toList ++ ' ' :: (toCamelCase name).toList))
      = true := by
    refine noEq_cons (by decide) (noEq_append ht (noEq_cons (by decide) hN))
  refine ⟨?_, rfl⟩
  unfold ToPrimitiveProperty
  cases hsn : (toSnakeCase name).2
  · simp only [hsn, Bool.false_eq_true, if_false]
    refine EmitsNums_congr ?_ (emits_line_plain _ hpre i)
    simp [toList_append, toList_mk, List.append_assoc]
  · simp only [hsn, if_true]
    refine EmitsNums_congr ?_ (emits_line_attr _ (toSnakeCase name).1.toList hpre hS i)
    simp [toList_append, toList_mk, List.append_assoc]

theorem emits_ToRefProperty (name : String) (typeName : String) (i : Nat)
    (hname : plainName name = true) (ht : noEq (toPascalCase typeName).toList = true) :
    EmitsNums (ToRefProperty name typeName i).1 [Nat.repr i] ∧
      (ToRefProperty name typeName i).2 = i + 1 := by
  have hN : noEq (toCamelCase name).toList = true := noEq_of_idName (idName_toCamelCase hname)
  have hS : noEq (toSnakeCase name).1.toList = true := noEq_of_idName (idName_toSnakeCase hname)
  have hpre : noEq ('\t' :: ((toPascalCase typeName).toList ++ ' ' :: (toCamelCase name).toList))
      = true := by
    refine noEq_cons (by decide) (noEq_append ht (noEq_cons (by decide) hN))
  refine ⟨?_, rfl⟩
  unfold ToRefProperty
  cases hsn : (toSnakeCase name).2
  · simp only [hsn, Bool.false_eq_true, if_false]
    refine EmitsNums_congr ?_ (emits_line_plain _ hpre i)
    simp [toList_append, toList_mk, List.append_assoc]
  · simp only [hsn, if_true]
    refine EmitsNums_congr ?_ (emits_line_attr _ (toSnakeCase name).1.toList hpre hS i)
    simp [toList_append, toList_mk, List.append_assoc]

theorem emits_ToRefArrayProperty (name : String) (typeName : String) (i : Nat)
    (hname : plainName name = true) (ht : noEq (toPascalCase typeName).toList = true) :
    EmitsNums (ToRefArrayProperty name typeName i).1 [Nat.repr i] ∧
      (ToRefArrayProperty name typeName i).2 = i + 1 := by
  have hN : noEq (toCamelCase name).toList = true := noEq_of_idName (idName_toCamelCase hname)
  have hS : noEq (toSnakeCase name).1.toList = true := noEq_of_idName (idName_toSnakeCase hname)
  have hpre : noEq (("\trepeated ").toList ++
      ((toPascalCase typeName).toList ++ ' ' :: (toCamelCase name).toList)) = true := by
    refine noEq_append (by decide) (noEq_append ht (noEq_cons (by decide) hN))
  refine ⟨?_, rfl⟩
  unfold ToRefArrayProperty
  cases hsn : (toSnakeCase name).2
  · simp only [hsn, Bool.false_eq_true, if_false]
    refine EmitsNums_congr ?_ (emits_line_plain _ hpre i)
    simp [toList_append, toList_mk, List.append_assoc]
  · simp only [hsn, if_true]
    refine EmitsNums_congr ?_ (emits_line_attr _ (toSnakeCase name).1.toList hpre hS i)
    simp [toList_append, toList_mk, List.append_assoc]

theorem emits_ToPrimitiveArrayProperty (name : String) (t : Types) (i : Nat)
    (hname : plainName name = true) (ht : noEq (protoScalarName t).toList = true) :
    EmitsNums (ToPrimitiveArrayProperty name t i).1 [Nat.repr i] ∧
      (ToPrimitiveArrayProperty name t i).2 = i + 1 := by
  have hN : noEq (toCamelCase name).toList = true := noEq_of_idName (idName_toCamelCase hname)
  have hS : noEq (toSnakeCase name).1.toList = true := noEq_of_idName (idName_toSnakeCase hname)
  have hpre : noEq (("\trepeated ").toList ++
      ((protoScalarName t).toList ++ ' ' :: (toCamelCase name).toList)) = true := by
    refine noEq_append (by decide) (noEq_append ht (noEq_cons (by decide) hN))
  refine ⟨?_, rfl⟩
  unfold ToPrimitiveArrayProperty ToPrimitiveProperty
  cases hsn : (toSnakeCase name).2
  · simp only [hsn, Bool.false_eq_true, if_false]
    refine EmitsNums_congr ?_ (emits_line_plain _ hpre i)
    simp [toList_append, toList_mk, List.append_assoc, dropOneTab]
  · simp only [hsn, if_true]
    refine EmitsNums_congr ?_ (emits_line_attr _ (toSnakeCase name).1.toList hpre hS i)
    simp [toList_append, toList_mk, List.append_assoc, dropOneTab]

-- Extraction lemmas for the recursive well-formedness predicate.

theorem goodProps_fields {ty : Types} {it : Option Properties} {rf : Option String}
    {ao : Option (List Properties)} {en : Option (List String)}
    {pr : List (String × Properties)}
    (h : goodProps (.mk ty it rf ao en pr) = true) :
    canonicalType ty = true ∧
    (∀ itv, it = some itv → goodProps itv = true) ∧
    (∀ r, rf = some r → plainSegs r = true) ∧
    (∀ l, ao = some l → goodPropsList l = true) ∧
    goodPropsAssoc pr = true := by
  rw [goodProps.eq_def] at h
  simp only [Bool.and_eq_true] at h
  obtain ⟨⟨⟨⟨h1, h2⟩, h3⟩, h4⟩, h5⟩ := h
  refine ⟨h1, ?_, ?_, ?_, h5⟩
  · intro itv hit
    rw [hit] at h2
    exact h2
  · intro r hr
    rw [hr] at h3
    exact h3
  · intro l hl
    rw [hl] at h4
    exact h4

theorem goodPropsList_mem {l : List Properties} {v : Properties}
    (h : goodPropsList l = true) (hv : v ∈ l) : goodProps v = true := by
  induction l with
  | nil => cases hv
  | cons a rest ih =>
    rw [goodPropsList, Bool.and_eq_true] at h
    rcases List.mem_cons.mp hv with rfl | hv2
    · exact h.1
    · exact ih h.2 hv2

theorem goodPropsAssoc_mem {m : List (String × Properties)} {k : String} {p : Properties}
    (h : goodPropsAssoc m = true) (hm : (k, p) ∈ m) :
    plainName k = true ∧ goodProps p = true := by
  induction m with
  | nil => cases hm
  | cons a rest ih =>
    obtain ⟨ak, ap⟩ := a
    rw [goodPropsAssoc, Bool.and_eq_true, Bool.and_eq_true] at h
    rcases List.mem_cons.mp hm with heq | hv2
    · obtain ⟨h1, h2⟩ := Prod.mk.injEq .. ▸ heq
      injection heq with e1 e2
      subst e1 e2
      exact ⟨h.1.1, h.1.2⟩
    · exact ih h.2 hv2

theorem goodProps_empty : goodProps Properties.empty = true := rfl

theorem goodPropsAssoc_lookup {m : List (String × Properties)} (k : String)
    (h : goodPropsAssoc m = true) : goodProps (lookupProps m k) = true := by
  unfold lookupProps
  cases hf : m.find? (fun e => e.1 == k) with
  | none => exact goodProps_empty
  | some e =>
    have hmem : e ∈ m := List.mem_of_find?_eq_some hf
    exact (goodPropsAssoc_mem h (by rw [← Prod.mk.eta (p := e)] at hmem; exact hmem)).2

theorem getLastD_mem : ∀ (l : List String) (d : String), l ≠ [] → l.getLastD d ∈ l := by
  intro l
  induction l with
  | nil => intro d h; exact absurd rfl h
  | cons a rest ih =>
    intro d _
    cases hr : rest with
    | nil => simp [List.getLastD]
    | cons b rest2 =>
      subst hr
      have := ih d (by simp)
      rw [List.getLastD_cons]
      exact List.mem_cons_of_mem _ (by simpa [List.getLastD_cons] using this)

theorem mem_splitOn_getLastD {r : String} (h : plainSegs r = true) :
    plainName ((splitOnSlash r).getLastD ("")) = true := by
  rw [plainSegs] at h
  exact h

theorem GetRef_plainKey {p : Properties} {root : List (String × Properties)} {r : String}
    {key : String} {m : List (String × Properties)}
    (hr : p.ref = some r) (hps : plainSegs r = true) (h : GetRef p root = .ok (key, m)) :
    plainName key = true := by
  obtain ⟨ty, it, rf, ao, en, pr⟩ := p
  simp only [Properties.ref] at hr
  subst hr
  unfold GetRef at h
  simp only [Properties.ref] at h
  by_cases hh : startsWithHttp r
  · rw [if_pos hh] at h
    cases h
  · rw [if_neg hh] at h
    rcases hsp : splitOnSlash r with _ | ⟨s0, rest0⟩
    · rw [hsp] at h
      simp at h
      rw [← h.1]
      decide
    · rcases rest0 with _ | ⟨s1, rest1⟩
      · rw [hsp] at h
        simp at h
        rw [← h.1]
        rw [plainSegs, hsp] at hps
        simpa [List.getLastD] using hps
      · rw [hsp] at h
        by_cases hd : s1 = "$defs"
        · subst hd
          simp at h
        · simp only [hd, Bool.false_eq_true, if_false, Except.ok.injEq, Prod.mk.injEq,
            if_neg] at h
          rw [← h.1]
          have := mem_splitOn_getLastD hps
          rw [hsp] at this
          exact this

theorem plainName_canonical {t : Types} (h : canonicalType t = true) : plainName t = true := by
  simp only [canonicalType, decide_eq_true_eq] at h
  rcases h with h | h | h | h | h | h | h | h | h | h <;> subst h <;> decide

theorem noEq_protoScalar {t : Types} (h : canonicalType t = true) :
    noEq (protoScalarName t).toList = true := by
  simp only [canonicalType, decide_eq_true_eq] at h
  rcases h with h | h | h | h | h | h | h | h | h | h <;> subst h <;> decide

theorem plain_unionMemberType {v : Properties} (root : List (String × Properties))
    (h : goodProps v = true) : plainName (unionMemberType v root) = true := by
  obtain ⟨ty, it, rf, ao, en, pr⟩ := v
  have hc := goodProps_fields h
  unfold unionMemberType GetRefType
  simp only [Properties.type, Properties.ref]
  by_cases hty : ty = NONE
  · rw [if_pos hty]
    cases hrf : rf with
    | none => decide
    | some r => exact mem_splitOn_getLastD (hc.2.2.1 r hrf)
  · rw [if_neg hty]
    exact plainName_canonical hc.1

theorem plainName_append {a b : String} (ha : plainName a = true) (hb : plainName b = true) :
    plainName (a ++ b) = true := by
  simp only [plainName] at ha hb ⊢
  have : (a ++ b).toList = a.toList ++ b.toList := rfl
  rw [this, List.all_append, ha, hb]
  rfl

theorem plain_composite {un t : String} (hun : plainName un = true) (ht : plainName t = true) :
    plainName (toCamelCase un ++ "_" ++ toCamelCase t) = true :=
  plainName_append (plainName_append (plainName_of_idName (idName_toCamelCase hun)) (by decide))
    (plainName_of_idName (idName_toCamelCase ht))

-- Scanner helpers for the union renderer: leading tabs are invisible to the
-- scanner, and states zero and one agree on input not starting with an equals
-- sign.

theorem numsGo_state01 {l : List Char} (hl : l.head? ≠ some '=') :
    numsGo l 1 [] = numsGo l 0 [] := by
  cases l with
  | nil => rfl
  | cons c rest =>
    have hc : c ≠ '=' := by
      intro hcc
      exact hl (by simp [hcc])
    simp [numsGo, hc]

theorem numsGo_tabs (tabs : List Char) (ht : ∀ c ∈ tabs, c = '\t') (z : List Char) :
    numsGo (tabs ++ z) 0 [] = numsGo z 0 [] := by
  induction tabs with
  | nil => rfl
  | cons c rest ih =>
    have hc : c = '\t' := ht c (by simp)
    subst hc
    have : numsGo ('\t' :: (rest ++ z)) 0 [] = numsGo (rest ++ z) (stepState '\t') [] := by
      simp [numsGo]
    rw [List.cons_append, this]
    exact ih (fun c hc => ht c (by simp [hc]))

theorem safeHead_of_toList {s : String} (c : Char) (pre post : List Char)
    (hpre : ∀ x ∈ pre, x = '\t') (hc : ¬(c = '\t')) (hc2 : ¬(c = '='))
    (hs : s.toList = pre ++ c :: post) : safeHead s = true := by
  unfold safeHead
  rw [hs]
  have hdrop : (pre ++ c :: post).dropWhile (fun x => x = '\t') = c :: post := by
    clear hs
    induction pre with
    | nil => rw [List.nil_append, List.dropWhile_cons, if_neg (by simp [hc])]
    | cons a rest ih =>
      have ha : a = '\t' := hpre a (by simp)
      subst ha
      rw [List.cons_append, List.dropWhile_cons, if_pos (by simp)]
      exact ih (fun x hx => hpre x (by simp [hx]))
  rw [hdrop]
  simp [hc2]

theorem emits_optional {s' : String} {ns : List String} (h : EmitsNums s' ns)
    (hs : safeHead s' = true) : EmitsNums ("\toptional " ++ dropTabs s') ns := by
  intro ys st hst
  have hsplit : s'.toList = s'.toList.takeWhile (fun c => c = '\t') ++
      s'.toList.dropWhile (fun c => c = '\t') := (List.takeWhile_append_dropWhile _ _).symm
  set stripped := s'.toList.dropWhile (fun c => c = '\t') with hstr
  have hne : stripped ≠ [] := by
    intro hnil
    unfold safeHead at hs
    rw [← hstr, hnil] at hs
    simp at hs
  have hhead : stripped.head? ≠ some '=' := by
    intro hcc
    unfold safeHead at hs
    rw [← hstr, hcc] at hs
    simp at hs
  have h1 : ("\toptional " ++ dropTabs s').toList ++ ys =
      '\t' :: (("optional ").toList ++ (stripped ++ ys)) := by
    show ("\toptional ").toList ++ (dropTabs s').toList ++ ys = _
    rw [dropTabs]
    simp [List.append_assoc, hstr]
  rw [h1]
  have h2 : numsGo ('\t' :: (("optional ").toList ++ (stripped ++ ys))) st [] =
      numsGo (("optional ").toList ++ (stripped ++ ys)) 0 [] := by
    interval_cases st <;> simp [numsGo, stepState]
  rw [h2, numsGo_skip (("optional ").toList) 0 _ (by decide) (by omega) (by decide)]
  have hend : endSt (("optional ").toList) 0 = 1 := by decide
  rw [hend]
  have h3 : (stripped ++ ys).head? ≠ some '=' := by
    cases hx : stripped with
    | nil => exact absurd hx hne
    | cons c rest =>
      have : c ≠ '=' := by
        intro hcc
        exact hhead (by simp [hx, hcc])
      simp [this]
  rw [numsGo_state01 h3]
  have h4 : numsGo (stripped ++ ys) 0 [] = numsGo (s'.toList ++ ys) 0 [] := by
    conv_rhs => rw [hsplit]
    rw [List.append_assoc]
    rw [numsGo_tabs _ (fun c hc => by
      have := List.mem_takeWhile_imp hc
      simpa using this) (stripped ++ ys)]
  rw [h4, h _ 0 (by omega)]

theorem emits_tab : EmitsNums ("\t") [] :=
  EmitsNums_of_noEq (by decide) (by decide) (by decide)

theorem emits_wrap_suffix : EmitsNums ("\n\t\x7d\n") [] :=
  EmitsNums_of_noEq (by decide) (by decide) (by decide)

theorem emits_union_head (unionName : String) (hn : plainName unionName = true) :
    EmitsNums ("\n\toneof " ++ toCamelCase unionName ++ "_union \x7b\n") [] := by
  have hC : noEq (toCamelCase unionName).toList = true := noEq_of_idName (idName_toCamelCase hn)
  refine EmitsNums_of_noEq ?_ ?_ ?_
  · show ("\n\toneof ").toList ++ (toCamelCase unionName).toList ++ ("_union \x7b\n").toList ≠ []
    simp
  · show noEq (("\n\toneof ").toList ++ (toCamelCase unionName).toList ++
      ("_union \x7b\n").toList) = true
    exact noEq_append (noEq_append (by decide) hC) (by decide)
  · show (("\n\toneof ").toList ++ (toCamelCase unionName).toList ++
      ("_union \x7b\n").toList).getLast? ≠ some ' '
    rw [List.append_assoc]
    have hsp : (toCamelCase unionName).toList ++ ("_union \x7b\n").toList =
        ((toCamelCase unionName).toList ++ ("_union \x7b").toList) ++ ['\n'] := by
      simp [List.append_assoc]
    rw [hsp, ← List.append_assoc, List.getLast?_concat]
    simp

theorem emits_wrapUnion {unionName body : String} {ns : List String}
    (hn : plainName unionName = true)
    (hbody : ∀ t nt, EmitsNums t nt → EmitsNums (body ++ t) (ns ++ nt)) :
    EmitsNums (wrapUnion unionName body) ns := by
  have hw : (wrapUnion unionName body).toList =
      ("\n\toneof " ++ toCamelCase unionName ++ "_union \x7b\n").toList ++
        (body ++ ("\n\t\x7d\n")).toList := by
    show (wrapUnion unionName body).toList =
      ("\n\toneof " ++ toCamelCase unionName ++ "_union \x7b\n").toList ++
        (body.toList ++ ("\n\t\x7d\n").toList)
    simp [wrapUnion, toList_append, List.append_assoc]
  have hA := EmitsNums_append (emits_union_head unionName hn)
    (hbody ("\n\t\x7d\n") [] emits_wrap_suffix)
  refine EmitsNums_congr
    (t := ("\n\toneof " ++ toCamelCase unionName ++ "_union \x7b\n") ++
      (body ++ ("\n\t\x7d\n"))) hw ?_
  simpa using hA

theorem safeHead_wrapUnion (unionName body : String) :
    safeHead (wrapUnion unionName body) = true := by
  refine safeHead_of_toList '\n' [] (("\toneof " ++ toCamelCase unionName ++
    "_union \x7b\n" ++ body ++ "\n\t\x7d\n").toList) (by simp) (by decide) (by decide) ?_
  show (wrapUnion unionName body).toList = '\n' :: _
  simp [wrapUnion, toList_append, List.append_assoc]

-- safeHead instances: every leaf field line keeps a scannable head character
-- after its leading tab.

theorem safeHead_line {s : String} (T z : List Char)
    (hT : ∀ c ∈ T, ¬(c = '\t') ∧ ¬(c = '=')) (hs : s.toList = '\t' :: (T ++ ' ' :: z)) :
    safeHead s = true := by
  unfold safeHead
  rw [hs, List.dropWhile_cons, if_pos (by simp)]
  cases T with
  | nil =>
    rw [List.nil_append, List.dropWhile_cons, if_neg (by simp)]
    simp
  | cons c rest =>
    obtain ⟨h1, h2⟩ := hT c (by simp)
    rw [List.cons_append, List.dropWhile_cons, if_neg (by simp [h1])]
    simp [h2]

theorem protoScalar_chars {t : Types} (h : canonicalType t = true) :
    ∀ c ∈ (protoScalarName t).toList, ¬(c = '\t') ∧ ¬(c = '=') := by
  simp only [canonicalType, decide_eq_true_eq] at h
  rcases h with h | h | h | h | h | h | h | h | h | h <;> subst h <;> decide

theorem idName_chars {s : String} (h : idName s = true) :
    ∀ c ∈ s.toList, ¬(c = '\t') ∧ ¬(c = '=') := by
  intro c hc
  have hi := List.all_eq_true.mp h c hc
  have h2 := idChar_excludes hi
  exact ⟨h2.2.2.2.1, h2.1⟩

theorem safeHead_ToPrimitiveProperty (name : String) (t : Types) (i : Nat)
    (ht : canonicalType t = true) : safeHead (ToPrimitiveProperty name t i).1 = true := by
  unfold ToPrimitiveProperty
  cases hsn : (toSnakeCase name).2
  · simp only [hsn, Bool.false_eq_true, if_false]
    refine safeHead_line (protoScalarName t).toList
      ((toCamelCase name ++ " = " ++ Nat.repr i ++ ";").toList) (protoScalar_chars ht) ?_
    simp [toList_append, List.append_assoc]
  · simp only [hsn, if_true]
    refine safeHead_line (protoScalarName t).toList
      ((toCamelCase name ++ " = " ++ Nat.repr i ++ " [json_name=\"" ++ (toSnakeCase name).1
        ++ "\"];").toList) (protoScalar_chars ht) ?_
    simp [toList_append, List.append_assoc]

theorem safeHead_ToRefProperty (name typeName : String) (i : Nat)
    (hp : plainName typeName = true) : safeHead (ToRefProperty name typeName i).1 = true := by
  have hT := idName_chars (idName_toPascalCase hp)
  unfold ToRefProperty
  cases hsn : (toSnakeCase name).2
  · simp only [hsn, Bool.false_eq_true, if_false]
    refine safeHead_line (toPascalCase typeName).toList
      ((toCamelCase name ++ " = " ++ Nat.repr i ++ ";").toList) hT ?_
    simp [toList_append, List.append_assoc]
  · simp only [hsn, if_true]
    refine safeHead_line (toPascalCase typeName).toList
      ((toCamelCase name ++ " = " ++ Nat.repr i ++ " [json_name=\"" ++ (toSnakeCase name).1
        ++ "\"];").toList) hT ?_
    simp [toList_append, List.append_assoc]

theorem safeHead_ToRefArrayProperty (name typeName : String) (i : Nat) :
    safeHead (ToRefArrayProperty name typeName i).1 = true := by
  unfold ToRefArrayProperty
  cases hsn : (toSnakeCase name).2
  · simp only [hsn, Bool.false_eq_true, if_false]
    refine safeHead_line (("repeated").toList)
      ((toPascalCase typeName ++ " " ++ toCamelCase name ++ " = " ++ Nat.repr i
        ++ ";").toList) (by decide) ?_
    simp [toList_append, List.append_assoc]
  · simp only [hsn, if_true]
    refine safeHead_line (("repeated").toList)
      ((toPascalCase typeName ++ " " ++ toCamelCase name ++ " = " ++ Nat.repr i
        ++ " [json_name=\"" ++ (toSnakeCase name).1 ++ "\"];").toList) (by decide) ?_
    simp [toList_append, List.append_assoc]

theorem safeHead_ToPrimitiveArrayProperty (name : String) (t : Types) (i : Nat) :
    safeHead (ToPrimitiveArrayProperty name t i).1 = true := by
  refine safeHead_line (("repeated").toList)
    ((dropOneTab (ToPrimitiveProperty name t i).1).toList) (by decide) ?_
  show ("\trepeated " ++ dropOneTab (ToPrimitiveProperty name t i).1).toList = _
  simp [toList_append, List.append_assoc]

theorem safeHead_invalid : safeHead ("--Invalid Type--") = true := rfl

theorem safeHead_optional (s' : String) : safeHead ("\toptional " ++ dropTabs s') = true := by
  refine safeHead_line (("optional").toList) ((dropTabs s').toList) (by decide) ?_
  simp [toList_append, dropTabs, toList_mk, List.append_assoc]

-- Gluing helpers for composing member lines into an emitted body.

theorem EmitsNums_congr_all {s t : String} {ns nt : List String} (hl : s.toList = t.toList)
    (hn : ns = nt) (h : EmitsNums t nt) : EmitsNums s ns := by
  subst hn
  exact EmitsNums_congr hl h

theorem emits_member_line {s : String} {ns : List String} (h : EmitsNums s ns) :
    EmitsNums ("\t" ++ s ++ "\n") ns := by
  have h2 := EmitsNums_append (EmitsNums_append emits_tab h) emits_newline
  simpa using h2

theorem nums_of_emits {s : String} {ns : List String} (h : EmitsNums s ns) : nums s = ns := by
  have h2 := h [] 0 (by omega)
  simpa [nums, numsGo] using h2

-- Projection forms of the well-formedness extraction lemmas.

theorem goodProps_type {p : Properties} (h : goodProps p = true) :
    canonicalType p.type = true := by
  obtain ⟨ty, it, rf, ao, en, pr⟩ := p
  exact (goodProps_fields h).1

theorem goodProps_items {p itv : Properties} (h : goodProps p = true)
    (hit : p.items = some itv) : goodProps itv = true := by
  obtain ⟨ty, it, rf, ao, en, pr⟩ := p
  exact (goodProps_fields h).2.1 itv hit

theorem goodProps_ref {p : Properties} {r : String} (h : goodProps p = true)
    (hr : p.ref = some r) : plainSegs r = true := by
  obtain ⟨ty, it, rf, ao, en, pr⟩ := p
  exact (goodProps_fields h).2.2.1 r hr

theorem goodProps_anyOf {p : Properties} {l : List Properties} (h : goodProps p = true)
    (ha : p.anyOf = some l) : goodPropsList l = true := by
  obtain ⟨ty, it, rf, ao, en, pr⟩ := p
  exact (goodProps_fields h).2.2.2.1 l ha

theorem goodPropsList_cons {a : Properties} {rest : List Properties}
    (h : goodPropsList (a :: rest) = true) :
    goodProps a = true ∧ goodPropsList rest = true := by
  rw [goodPropsList, Bool.and_eq_true] at h
  exact h

-- Classifier inversion: which optional fields each classification forces to be
-- present.

theorem GetType_inv (p : Properties) :
    (GetType p = some .ENUM_TYPE → ∃ es, p.enum = some es) ∧
    (GetType p = some .UNION_TYPE → ∃ l, p.anyOf = some l) ∧
    (GetType p = some .PRIMITIVE_ARRAY_TYPE → ∃ itv, p.items = some itv) ∧
    (GetType p = some .REF_ARRAY_TYPE → ∃ itv r, p.items = some itv ∧ itv.ref = some r) ∧
    (GetType p = some .REF_TYPE → ∃ r, p.ref = some r) := by
  obtain ⟨ty, it, rf, ao, en, pr⟩ := p
  simp only [Properties.enum, Properties.anyOf, Properties.items, Properties.ref]
  cases en with
  | some es =>
    have hg : GetType (.mk ty it rf ao (some es) pr) = some .ENUM_TYPE := by
      simp [GetType, Properties.enum]
    rw [hg]
    refine ⟨fun _ => ⟨es, rfl⟩, ?_, ?_, ?_, ?_⟩ <;> intro hx <;> simp at hx
  | none =>
    cases ao with
    | some l =>
      have hg : GetType (.mk ty it rf (some l) none pr) = some .UNION_TYPE := by
        simp [GetType, Properties.enum, Properties.anyOf]
      rw [hg]
      refine ⟨?_, fun _ => ⟨l, rfl⟩, ?_, ?_, ?_⟩ <;> intro hx <;> simp at hx
    | none =>
      by_cases hARR : ty = ARRAY
      · subst hARR
        cases it with
        | none =>
          have hg : GetType (.mk ARRAY none rf none none pr) = none := by
            simp [GetType, Properties.enum, Properties.anyOf, Properties.type,
              Properties.items]
          rw [hg]
          refine ⟨?_, ?_, ?_, ?_, ?_⟩ <;> intro hx <;> simp at hx
        | some itv =>
          obtain ⟨t2, i2, r2, a2, e2, pr2⟩ := itv
          cases r2 with
          | some rr =>
            have hg : GetType (.mk ARRAY (some (.mk t2 i2 (some rr) a2 e2 pr2)) rf
                none none pr) = some .REF_ARRAY_TYPE := by
              simp [GetType, Properties.enum, Properties.anyOf, Properties.type,
                Properties.items, Properties.ref]
            rw [hg]
            refine ⟨?_, ?_, ?_,
              fun _ => ⟨.mk t2 i2 (some rr) a2 e2 pr2, rr, rfl, rfl⟩, ?_⟩ <;>
              intro hx <;> simp at hx
          | none =>
            by_cases hN : t2 = NONE
            · subst hN
              have hg : GetType (.mk ARRAY (some (.mk NONE i2 none a2 e2 pr2)) rf
                  none none pr) = some .UNKOWN_ARRAY_TYPE := by
                simp [GetType, Properties.enum, Properties.anyOf, Properties.type,
                  Properties.items, Properties.ref]
              rw [hg]
              refine ⟨?_, ?_, ?_, ?_, ?_⟩ <;> intro hx <;> simp at hx
            · by_cases hO : t2 = OBJECT
              · subst hO
                have hg : GetType (.mk ARRAY (some (.mk OBJECT i2 none a2 e2 pr2)) rf
                    none none pr) = some .COMPLEX_ARRAY_TYPE := by
                  simp [GetType, Properties.enum, Properties.anyOf, Properties.type,
                    Properties.items, Properties.ref, hN]
                rw [hg]
                refine ⟨?_, ?_, ?_, ?_, ?_⟩ <;> intro hx <;> simp at hx
              · have hg : GetType (.mk ARRAY (some (.mk t2 i2 none a2 e2 pr2)) rf
                    none none pr) = some .PRIMITIVE_ARRAY_TYPE := by
                  simp [GetType, Properties.enum, Properties.anyOf, Properties.type,
                    Properties.items, Properties.ref, hN, hO]
                rw [hg]
                refine ⟨?_, ?_, fun _ => ⟨.mk t2 i2 none a2 e2 pr2, rfl⟩, ?_, ?_⟩ <;>
                  intro hx <;> simp at hx
      · by_cases hOBJ : ty = OBJECT
        · subst hOBJ
          have hg : GetType (.mk OBJECT it rf none none pr) = some .NESTED_OBJECT_TYPE := by
            simp +decide [GetType, Properties.enum, Properties.anyOf, Properties.type]
          rw [hg]
          refine ⟨?_, ?_, ?_, ?_, ?_⟩ <;> intro hx <;> simp at hx
        · cases rf with
          | some r =>
            have hg : GetType (.mk ty it (some r) none none pr) = some .REF_TYPE := by
              simp [GetType, Properties.enum, Properties.anyOf, Properties.type,
                Properties.ref, hARR, hOBJ]
            rw [hg]
            refine ⟨?_, ?_, ?_, ?_, fun _ => ⟨r, rfl⟩⟩ <;> intro hx <;> simp at hx
          | none =>
            have hg : GetType (.mk ty it none none none pr) = some .PRIMITIVE_TYPE := by
              simp [GetType, Properties.enum, Properties.anyOf, Properties.type,
                Properties.ref, hARR, hOBJ]
            rw [hg]
            refine ⟨?_, ?_, ?_, ?_, ?_⟩ <;> intro hx <;> simp at hx

theorem sizeOf_anyOf_lt {p : Properties} {l : List Properties} (h : p.anyOf = some l) :
    sizeOf l < sizeOf p := by
  obtain ⟨ty, it, rf, ao, en, pr⟩ := p
  simp only [Properties.anyOf] at h
  subst h
  simp
  omega

-- Arm-by-arm reduction lemmas for ToField.

set_option maxHeartbeats 1600000 in
theorem ToField_red_none (root : List (String × Properties)) (name : String) (p : Properties)
    (i : Nat) (h : GetType p = none) : ToField root name p i = .error .nilDeref := by
  obtain ⟨ty, it, rf, ao, en, pr⟩ := p
  rw [ToField.eq_def, h]
  cases ao <;> rfl

set_option maxHeartbeats 1600000 in
theorem ToField_red_primitive (root : List (String × Properties)) (name : String)
    (p : Properties) (i : Nat) (h : GetType p = some .PRIMITIVE_TYPE) :
    ToField root name p i = .ok ((ToPrimitiveProperty name p.type i).1, i + 1, []) := by
  obtain ⟨ty, it, rf, ao, en, pr⟩ := p
  rw [ToField.eq_def, h]
  cases ao <;> rfl

set_option maxHeartbeats 1600000 in
theorem ToField_red_ref (root : List (String × Properties)) (name : String) (p : Properties)
    (i : Nat) (refType : String) (ref : List (String × Properties))
    (h : GetType p = some .REF_TYPE) (hr : GetRef p root = .ok (refType, ref)) :
    ToField root name p i =
      .ok ((ToRefProperty name refType i).1, i + 1, [(name, .props ref)]) := by
  obtain ⟨ty, it, rf, ao, en, pr⟩ := p
  rw [ToField.eq_def, h]
  cases ao <;> simp [hr, ToRefProperty]

set_option maxHeartbeats 1600000 in
theorem ToField_red_ref_err (root : List (String × Properties)) (name : String)
    (p : Properties) (i : Nat) (e : Fault) (h : GetType p = some .REF_TYPE)
    (hr : GetRef p root = .error e) : ToField root name p i = .error e := by
  obtain ⟨ty, it, rf, ao, en, pr⟩ := p
  rw [ToField.eq_def, h]
  cases ao <;> simp [hr]

set_option maxHeartbeats 1600000 in
theorem ToField_red_refarray (root : List (String × Properties)) (name : String)
    (p itv : Properties) (i : Nat) (refType : String) (ref : List (String × Properties))
    (h : GetType p = some .REF_ARRAY_TYPE) (hit : p.items = some itv)
    (hr : GetRef itv root = .ok (refType, ref)) :
    ToField root name p i =
      .ok ((ToRefArrayProperty name refType i).1, i + 1, [(name, .props ref)]) := by
  obtain ⟨ty, it0, rf, ao, en, pr⟩ := p
  simp only [Properties.items] at hit
  subst hit
  rw [ToField.eq_def, h]
  cases ao <;> simp [Properties.items, hr, ToRefArrayProperty, ToRefProperty]

set_option maxHeartbeats 1600000 in
theorem ToField_red_refarray_err (root : List (String × Properties)) (name : String)
    (p itv : Properties) (i : Nat) (e : Fault) (h : GetType p = some .REF_ARRAY_TYPE)
    (hit : p.items = some itv) (hr : GetRef itv root = .error e) :
    ToField root name p i = .error e := by
  obtain ⟨ty, it0, rf, ao, en, pr⟩ := p
  simp only [Properties.items] at hit
  subst hit
  rw [ToField.eq_def, h]
  cases ao <;> simp [Properties.items, hr]

set_option maxHeartbeats 1600000 in
theorem ToField_red_unknown (root : List (String × Properties)) (name : String)
    (p : Properties) (i : Nat) (h : GetType p = some .UNKOWN_ARRAY_TYPE) :
    ToField root name p i =
      .ok ((ToRefArrayProperty name ("google.protobuf.Any") i).1, i + 1, []) := by
  obtain ⟨ty, it, rf, ao, en, pr⟩ := p
  rw [ToField.eq_def, h]
  cases ao <;> rfl

set_option maxHeartbeats 1600000 in
theorem ToField_red_complex (root : List (String × Properties)) (name : String)
    (p : Properties) (i : Nat) (h : GetType p = some .COMPLEX_ARRAY_TYPE) :
    ToField root name p i = .ok ("--Invalid Type--", i, []) := by
  obtain ⟨ty, it, rf, ao, en, pr⟩ := p
  rw [ToField.eq_def, h]
  cases ao <;> rfl

set_option maxHeartbeats 1600000 in
theorem ToField_red_primarray (root : List (String × Properties)) (name : String)
    (p itv : Properties) (i : Nat) (h : GetType p = some .PRIMITIVE_ARRAY_TYPE)
    (hit : p.items = some itv) :
    ToField root name p i = .ok ((ToPrimitiveArrayProperty name itv.type i).1, i + 1, []) := by
  obtain ⟨ty, it0, rf, ao, en, pr⟩ := p
  simp only [Properties.items] at hit
  subst hit
  rw [ToField.eq_def, h]
  cases ao <;> rfl

set_option maxHeartbeats 1600000 in
theorem ToField_red_enum (root : List (String × Properties)) (name : String) (p : Properties)
    (es : List String) (i : Nat) (h : GetType p = some .ENUM_TYPE)
    (he : p.enum = some es) :
    ToField root name p i =
      .ok ((ToRefProperty name name i).1, i + 1, [(name, .enumVals es)]) := by
  obtain ⟨ty, it, rf, ao, en, pr⟩ := p
  simp only [Properties.enum] at he
  subst he
  rw [ToField.eq_def, h]
  cases ao <;> rfl

set_option maxHeartbeats 1600000 in
theorem ToField_red_nested (root : List (String × Properties)) (name : String)
    (p : Properties) (i : Nat) (h : GetType p = some .NESTED_OBJECT_TYPE) :
    ToField root name p i =
      .ok ((ToRefProperty name name i).1, i + 1, [(name, .node p)]) := by
  obtain ⟨ty, it, rf, ao, en, pr⟩ := p
  rw [ToField.eq_def, h]
  cases ao <;> rfl

set_option maxHeartbeats 1600000 in
theorem ToField_red_union (root : List (String × Properties)) (name : String) (p : Properties)
    (l : List Properties) (i : Nat) (h : GetType p = some .UNION_TYPE)
    (ha : p.anyOf = some l) : ToField root name p i = ToUnionProperty root name l i := by
  obtain ⟨ty, it, rf, ao, en, pr⟩ := p
  simp only [Properties.anyOf] at ha
  subst ha
  rw [ToField.eq_def, h]

-- Arm-by-arm reduction lemmas for ToUnionProperty and unionLines.

theorem TUP_red_nil (root : List (String × Properties)) (un : String) (i : Nat) :
    ToUnionProperty root un [] i = .ok (wrapUnion un "", i, []) := rfl

set_option maxHeartbeats 1600000 in
theorem TUP_red_bothnull (root : List (String × Properties)) (un : String) (a b : Properties)
    (i : Nat) (ha : a.type = NULL) (hb : b.type = NULL) :
    ToUnionProperty root un [a, b] i = .error .nilDeref := by
  rw [ToUnionProperty.eq_def]
  simp [ha, hb]

set_option maxHeartbeats 1600000 in
theorem TUP_red_opt_panic (root : List (String × Properties)) (un : String) (a b : Properties)
    (i : Nat) (hb : b.type = NULL) (ha : ¬(a.type = NULL))
    (ht : unionMemberType a root = "") :
    ToUnionProperty root un [a, b] i = .error (.message unionPanicText) := by
  rw [ToUnionProperty.eq_def]
  simp [hb, ha, ht]

set_option maxHeartbeats 1600000 in
theorem TUP_red_opt_err (root : List (String × Properties)) (un : String) (a b : Properties)
    (i : Nat) (e : Fault) (hb : b.type = NULL) (ha : ¬(a.type = NULL))
    (ht : ¬(unionMemberType a root = ""))
    (hf : ToField root (toCamelCase un ++ "_" ++ toCamelCase (unionMemberType a root)) a i =
      .error e) : ToUnionProperty root un [a, b] i = .error e := by
  rw [ToUnionProperty.eq_def]
  simp [hb, ha, ht, hf]

set_option maxHeartbeats 1600000 in
theorem TUP_red_opt (root : List (String × Properties)) (un : String) (a b : Properties)
    (i : Nat) (s1 : String) (j : Nat) (q1 : List (String × QItem)) (hb : b.type = NULL)
    (ha : ¬(a.type = NULL)) (ht : ¬(unionMemberType a root = ""))
    (hf : ToField root (toCamelCase un ++ "_" ++ toCamelCase (unionMemberType a root)) a i =
      .ok (s1, j, q1)) :
    ToUnionProperty root un [a, b] i = .ok ("\toptional " ++ dropTabs s1, j, q1) := by
  rw [ToUnionProperty.eq_def]
  simp [hb, ha, ht, hf]

set_option maxHeartbeats 1600000 in
theorem TUP_red_opt2_panic (root : List (String × Properties)) (un : String) (a b : Properties)
    (i : Nat) (hb : ¬(b.type = NULL)) (ha : a.type = NULL)
    (ht : unionMemberType b root = "") :
    ToUnionProperty root un [a, b] i = .error (.message unionPanicText) := by
  rw [ToUnionProperty.eq_def]
  simp [hb, ha, ht]

set_option maxHeartbeats 1600000 in
theorem TUP_red_opt2_err (root : List (String × Properties)) (un : String) (a b : Properties)
    (i : Nat) (e : Fault) (hb : ¬(b.type = NULL)) (ha : a.type = NULL)
    (ht : ¬(unionMemberType b root = ""))
    (hf : ToField root (toCamelCase un ++ "_" ++ toCamelCase (unionMemberType b root)) b i =
      .error e) : ToUnionProperty root un [a, b] i = .error e := by
  rw [ToUnionProperty.eq_def]
  simp [hb, ha, ht, hf]

set_option maxHeartbeats 1600000 in
theorem TUP_red_opt2 (root : List (String × Properties)) (un : String) (a b : Properties)
    (i : Nat) (s1 : String) (j : Nat) (q1 : List (String × QItem)) (hb : ¬(b.type = NULL))
    (ha : a.type = NULL) (ht : ¬(unionMemberType b root = ""))
    (hf : ToField root (toCamelCase un ++ "_" ++ toCamelCase (unionMemberType b root)) b i =
      .ok (s1, j, q1)) :
    ToUnionProperty root un [a, b] i = .ok ("\toptional " ++ dropTabs s1, j, q1) := by
  rw [ToUnionProperty.eq_def]
  simp [hb, ha, ht, hf]

set_option maxHeartbeats 1600000 in
theorem TUP_red_pair_panic_a (root : List (String × Properties)) (un : String)
    (a b : Properties) (i : Nat) (hb : ¬(b.type = NULL)) (ha : ¬(a.type = NULL))
    (hta : unionMemberType a root = "") :
    ToUnionProperty root un [a, b] i = .error (.message unionPanicText) := by
  rw [ToUnionProperty.eq_def]
  simp [hb, ha, hta]

set_option maxHeartbeats 1600000 in
theorem TUP_red_pair_err_a (root : List (String × Properties)) (un : String)
    (a b : Properties) (i : Nat) (e : Fault) (hb : ¬(b.type = NULL)) (ha : ¬(a.type = NULL))
    (hta : ¬(unionMemberType a root = ""))
    (hfa : ToField root (toCamelCase un ++ "_" ++ toCamelCase (unionMemberType a root)) a i =
      .error e) : ToUnionProperty root un [a, b] i = .error e := by
  rw [ToUnionProperty.eq_def]
  simp [hb, ha, hta, hfa]

set_option maxHeartbeats 1600000 in
theorem TUP_red_pair_panic_b (root : List (String × Properties)) (un : String)
    (a b : Properties) (i : Nat) (s1 : String) (j : Nat) (q1 : List (String × QItem))
    (hb : ¬(b.type = NULL)) (ha : ¬(a.type = NULL)) (hta : ¬(unionMemberType a root = ""))
    (hfa : ToField root (toCamelCase un ++ "_" ++ toCamelCase (unionMemberType a root)) a i =
      .ok (s1, j, q1)) (htb : unionMemberType b root = "") :
    ToUnionProperty root un [a, b] i = .error (.message unionPanicText) := by
  rw [ToUnionProperty.eq_def]
  simp [hb, ha, hta, hfa, htb]

set_option maxHeartbeats 1600000 in
theorem TUP_red_pair_err_b (root : List (String × Properties)) (un : String)
    (a b : Properties) (i : Nat) (s1 : String) (j : Nat) (q1 : List (String × QItem))
    (e : Fault) (hb : ¬(b.type = NULL)) (ha : ¬(a.type = NULL))
    (hta : ¬(unionMemberType a root = ""))
    (hfa : ToField root (toCamelCase un ++ "_" ++ toCamelCase (unionMemberType a root)) a i =
      .ok (s1, j, q1)) (htb : ¬(unionMemberType b root = ""))
    (hfb : ToField root (toCamelCase un ++ "_" ++ toCamelCase (unionMemberType b root)) b j =
      .error e) : ToUnionProperty root un [a, b] i = .error e := by
  rw [ToUnionProperty.eq_def]
  simp [hb, ha, hta, hfa, htb, hfb]

set_option maxHeartbeats 1600000 in
theorem TUP_red_pair (root : List (String × Properties)) (un : String) (a b : Properties)
    (i : Nat) (s1 s2 : String) (j i3 : Nat) (q1 q2 : List (String × QItem))
    (hb : ¬(b.type = NULL)) (ha : ¬(a.type = NULL)) (hta : ¬(unionMemberType a root = ""))
    (hfa : ToField root (toCamelCase un ++ "_" ++ toCamelCase (unionMemberType a root)) a i =
      .ok (s1, j, q1)) (htb : ¬(unionMemberType b root = ""))
    (hfb : ToField root (toCamelCase un ++ "_" ++ toCamelCase (unionMemberType b root)) b j =
      .ok (s2, i3, q2)) :
    ToUnionProperty root un [a, b] i =
      .ok (wrapUnion un ("\t" ++ s1 ++ "\n" ++ ("\t" ++ s2 ++ "\n" ++ "")), i3,
        q1 ++ (q2 ++ [])) := by
  rw [ToUnionProperty.eq_def]
  simp [hb, ha, hta, hfa, htb, hfb]

set_option maxHeartbeats 1600000 in
theorem TUP_red_single_panic (root : List (String × Properties)) (un : String)
    (a : Properties) (i : Nat) (ht : unionMemberType a root = "") :
    ToUnionProperty root un [a] i = .error (.message unionPanicText) := by
  rw [ToUnionProperty.eq_def]
  simp [ht]

set_option maxHeartbeats 1600000 in
theorem TUP_red_single_err (root : List (String × Properties)) (un : String) (a : Properties)
    (i : Nat) (e : Fault) (ht : ¬(unionMemberType a root = ""))
    (hf : ToField root (toCamelCase un ++ "_" ++ toCamelCase (unionMemberType a root)) a i =
      .error e) : ToUnionProperty root un [a] i = .error e := by
  rw [ToUnionProperty.eq_def]
  simp [ht, hf]

set_option maxHeartbeats 1600000 in
theorem TUP_red_single (root : List (String × Properties)) (un : String) (a : Properties)
    (i : Nat) (s1 : String) (j : Nat) (q1 : List (String × QItem))
    (ht : ¬(unionMemberType a root = ""))
    (hf : ToField root (toCamelCase un ++ "_" ++ toCamelCase (unionMemberType a root)) a i =
      .ok (s1, j, q1)) :
    ToUnionProperty root un [a] i =
      .ok (wrapUnion un ("\t" ++ s1 ++ "\n" ++ ""), j, q1 ++ []) := by
  rw [ToUnionProperty.eq_def]
  simp [ht, hf, unionLines]

set_option maxHeartbeats 1600000 in
theorem TUP_red_big_panic (root : List (String × Properties)) (un : String)
    (a b c : Properties) (tail : List Properties) (i : Nat)
    (ht : unionMemberType a root = "") :
    ToUnionProperty root un (a :: b :: c :: tail) i = .error (.message unionPanicText) := by
  rw [ToUnionProperty.eq_def]
  simp [ht]

set_option maxHeartbeats 1600000 in
theorem TUP_red_big_err (root : List (String × Properties)) (un : String) (a b c : Properties)
    (tail : List Properties) (i : Nat) (e : Fault) (ht : ¬(unionMemberType a root = ""))
    (hf : ToField root (toCamelCase un ++ "_" ++ toCamelCase (unionMemberType a root)) a i =
      .error e) : ToUnionProperty root un (a :: b :: c :: tail) i = .error e := by
  rw [ToUnionProperty.eq_def]
  simp [ht, hf]

set_option maxHeartbeats 1600000 in
theorem TUP_red_big_linerr (root : List (String × Properties)) (un : String)
    (a b c : Properties) (tail : List Properties) (i : Nat) (s1 : String) (j : Nat)
    (q1 : List (String × QItem)) (e : Fault) (ht : ¬(unionMemberType a root = ""))
    (hf : ToField root (toCamelCase un ++ "_" ++ toCamelCase (unionMemberType a root)) a i =
      .ok (s1, j, q1)) (hlines : unionLines root un (b :: c :: tail) j = .error e) :
    ToUnionProperty root un (a :: b :: c :: tail) i = .error e := by
  rw [ToUnionProperty.eq_def]
  simp [ht, hf, hlines]

set_option maxHeartbeats 1600000 in
theorem TUP_red_big (root : List (String × Properties)) (un : String) (a b c : Properties)
    (tail : List Properties) (i : Nat) (s1 body : String) (j i3 : Nat)
    (q1 q2 : List (String × QItem)) (ht : ¬(unionMemberType a root = ""))
    (hf : ToField root (toCamelCase un ++ "_" ++ toCamelCase (unionMemberType a root)) a i =
      .ok (s1, j, q1)) (hlines : unionLines root un (b :: c :: tail) j = .ok (body, i3, q2)) :
    ToUnionProperty root un (a :: b :: c :: tail) i =
      .ok (wrapUnion un ("\t" ++ s1 ++ "\n" ++ body), i3, q1 ++ q2) := by
  rw [ToUnionProperty.eq_def]
  simp [ht, hf, hlines]

theorem unionLines_red_nil (root : List (String × Properties)) (un : String) (i : Nat) :
    unionLines root un [] i = .ok ("", i, []) := rfl

set_option maxHeartbeats 1600000 in
theorem unionLines_red_panic (root : List (String × Properties)) (un : String)
    (v : Properties) (rest : List Properties) (i : Nat) (ht : unionMemberType v root = "") :
    unionLines root un (v :: rest) i = .error (.message unionPanicText) := by
  rw [unionLines.eq_def]
  simp [ht]

set_option maxHeartbeats 1600000 in
theorem unionLines_red_err (root : List (String × Properties)) (un : String) (v : Properties)
    (rest : List Properties) (i : Nat) (e : Fault) (ht : ¬(unionMemberType v root = ""))
    (hf : ToField root (toCamelCase un ++ "_" ++ toCamelCase (unionMemberType v root)) v i =
      .error e) : unionLines root un (v :: rest) i = .error e := by
  rw [unionLines.eq_def]
  simp [ht, hf]

set_option maxHeartbeats 1600000 in
theorem unionLines_red_resterr (root : List (String × Properties)) (un : String)
    (v : Properties) (rest : List Properties) (i : Nat) (s1 : String) (j : Nat)
    (q1 : List (String × QItem)) (e : Fault) (ht : ¬(unionMemberType v root = ""))
    (hf : ToField root (toCamelCase un ++ "_" ++ toCamelCase (unionMemberType v root)) v i =
      .ok (s1, j, q1)) (hrest : unionLines root un rest j = .error e) :
    unionLines root un (v :: rest) i = .error e := by
  rw [unionLines.eq_def]
  simp [ht, hf, hrest]

set_option maxHeartbeats 1600000 in
theorem unionLines_red_cons (root : List (String × Properties)) (un : String) (v : Properties)
    (rest : List Properties) (i : Nat) (s1 s2 : String) (j i3 : Nat)
    (q1 q2 : List (String × QItem)) (ht : ¬(unionMemberType v root = ""))
    (hf : ToField root (toCamelCase un ++ "_" ++ toCamelCase (unionMemberType v root)) v i =
      .ok (s1, j, q1)) (hrest : unionLines root un rest j = .ok (s2, i3, q2)) :
    unionLines root un (v :: rest) i = .ok ("\t" ++ s1 ++ "\n" ++ s2, i3, q1 ++ q2) := by
  rw [unionLines.eq_def]
  simp [ht, hf, hrest]

-- The counter invariant: every successful field rendering of a well-formed
-- property advances the counter by some k and writes exactly the numbers
-- i, i+1, ..., i+k-1 into its text, in order, with a scannable head.  The
-- union renderer satisfies the same contract; the member-line loop yields its
-- numbers in continuation form because its text may be empty.

set_option maxHeartbeats 3200000 in
mutual

theorem ToField_nums (root : List (String × Properties)) (name : String) (p : Properties)
    (i : Nat) (s : String) (i2 : Nat) (q : List (String × QItem))
    (hname : plainName name = true) (hp : goodProps p = true)
    (h : ToField root name p i = .ok (s, i2, q)) :
    ∃ k, i2 = i + k ∧ EmitsNums s ((List.range' i k).map Nat.repr) ∧ safeHead s = true := by
  cases hgt : GetType p with
  | none =>
    rw [ToField_red_none root name p i hgt] at h
    cases h
  | some pt =>
    cases pt with
    | PRIMITIVE_TYPE =>
      rw [ToField_red_primitive root name p i hgt] at h
      simp only [Except.ok.injEq, Prod.mk.injEq] at h
      obtain ⟨h1, h2, h3⟩ := h
      subst h1 h2 h3
      have hcan : canonicalType p.type = true := goodProps_type hp
      refine ⟨1, rfl, ?_, safeHead_ToPrimitiveProperty name p.type i hcan⟩
      simpa using (emits_ToPrimitiveProperty name p.type i hname (noEq_protoScalar hcan)).1
    | REF_TYPE =>
      obtain ⟨r, hr⟩ := (GetType_inv p).2.2.2.2 hgt
      cases hgr : GetRef p root with
      | error e =>
        rw [ToField_red_ref_err root name p i e hgt hgr] at h
        cases h
      | ok pr2 =>
        obtain ⟨refType, ref⟩ := pr2
        rw [ToField_red_ref root name p i refType ref hgt hgr] at h
        simp only [Except.ok.injEq, Prod.mk.injEq] at h
        obtain ⟨h1, h2, h3⟩ := h
        subst h1 h2 h3
        have hplain : plainName refType = true :=
          GetRef_plainKey hr (goodProps_ref hp hr) hgr
        refine ⟨1, rfl, ?_, safeHead_ToRefProperty name refType i hplain⟩
        simpa using (emits_ToRefProperty name refType i hname
          (noEq_of_idName (idName_toPascalCase hplain))).1
    | PRIMITIVE_ARRAY_TYPE =>
      obtain ⟨itv, hit⟩ := (GetType_inv p).2.2.1 hgt
      rw [ToField_red_primarray root name p itv i hgt hit] at h
      simp only [Except.ok.injEq, Prod.mk.injEq] at h
      obtain ⟨h1, h2, h3⟩ := h
      subst h1 h2 h3
      have hcan : canonicalType itv.type = true := goodProps_type (goodProps_items hp hit)
      refine ⟨1, rfl, ?_, safeHead_ToPrimitiveArrayProperty name itv.type i⟩
      simpa using (emits_ToPrimitiveArrayProperty name itv.type i hname
        (noEq_protoScalar hcan)).1
    | UNKOWN_ARRAY_TYPE =>
      rw [ToField_red_unknown root name p i hgt] at h
      simp only [Except.ok.injEq, Prod.mk.injEq] at h
      obtain ⟨h1, h2, h3⟩ := h
      subst h1 h2 h3
      refine ⟨1, rfl, ?_, safeHead_ToRefArrayProperty name ("google.protobuf.Any") i⟩
      simpa using (emits_ToRefArrayProperty name ("google.protobuf.Any") i hname
        (by decide)).1
    | REF_ARRAY_TYPE =>
      obtain ⟨itv, r, hit, hr⟩ := (GetType_inv p).2.2.2.1 hgt
      cases hgr : GetRef itv root with
      | error e =>
        rw [ToField_red_refarray_err root name p itv i e hgt hit hgr] at h
        cases h
      | ok pr2 =>
        obtain ⟨refType, ref⟩ := pr2
        rw [ToField_red_refarray root name p itv i refType ref hgt hit hgr] at h
        simp only [Except.ok.injEq, Prod.mk.injEq] at h
        obtain ⟨h1, h2, h3⟩ := h
        subst h1 h2 h3
        have hplain : plainName refType = true :=
          GetRef_plainKey hr (goodProps_ref (goodProps_items hp hit) hr) hgr
        refine ⟨1, rfl, ?_, safeHead_ToRefArrayProperty name refType i⟩
        simpa using (emits_ToRefArrayProperty name refType i hname
          (noEq_of_idName (idName_toPascalCase hplain))).1
    | COMPLEX_ARRAY_TYPE =>
      rw [ToField_red_complex root name p i hgt] at h
      simp only [Except.ok.injEq, Prod.mk.injEq] at h
      obtain ⟨h1, h2, h3⟩ := h
      subst h1 h2 h3
      refine ⟨0, rfl, ?_, safeHead_invalid⟩
      simpa using emits_invalid
    | ENUM_TYPE =>
      obtain ⟨es, he⟩ := (GetType_inv p).1 hgt
      rw [ToField_red_enum root name p es i hgt he] at h
      simp only [Except.ok.injEq, Prod.mk.injEq] at h
      obtain ⟨h1, h2, h3⟩ := h
      subst h1 h2 h3
      refine ⟨1, rfl, ?_, safeHead_ToRefProperty name name i hname⟩
      simpa using (emits_ToRefProperty name name i hname
        (noEq_of_idName (idName_toPascalCase hname))).1
    | NESTED_OBJECT_TYPE =>
      rw [ToField_red_nested root name p i hgt] at h
      simp only [Except.ok.injEq, Prod.mk.injEq] at h
      obtain ⟨h1, h2, h3⟩ := h
      subst h1 h2 h3
      refine ⟨1, rfl, ?_, safeHead_ToRefProperty name name i hname⟩
      simpa using (emits_ToRefProperty name name i hname
        (noEq_of_idName (idName_toPascalCase hname))).1
    | UNION_TYPE =>
      obtain ⟨l, ha⟩ := (GetType_inv p).2.1 hgt
      rw [ToField_red_union root name p l i hgt ha] at h
      exact ToUnionProperty_nums root name l i s i2 q hname (goodProps_anyOf hp ha) h
termination_by sizeOf p
decreasing_by exact sizeOf_anyOf_lt ha

theorem ToUnionProperty_nums (root : List (String × Properties)) (unionName : String)
    (l : List Properties) (i : Nat) (s : String) (i2 : Nat) (q : List (String × QItem))
    (hname : plainName unionName = true) (hl : goodPropsList l = true)
    (h : ToUnionProperty root unionName l i = .ok (s, i2, q)) :
    ∃ k, i2 = i + k ∧ EmitsNums s ((List.range' i k).map Nat.repr) ∧ safeHead s = true := by
  rcases hleq : l with _ | ⟨a, _ | ⟨b, _ | ⟨c, tail⟩⟩⟩
  · rw [hleq] at h hl
    rw [TUP_red_nil root unionName i] at h
    simp only [Except.ok.injEq, Prod.mk.injEq] at h
    obtain ⟨h1, h2, h3⟩ := h
    subst h1 h2 h3
    refine ⟨0, rfl, ?_, safeHead_wrapUnion unionName ""⟩
    simp only [List.range'_zero, List.map_nil]
    refine emits_wrapUnion hname ?_
    intro t nt htn
    exact EmitsNums_congr_all rfl rfl htn
  · rw [hleq] at h hl
    obtain ⟨hga, _⟩ := goodPropsList_cons hl
    by_cases ht : unionMemberType a root = ""
    · rw [TUP_red_single_panic root unionName a i ht] at h
      cases h
    · cases hf : ToField root
          (toCamelCase unionName ++ "_" ++ toCamelCase (unionMemberType a root)) a i with
      | error e =>
        rw [TUP_red_single_err root unionName a i e ht hf] at h
        cases h
      | ok trip =>
        obtain ⟨s1, j, q1⟩ := trip
        rw [TUP_red_single root unionName a i s1 j q1 ht hf] at h
        simp only [Except.ok.injEq, Prod.mk.injEq] at h
        obtain ⟨h1, h2, h3⟩ := h
        subst h1 h2 h3
        have hcomp : plainName
            (toCamelCase unionName ++ "_" ++ toCamelCase (unionMemberType a root)) = true :=
          plain_composite hname (plain_unionMemberType root hga)
        obtain ⟨k, hk, hem, _⟩ := ToField_nums root
          (toCamelCase unionName ++ "_" ++ toCamelCase (unionMemberType a root)) a i s1 j q1
          hcomp hga hf
        subst hk
        refine ⟨k, rfl, ?_, safeHead_wrapUnion unionName ("\t" ++ s1 ++ "\n" ++ "")⟩
        refine emits_wrapUnion hname ?_
        intro t nt htn
        have hcat := EmitsNums_append (emits_member_line hem) htn
        refine EmitsNums_congr_all ?_ rfl hcat
        simp [toList_append, List.append_assoc]
  · rw [hleq] at h hl
    obtain ⟨hga, hl2⟩ := goodPropsList_cons hl
    obtain ⟨hgb, _⟩ := goodPropsList_cons hl2
    by_cases hbN : b.type = NULL
    · by_cases haN : a.type = NULL
      · rw [TUP_red_bothnull root unionName a b i haN hbN] at h
        cases h
      · by_cases ht : unionMemberType a root = ""
        · rw [TUP_red_opt_panic root unionName a b i hbN haN ht] at h
          cases h
        · cases hf : ToField root
              (toCamelCase unionName ++ "_" ++ toCamelCase (unionMemberType a root)) a i with
          | error e =>
            rw [TUP_red_opt_err root unionName a b i e hbN haN ht hf] at h
            cases h
          | ok trip =>
            obtain ⟨s1, j, q1⟩ := trip
            rw [TUP_red_opt root unionName a b i s1 j q1 hbN haN ht hf] at h
            simp only [Except.ok.injEq, Prod.mk.injEq] at h
            obtain ⟨h1, h2, h3⟩ := h
            subst h1 h2 h3
            have hcomp : plainName
                (toCamelCase unionName ++ "_" ++
                  toCamelCase (unionMemberType a root)) = true :=
              plain_composite hname (plain_unionMemberType root hga)
            obtain ⟨k, hk, hem, hsf⟩ := ToField_nums root
              (toCamelCase unionName ++ "_" ++ toCamelCase (unionMemberType a root)) a i
              s1 j q1 hcomp hga hf
            subst hk
            exact ⟨k, rfl, emits_optional hem hsf, safeHead_optional s1⟩
    · by_cases haN : a.type = NULL
      · by_cases ht : unionMemberType b root = ""
        · rw [TUP_red_opt2_panic root unionName a b i hbN haN ht] at h
          cases h
        · cases hf : ToField root
              (toCamelCase unionName ++ "_" ++ toCamelCase (unionMemberType b root)) b i with
          | error e =>
            rw [TUP_red_opt2_err root unionName a b i e hbN haN ht hf] at h
            cases h
          | ok trip =>
            obtain ⟨s1, j, q1⟩ := trip
            rw [TUP_red_opt2 root unionName a b i s1 j q1 hbN haN ht hf] at h
            simp only [Except.ok.injEq, Prod.mk.injEq] at h
            obtain ⟨h1, h2, h3⟩ := h
            subst h1 h2 h3
            have hcomp : plainName
                (toCamelCase unionName ++ "_" ++
                  toCamelCase (unionMemberType b root)) = true :=
              plain_composite hname (plain_unionMemberType root hgb)
            obtain ⟨k, hk, hem, hsf⟩ := ToField_nums root
              (toCamelCase unionName ++ "_" ++ toCamelCase (unionMemberType b root)) b i
              s1 j q1 hcomp hgb hf
            subst hk
            exact ⟨k, rfl, emits_optional hem hsf, safeHead_optional s1⟩
      · by_cases hta : unionMemberType a root = ""
        · rw [TUP_red_pair_panic_a root unionName a b i hbN haN hta] at h
          cases h
        · cases hfa : ToField root
              (toCamelCase unionName ++ "_" ++ toCamelCase (unionMemberType a root)) a i with
          | error e =>
            rw [TUP_red_pair_err_a root unionName a b i e hbN haN hta hfa] at h
            cases h
          | ok tripa =>
            obtain ⟨s1, j, q1⟩ := tripa
            by_cases htb : unionMemberType b root = ""
            · rw [TUP_red_pair_panic_b root unionName a b i s1 j q1 hbN haN hta hfa htb] at h
              cases h
            · cases hfb : ToField root
                  (toCamelCase unionName ++ "_" ++
                    toCamelCase (unionMemberType b root)) b j with
              | error e =>
                rw [TUP_red_pair_err_b root unionName a b i s1 j q1 e hbN haN hta hfa
                  htb hfb] at h
                cases h
              | ok tripb =>
                obtain ⟨s2, i3, q2⟩ := tripb
                rw [TUP_red_pair root unionName a b i s1 s2 j i3 q1 q2 hbN haN hta hfa
                  htb hfb] at h
                simp only [Except.ok.injEq, Prod.mk.injEq] at h
                obtain ⟨h1, h2, h3⟩ := h
                subst h1 h2 h3
                have hcompa : plainName
                    (toCamelCase unionName ++ "_" ++
                      toCamelCase (unionMemberType a root)) = true :=
                  plain_composite hname (plain_unionMemberType root hga)
                have hcompb : plainName
                    (toCamelCase unionName ++ "_" ++
                      toCamelCase (unionMemberType b root)) = true :=
                  plain_composite hname (plain_unionMemberType root hgb)
                obtain ⟨k1, hk1, hem1, _⟩ := ToField_nums root
                  (toCamelCase unionName ++ "_" ++ toCamelCase (unionMemberType a root))
                  a i s1 j q1 hcompa hga hfa
                subst hk1
                obtain ⟨k2, hk2, hem2, _⟩ := ToField_nums root
                  (toCamelCase unionName ++ "_" ++ toCamelCase (unionMemberType b root))
                  b (i + k1) s2 i3 q2 hcompb hgb hfb
                subst hk2
                refine ⟨k2 + k1, by omega, ?_,
                  safeHead_wrapUnion unionName
                    ("\t" ++ s1 ++ "\n" ++ ("\t" ++ s2 ++ "\n" ++ ""))⟩
                refine emits_wrapUnion hname ?_
                intro t nt htn
                have hcat := EmitsNums_append (emits_member_line hem1)
                  (EmitsNums_append (emits_member_line hem2) htn)
                refine EmitsNums_congr_all ?_ ?_ hcat
                · simp [toList_append, List.append_assoc]
                · rw [← List.range'_append_1, List.map_append, List.append_assoc]
  · rw [hleq] at h hl
    obtain ⟨hga, hl2⟩ := goodPropsList_cons hl
    by_cases ht : unionMemberType a root = ""
    · rw [TUP_red_big_panic root unionName a b c tail i ht] at h
      cases h
    · cases hf : ToField root
          (toCamelCase unionName ++ "_" ++ toCamelCase (unionMemberType a root)) a i with
      | error e =>
        rw [TUP_red_big_err root unionName a b c tail i e ht hf] at h
        cases h
      | ok trip =>
        obtain ⟨s1, j, q1⟩ := trip
        cases hlines : unionLines root unionName (b :: c :: tail) j with
        | error e =>
          rw [TUP_red_big_linerr root unionName a b c tail i s1 j q1 e ht hf hlines] at h
          cases h
        | ok trip2 =>
          obtain ⟨body, i3, q2⟩ := trip2
          rw [TUP_red_big root unionName a b c tail i s1 body j i3 q1 q2 ht hf hlines] at h
          simp only [Except.ok.injEq, Prod.mk.injEq] at h
          obtain ⟨h1, h2, h3⟩ := h
          subst h1 h2 h3
          have hcomp : plainName
              (toCamelCase unionName ++ "_" ++
                toCamelCase (unionMemberType a root)) = true :=
            plain_composite hname (plain_unionMemberType root hga)
          obtain ⟨k1, hk1, hem1, _⟩ := ToField_nums root
            (toCamelCase unionName ++ "_" ++ toCamelCase (unionMemberType a root)) a i
            s1 j q1 hcomp hga hf
          subst hk1
          obtain ⟨k2, hk2, hcps⟩ := unionLines_nums root unionName (b :: c :: tail) (i + k1)
            body i3 q2 hname hl2 hlines
          subst hk2
          refine ⟨k2 + k1, by omega, ?_,
            safeHead_wrapUnion unionName ("\t" ++ s1 ++ "\n" ++ body)⟩
          refine emits_wrapUnion hname ?_
          intro t nt htn
          have hcat := EmitsNums_append (emits_member_line hem1) (hcps t nt htn)
          refine EmitsNums_congr_all ?_ ?_ hcat
          · simp [toList_append, List.append_assoc]
          · rw [← List.range'_append_1, List.map_append, List.append_assoc]
termination_by sizeOf l
decreasing_by all_goals (rw [hleq]; simp_wf <;> omega)

theorem unionLines_nums (root : List (String × Properties)) (unionName : String)
    (l : List Properties) (i : Nat) (s : String) (i2 : Nat) (q : List (String × QItem))
    (hname : plainName unionName = true) (hl : goodPropsList l = true)
    (h : unionLines root unionName l i = .ok (s, i2, q)) :
    ∃ k, i2 = i + k ∧ ∀ t nt, EmitsNums t nt →
      EmitsNums (s ++ t) (((List.range' i k).map Nat.repr) ++ nt) := by
  rcases hleq : l with _ | ⟨v, rest⟩
  · rw [hleq] at h hl
    rw [unionLines_red_nil root unionName i] at h
    simp only [Except.ok.injEq, Prod.mk.injEq] at h
    obtain ⟨h1, h2, h3⟩ := h
    subst h1 h2 h3
    refine ⟨0, rfl, ?_⟩
    intro t nt htn
    refine EmitsNums_congr_all rfl ?_ htn
    simp
  · rw [hleq] at h hl
    obtain ⟨hgv, hl2⟩ := goodPropsList_cons hl
    by_cases ht : unionMemberType v root = ""
    · rw [unionLines_red_panic root unionName v rest i ht] at h
      cases h
    · cases hf : ToField root
          (toCamelCase unionName ++ "_" ++ toCamelCase (unionMemberType v root)) v i with
      | error e =>
        rw [unionLines_red_err root unionName v rest i e ht hf] at h
        cases h
      | ok trip =>
        obtain ⟨s1, j, q1⟩ := trip
        cases hrest : unionLines root unionName rest j with
        | error e =>
          rw [unionLines_red_resterr root unionName v rest i s1 j q1 e ht hf hrest] at h
          cases h
        | ok trip2 =>
          obtain ⟨s2, i3, q2⟩ := trip2
          rw [unionLines_red_cons root unionName v rest i s1 s2 j i3 q1 q2 ht hf hrest] at h
          simp only [Except.ok.injEq, Prod.mk.injEq] at h
          obtain ⟨h1, h2, h3⟩ := h
          subst h1 h2 h3
          have hcomp : plainName
              (toCamelCase unionName ++ "_" ++
                toCamelCase (unionMemberType v root)) = true :=
            plain_composite hname (plain_unionMemberType root hgv)
          obtain ⟨k1, hk1, hem1, _⟩ := ToField_nums root
            (toCamelCase unionName ++ "_" ++ toCamelCase (unionMemberType v root)) v i
            s1 j q1 hcomp hgv hf
          subst hk1
          obtain ⟨k2, hk2, hcps⟩ := unionLines_nums root unionName rest (i + k1)
            s2 i3 q2 hname hl2 hrest
          subst hk2
          refine ⟨k2 + k1, by omega, ?_⟩
          intro t nt htn
          have hcat := EmitsNums_append (emits_member_line hem1) (hcps t nt htn)
          refine EmitsNums_congr_all ?_ ?_ hcat
          · simp [toList_append, List.append_assoc]
          · rw [← List.range'_append_1, List.map_append, List.append_assoc]
termination_by sizeOf l
decreasing_by all_goals (rw [hleq]; simp_wf <;> omega)

end

-- Reduction lemmas for the field loop and the message renderer.

theorem TMF_red_nil (root props : List (String × Properties)) (i : Nat) :
    ToMessageFields root props [] i = .ok ([], i, []) := rfl

theorem TMF_red_err (root props : List (String × Properties)) (k : String)
    (rest : List String) (i : Nat) (e : Fault)
    (hf : ToField root k (lookupProps props k) i = .error e) :
    ToMessageFields root props (k :: rest) i = .error e := by
  rw [ToMessageFields.eq_def]
  simp [hf]

theorem TMF_red_resterr (root props : List (String × Properties)) (k : String)
    (rest : List String) (i : Nat) (s1 : String) (j : Nat) (q1 : List (String × QItem))
    (e : Fault) (hf : ToField root k (lookupProps props k) i = .ok (s1, j, q1))
    (hrest : ToMessageFields root props rest j = .error e) :
    ToMessageFields root props (k :: rest) i = .error e := by
  rw [ToMessageFields.eq_def]
  simp [hf, hrest]

theorem TMF_red_cons (root props : List (String × Properties)) (k : String)
    (rest : List String) (i : Nat) (s1 : String) (j : Nat) (q1 : List (String × QItem))
    (fs : List String) (i3 : Nat) (q2 : List (String × QItem))
    (hf : ToField root k (lookupProps props k) i = .ok (s1, j, q1))
    (hrest : ToMessageFields root props rest j = .ok (fs, i3, q2)) :
    ToMessageFields root props (k :: rest) i = .ok (s1 :: fs, i3, q1 ++ q2) := by
  rw [ToMessageFields.eq_def]
  simp [hf, hrest]

theorem ToMessage_red_dup (root : List (String × Properties)) (messageName : String)
    (props : List (String × Properties)) (tn : List String)
    (hdup : tn.contains (toPascalCase messageName) = true) :
    ToMessage root messageName props tn = .ok ("", tn, []) := by
  have hmem : toPascalCase messageName ∈ tn := by simpa using hdup
  unfold ToMessage
  simp [hmem]

theorem ToMessage_red_err (root : List (String × Properties)) (messageName : String)
    (props : List (String × Properties)) (tn : List String) (e : Fault)
    (hdup : tn.contains (toPascalCase messageName) = false)
    (hfm : ToMessageFields root props (sortedKeys props) 1 = .error e) :
    ToMessage root messageName props tn = .error e := by
  have hmem : toPascalCase messageName ∉ tn := by simpa using hdup
  unfold ToMessage
  simp [hmem, hfm]

theorem ToMessage_red_ok (root : List (String × Properties)) (messageName : String)
    (props : List (String × Properties)) (tn : List String) (fs : List String) (i3 : Nat)
    (q : List (String × QItem)) (hdup : tn.contains (toPascalCase messageName) = false)
    (hfm : ToMessageFields root props (sortedKeys props) 1 = .ok (fs, i3, q)) :
    ToMessage root messageName props tn =
      .ok (renderMessage (toPascalCase messageName) (sjoin (fs.map (· ++ "\n"))),
        tn ++ [toPascalCase messageName], q) := by
  have hmem : toPascalCase messageName ∉ tn := by simpa using hdup
  unfold ToMessage
  simp [hmem, hfm]

theorem sortedKeys_plain (props : List (String × Properties))
    (h : goodPropsAssoc props = true) : ∀ k ∈ sortedKeys props, plainName k = true := by
  intro k hk
  have hk2 : k ∈ props.map Prod.fst :=
    (List.Perm.mem_iff (List.perm_insertionSort _ _)).mp hk
  obtain ⟨e, he, rfl⟩ := List.mem_map.mp hk2
  exact (goodPropsAssoc_mem h (by rw [← Prod.mk.eta (p := e)] at he; exact he)).1

theorem emits_message_head (N : String) (hn : noEq N.toList = true) :
    EmitsNums ("\nmessage " ++ N ++ " \x7b\n") [] := by
  refine EmitsNums_of_noEq ?_ ?_ ?_
  · show (("\nmessage ").toList ++ N.toList) ++ (" \x7b\n").toList ≠ []
    simp
  · show noEq ((("\nmessage ").toList ++ N.toList) ++ (" \x7b\n").toList) = true
    exact noEq_append (noEq_append (by decide) hn) (by decide)
  · show ((("\nmessage ").toList ++ N.toList) ++ (" \x7b\n").toList).getLast? ≠ some ' '
    have hsp : (("\nmessage ").toList ++ N.toList) ++ (" \x7b\n").toList =
        ((("\nmessage ").toList ++ N.toList) ++ (" \x7b").toList) ++ ['\n'] := by
      simp [List.append_assoc]
    rw [hsp, List.getLast?_concat]
    simp

theorem emits_msg_suffix : EmitsNums ("\t\n\x7d\n") [] :=
  EmitsNums_of_noEq (by decide) (by decide) (by decide)

-- Numbers of a whole message: the field loop writes the numbers i, i+1, ... in
-- order, and the rendered message block carries exactly the numbers 1..K.

theorem ToMessageFields_nums (root props : List (String × Properties)) (keys : List String)
    (i : Nat) (fs : List String) (i2 : Nat) (q : List (String × QItem))
    (hassoc : goodPropsAssoc props = true) (hkeys : ∀ k ∈ keys, plainName k = true)
    (h : ToMessageFields root props keys i = .ok (fs, i2, q)) :
    ∃ K, i2 = i + K ∧ ∀ t nt, EmitsNums t nt →
      EmitsNums (sjoin (fs.map (· ++ "\n")) ++ t)
        (((List.range' i K).map Nat.repr) ++ nt) := by
  induction keys generalizing i fs i2 q with
  | nil =>
    rw [TMF_red_nil root props i] at h
    simp only [Except.ok.injEq, Prod.mk.injEq] at h
    obtain ⟨h1, h2, h3⟩ := h
    subst h1 h2 h3
    refine ⟨0, rfl, ?_⟩
    intro t nt htn
    refine EmitsNums_congr_all rfl ?_ htn
    simp
  | cons k rest ih =>
    cases hf : ToField root k (lookupProps props k) i with
    | error e =>
      rw [TMF_red_err root props k rest i e hf] at h
      cases h
    | ok trip =>
      obtain ⟨s1, j, q1⟩ := trip
      cases hrest : ToMessageFields root props rest j with
      | error e =>
        rw [TMF_red_resterr root props k rest i s1 j q1 e hf hrest] at h
        cases h
      | ok trip2 =>
        obtain ⟨fs2, i3, q2⟩ := trip2
        rw [TMF_red_cons root props k rest i s1 j q1 fs2 i3 q2 hf hrest] at h
        simp only [Except.ok.injEq, Prod.mk.injEq] at h
        obtain ⟨h1, h2, h3⟩ := h
        subst h1 h2 h3
        obtain ⟨k1, hk1, hem1, _⟩ := ToField_nums root k (lookupProps props k) i s1 j q1
          (hkeys k (by simp)) (goodPropsAssoc_lookup k hassoc) hf
        subst hk1
        obtain ⟨K2, hK2, hcps⟩ := ih (i + k1) fs2 i3 q2
          (fun x hx => hkeys x (by simp [hx])) hrest
        subst hK2
        refine ⟨K2 + k1, by omega, ?_⟩
        intro t nt htn
        have hsn : EmitsNums (s1 ++ "\n") ((List.range' i k1).map Nat.repr) := by
          simpa using EmitsNums_append hem1 emits_newline
        have hcat := EmitsNums_append hsn (hcps t nt htn)
        refine EmitsNums_congr_all ?_ ?_ hcat
        · simp [sjoin, toList_append, List.append_assoc]
        · rw [← List.range'_append_1, List.map_append, List.append_assoc]

theorem ToMessage_nums (root : List (String × Properties)) (messageName : String)
    (props : List (String × Properties)) (tn : List String) (body : String)
    (tn2 : List String) (q : List (String × QItem)) (hname : plainName messageName = true)
    (hassoc : goodPropsAssoc props = true)
    (h : ToMessage root messageName props tn = .ok (body, tn2, q)) :
    ∃ K, nums body = (List.range' 1 K).map Nat.repr := by
  by_cases hdup : tn.contains (toPascalCase messageName) = true
  · rw [ToMessage_red_dup root messageName props tn hdup] at h
    simp only [Except.ok.injEq, Prod.mk.injEq] at h
    obtain ⟨h1, h2, h3⟩ := h
    subst h1 h2 h3
    exact ⟨0, rfl⟩
  · rw [Bool.not_eq_true] at hdup
    cases hfm : ToMessageFields root props (sortedKeys props) 1 with
    | error e =>
      rw [ToMessage_red_err root messageName props tn e hdup hfm] at h
      cases h
    | ok trip =>
      obtain ⟨fs, i3, q2⟩ := trip
      rw [ToMessage_red_ok root messageName props tn fs i3 q2 hdup hfm] at h
      simp only [Except.ok.injEq, Prod.mk.injEq] at h
      obtain ⟨h1, h2, h3⟩ := h
      subst h1 h2 h3
      obtain ⟨K, _, hcps⟩ := ToMessageFields_nums root props (sortedKeys props) 1 fs i3 q2
        hassoc (sortedKeys_plain props hassoc) hfm
      refine ⟨K, nums_of_emits ?_⟩
      have hpre := emits_message_head (toPascalCase messageName)
        (noEq_of_idName (idName_toPascalCase hname))
      have hall := EmitsNums_append hpre (hcps ("\t\n\x7d\n") [] emits_msg_suffix)
      refine EmitsNums_congr_all ?_ ?_ hall
      · simp [renderMessage, toList_append, List.append_assoc]
      · simp

theorem C5_counterexample :
    ToField [] ("x") arrayComplexNode 1 = .ok ("--Invalid Type--", 1, []) ∧
    (1 : Nat) ≠ 1 + 1 :=
  ⟨rfl, by decide⟩

/-- C5 amended: within every successfully emitted message block over a
well-formed properties map, the field numbers written into the block are
exactly 1, 2, ..., K with no gaps, in the order they are written, starting
from 1; each of the four leaf field emitters increments the threaded counter
by exactly one, but a successful ARRAY-COMPLEX emission leaves the counter
unchanged and writes no number, so not every successful field emission
increments it. -/
theorem C5_amended (root : List (String × Properties)) (messageName : String)
    (props : List (String × Properties)) (tn : List String) (body : String)
    (tn2 : List String) (q : List (String × QItem))
    (hname : plainName messageName = true) (hassoc : goodPropsAssoc props = true)
    (h : ToMessage root messageName props tn = .ok (body, tn2, q)) :
    (∃ K, nums body = (List.range' 1 K).map Nat.repr) ∧
    (∀ name t i, (ToPrimitiveProperty name t i).2 = i + 1) ∧
    (∀ name t i, (ToPrimitiveArrayProperty name t i).2 = i + 1) ∧
    (∀ name t i, (ToRefProperty name t i).2 = i + 1) ∧
    (∀ name t i, (ToRefArrayProperty name t i).2 = i + 1) :=
  ⟨ToMessage_nums root messageName props tn body tn2 q hname hassoc h,
   fun _ _ _ => rfl, fun _ _ _ => rfl, fun _ _ _ => rfl, fun _ _ _ => rfl⟩

/-- C5 amended witness: the statement evaluated on a two-field message whose
rendered block carries exactly the numbers 1 and 2 in order. -/
theorem C5_amended_witness :
    plainName ("foo") = true ∧
    goodPropsAssoc [(("aa"), stringMember), (("b"), stringMember)] = true ∧
    ToMessage [] ("foo") [(("aa"), stringMember), (("b"), stringMember)] [] =
      .ok ("\nmessage Foo \x7b\n\tstring b = 1;\n\tstring aa = 2;\n\t\n\x7d\n",
        ["Foo"], []) ∧
    ((∃ K, nums ("\nmessage Foo \x7b\n\tstring b = 1;\n\tstring aa = 2;\n\t\n\x7d\n") =
        (List.range' 1 K).map Nat.repr) ∧
      (∀ name t i, (ToPrimitiveProperty name t i).2 = i + 1) ∧
      (∀ name t i, (ToPrimitiveArrayProperty name t i).2 = i + 1) ∧
      (∀ name t i, (ToRefProperty name t i).2 = i + 1) ∧
      (∀ name t i, (ToRefArrayProperty name t i).2 = i + 1)) :=
  ⟨by decide, rfl, rfl,
   C5_amended [] ("foo") [(("aa"), stringMember), (("b"), stringMember)] []
     ("\nmessage Foo \x7b\n\tstring b = 1;\n\tstring aa = 2;\n\t\n\x7d\n") ["Foo"] []
     (by decide) rfl rfl⟩

-- The substring observer agrees with list infixes; an attribute-free line
-- contains no json_name occurrence, an attribute-bearing line always does.

theorem isPrefixList_iff (pat : List Char) : ∀ (l : List Char),
    isPrefixList pat l = true ↔ pat <+: l := by
  induction pat with
  | nil =>
    intro l
    simp [isPrefixList]
  | cons a as ih =>
    intro l
    cases l with
    | nil => simp [isPrefixList]
    | cons b bs =>
      rw [isPrefixList, Bool.and_eq_true, List.cons_prefix_cons, ih bs]
      simp

theorem containsSub_iff (pat : List Char) : ∀ (l : List Char),
    containsSub pat l = true ↔ pat <:+: l := by
  intro l
  induction l with
  | nil =>
    rw [containsSub, isPrefixList_iff]
    simp
  | cons c rest ih =>
    rw [containsSub, Bool.or_eq_true, isPrefixList_iff, ih, List.infix_cons_iff]

theorem eqPre_tail {c : Char} {l : List Char} (h : eqPre (c :: l) = true) :
    eqPre l = true := by
  cases l with
  | nil => rfl
  | cons c2 r =>
    rw [eqPre, Bool.and_eq_true] at h
    exact h.2

theorem eqPre_not_sub {x : Char} (hx : ¬(x = ' ')) :
    ∀ (a : List Char) {l : List Char}, eqPre l = true → ∀ (b : List Char),
      l ≠ a ++ x :: '=' :: b := by
  intro a
  induction a with
  | nil =>
    intro l h b hab
    rw [List.nil_append] at hab
    subst hab
    rw [eqPre, Bool.and_eq_true] at h
    have h1 := h.1
    simp at h1
    exact hx h1
  | cons c a2 ih =>
    intro l h b hab
    subst hab
    exact ih (eqPre_tail h) b rfl

theorem noEq_of_digits {l : List Char} (h : l.all Char.isDigit = true) : noEq l = true := by
  rw [noEq, List.all_eq_true]
  intro c hc
  have hd := List.all_eq_true.mp h c hc
  simp only [decide_eq_true_eq]
  intro hcc
  subst hcc
  exact absurd hd (by decide)

theorem eqPre_of_noEq {l : List Char} (h : noEq l = true) : eqPre l = true := by
  induction l with
  | nil => rfl
  | cons c rest ih =>
    cases rest with
    | nil => rfl
    | cons c2 r2 =>
      rw [eqPre, Bool.and_eq_true]
      have hc2 : c2 ≠ '=' := noEq_mem h (by simp)
      have hrest : noEq (c2 :: r2) = true := by
        rw [noEq, List.all_cons, Bool.and_eq_true] at h
        exact h.2
      exact ⟨by simp [hc2], ih hrest⟩

theorem eqPre_space {X : List Char} (hX : noEq X = true) : eqPre (' ' :: X) = true := by
  cases X with
  | nil => rfl
  | cons x xs =>
    rw [eqPre, Bool.and_eq_true]
    exact ⟨by simp, eqPre_of_noEq hX⟩

theorem eqPre_capture {X : List Char} (hX : noEq X = true) :
    eqPre (' ' :: '=' :: ' ' :: X) = true := by
  rw [eqPre, Bool.and_eq_true]
  refine ⟨by simp, ?_⟩
  rw [eqPre, Bool.and_eq_true]
  exact ⟨by simp, eqPre_space hX⟩

theorem eqPre_append_left : ∀ (a : List Char) {rest : List Char}, noEq a = true →
    eqPre rest = true → rest.head? ≠ some '=' → eqPre (a ++ rest) = true := by
  intro a
  induction a with
  | nil =>
    intro rest _ h2 _
    simpa using h2
  | cons c a2 ih =>
    intro rest ha h2 hh
    have ha2 : noEq a2 = true := by
      rw [noEq, List.all_cons, Bool.and_eq_true] at ha
      exact ha.2
    have hrec : eqPre (a2 ++ rest) = true := ih ha2 h2 hh
    rw [List.cons_append]
    cases hsplit : a2 ++ rest with
    | nil => rfl
    | cons d r2 =>
      rw [hsplit] at hrec
      rw [eqPre, Bool.and_eq_true]
      refine ⟨?_, hrec⟩
      have hd : d ≠ '=' := by
        cases a2 with
        | nil =>
          rw [List.nil_append] at hsplit
          intro hdd
          subst hdd
          exact hh (by simp [hsplit])
        | cons e a3 =>
          rw [List.cons_append] at hsplit
          injection hsplit with h1 _
          subst h1
          exact noEq_mem ha2 (by simp)
      simp [hd]

theorem hasJsonName_eq_false {s : String} (h : eqPre s.toList = true) :
    hasJsonName s = false := by
  rw [hasJsonName]
  by_contra hcon
  rw [Bool.not_eq_false, containsSub_iff] at hcon
  have hsub : ['e', '='] <:+: s.toList :=
    List.IsInfix.trans ⟨['j', 's', 'o', 'n', '_', 'n', 'a', 'm'], [], by decide⟩ hcon
  obtain ⟨a, b, hab⟩ := hsub
  refine eqPre_not_sub (x := 'e') (by decide) a h b ?_
  rw [← hab]
  simp

theorem hasJsonName_attr (base sn : String) :
    hasJsonName (base ++ " [json_name=\"" ++ sn ++ "\"];") = true := by
  rw [hasJsonName, containsSub_iff]
  refine ⟨base.toList ++ (" [").toList, ("\"").toList ++ sn.toList ++ ("\"];").toList, ?_⟩
  simp [toList_append, List.append_assoc]

theorem hasJsonName_ToPrimitiveProperty (name : String) (t : Types) (i : Nat)
    (hname : plainName name = true) (ht : noEq (protoScalarName t).toList = true) :
    hasJsonName (ToPrimitiveProperty name t i).1 = (toSnakeCase name).2 := by
  have hN : noEq (toCamelCase name).toList = true := noEq_of_idName (idName_toCamelCase hname)
  unfold ToPrimitiveProperty
  cases hsn : (toSnakeCase name).2
  · simp only [hsn, Bool.false_eq_true, if_false]
    apply hasJsonName_eq_false
    have hpre : noEq ('\t' :: ((protoScalarName t).toList ++ ' ' ::
        (toCamelCase name).toList)) = true :=
      noEq_cons (by decide) (noEq_append ht (noEq_cons (by decide) hN))
    have hX : noEq ((Nat.repr i).toList ++ [';']) = true :=
      noEq_append (noEq_of_digits (repr_digits i)) (by decide)
    have hline : ("\t" ++ protoScalarName t ++ " " ++ toCamelCase name ++ " = " ++
        Nat.repr i ++ ";").toList =
        ('\t' :: ((protoScalarName t).toList ++ ' ' :: (toCamelCase name).toList)) ++
          (' ' :: '=' :: ' ' :: ((Nat.repr i).toList ++ [';'])) := by
      simp [toList_append, List.append_assoc]
    rw [hline]
    exact eqPre_append_left _ hpre (eqPre_capture hX) (by simp)
  · simp only [hsn, if_true]
    exact hasJsonName_attr ("\t" ++ protoScalarName t ++ " " ++ toCamelCase name ++ " = "
      ++ Nat.repr i) (toSnakeCase name).1

theorem hasJsonName_ToRefProperty (name typeName : String) (i : Nat)
    (hname : plainName name = true) (hp : plainName typeName = true) :
    hasJsonName (ToRefProperty name typeName i).1 = (toSnakeCase name).2 := by
  have hN : noEq (toCamelCase name).toList = true := noEq_of_idName (idName_toCamelCase hname)
  have ht : noEq (toPascalCase typeName).toList = true :=
    noEq_of_idName (idName_toPascalCase hp)
  unfold ToRefProperty
  cases hsn : (toSnakeCase name).2
  · simp only [hsn, Bool.false_eq_true, if_false]
    apply hasJsonName_eq_false
    have hpre : noEq ('\t' :: ((toPascalCase typeName).toList ++ ' ' ::
        (toCamelCase name).toList)) = true :=
      noEq_cons (by decide) (noEq_append ht (noEq_cons (by decide) hN))
    have hX : noEq ((Nat.repr i).toList ++ [';']) = true :=
      noEq_append (noEq_of_digits (repr_digits i)) (by decide)
    have hline : ("\t" ++ toPascalCase typeName ++ " " ++ toCamelCase name ++ " = " ++
        Nat.repr i ++ ";").toList =
        ('\t' :: ((toPascalCase typeName).toList ++ ' ' :: (toCamelCase name).toList)) ++
          (' ' :: '=' :: ' ' :: ((Nat.repr i).toList ++ [';'])) := by
      simp [toList_append, List.append_assoc]
    rw [hline]
    exact eqPre_append_left _ hpre (eqPre_capture hX) (by simp)
  · simp only [hsn, if_true]
    exact hasJsonName_attr ("\t" ++ toPascalCase typeName ++ " " ++ toCamelCase name ++
      " = " ++ Nat.repr i) (toSnakeCase name).1

theorem string_ext {a b : String} (h : a.toList = b.toList) : a = b := by
  obtain ⟨l1⟩ := a
  obtain ⟨l2⟩ := b
  rw [toList_mk, toList_mk] at h
  rw [h]

theorem dropOneTab_cons (s t2 : String) (h : s.toList = '\t' :: t2.toList) :
    dropOneTab s = t2 := by
  unfold dropOneTab
  rw [h]
  show String.mk t2.toList = t2
  obtain ⟨l⟩ := t2
  rfl

theorem TPAP_line_plain (name : String) (t : Types) (i : Nat)
    (hsn : (toSnakeCase name).2 = false) :
    (ToPrimitiveArrayProperty name t i).1 =
      "\trepeated " ++ protoScalarName t ++ " " ++ toCamelCase name ++ " = " ++
        Nat.repr i ++ ";" := by
  have hdrop : dropOneTab (ToPrimitiveProperty name t i).1 =
      protoScalarName t ++ " " ++ toCamelCase name ++ " = " ++ Nat.repr i ++ ";" := by
    apply dropOneTab_cons
    unfold ToPrimitiveProperty
    simp only [hsn, Bool.false_eq_true, if_false]
    simp [toList_append]
  unfold ToPrimitiveArrayProperty
  simp only []
  rw [hdrop]
  apply string_ext
  simp [toList_append]

theorem TPAP_line_attr (name : String) (t : Types) (i : Nat)
    (hsn : (toSnakeCase name).2 = true) :
    (ToPrimitiveArrayProperty name t i).1 =
      "\trepeated " ++ protoScalarName t ++ " " ++ toCamelCase name ++ " = " ++
        Nat.repr i ++ " [json_name=\"" ++ (toSnakeCase name).1 ++ "\"];" := by
  have hdrop : dropOneTab (ToPrimitiveProperty name t i).1 =
      protoScalarName t ++ " " ++ toCamelCase name ++ " = " ++ Nat.repr i ++
        " [json_name=\"" ++ (toSnakeCase name).1 ++ "\"];" := by
    apply dropOneTab_cons
    unfold ToPrimitiveProperty
    simp only [hsn, if_true]
    simp [toList_append]
  unfold ToPrimitiveArrayProperty
  simp only []
  rw [hdrop]
  apply string_ext
  simp [toList_append]

theorem hasJsonName_ToRefArrayProperty (name typeName : String) (i : Nat)
    (hname : plainName name = true) (hp : plainName typeName = true) :
    hasJsonName (ToRefArrayProperty name typeName i).1 = (toSnakeCase name).2 := by
  have hN : noEq (toCamelCase name).toList = true := noEq_of_idName (idName_toCamelCase hname)
  have ht : noEq (toPascalCase typeName).toList = true :=
    noEq_of_idName (idName_toPascalCase hp)
  unfold ToRefArrayProperty
  cases hsn : (toSnakeCase name).2
  · simp only [hsn, Bool.false_eq_true, if_false]
    apply hasJsonName_eq_false
    have hpre : noEq (("\trepeated ").toList ++ ((toPascalCase typeName).toList ++ ' ' ::
        (toCamelCase name).toList)) = true :=
      noEq_append (by decide) (noEq_append ht (noEq_cons (by decide) hN))
    have hX : noEq ((Nat.repr i).toList ++ [';']) = true :=
      noEq_append (noEq_of_digits (repr_digits i)) (by decide)
    have hline : ("\trepeated " ++ toPascalCase typeName ++ " " ++ toCamelCase name ++
        " = " ++ Nat.repr i ++ ";").toList =
        (("\trepeated ").toList ++ ((toPascalCase typeName).toList ++ ' ' ::
          (toCamelCase name).toList)) ++
          (' ' :: '=' :: ' ' :: ((Nat.repr i).toList ++ [';'])) := by
      simp [toList_append, List.append_assoc]
    rw [hline]
    exact eqPre_append_left _ hpre (eqPre_capture hX) (by simp)
  · simp only [hsn, if_true]
    exact hasJsonName_attr ("\trepeated " ++ toPascalCase typeName ++ " " ++
      toCamelCase name ++ " = " ++ Nat.repr i) (toSnakeCase name).1

theorem hasJsonName_ToPrimitiveArrayProperty (name : String) (t : Types) (i : Nat)
    (hname : plainName name = true) (hcan : canonicalType t = true) :
    hasJsonName (ToPrimitiveArrayProperty name t i).1 = (toSnakeCase name).2 := by
  have hN : noEq (toCamelCase name).toList = true := noEq_of_idName (idName_toCamelCase hname)
  have ht : noEq (protoScalarName t).toList = true := noEq_protoScalar hcan
  cases hsn : (toSnakeCase name).2
  · rw [TPAP_line_plain name t i hsn]
    apply hasJsonName_eq_false
    have hpre : noEq (("\trepeated ").toList ++ ((protoScalarName t).toList ++ ' ' ::
        (toCamelCase name).toList)) = true :=
      noEq_append (by decide) (noEq_append ht (noEq_cons (by decide) hN))
    have hX : noEq ((Nat.repr i).toList ++ [';']) = true :=
      noEq_append (noEq_of_digits (repr_digits i)) (by decide)
    have hline : ("\trepeated " ++ protoScalarName t ++ " " ++ toCamelCase name ++
        " = " ++ Nat.repr i ++ ";").toList =
        (("\trepeated ").toList ++ ((protoScalarName t).toList ++ ' ' ::
          (toCamelCase name).toList)) ++
          (' ' :: '=' :: ' ' :: ((Nat.repr i).toList ++ [';'])) := by
      simp [toList_append, List.append_assoc]
    rw [hline]
    exact eqPre_append_left _ hpre (eqPre_capture hX) (by simp)
  · rw [TPAP_line_attr name t i hsn]
    exact hasJsonName_attr ("\trepeated " ++ protoScalarName t ++ " " ++
      toCamelCase name ++ " = " ++ Nat.repr i) (toSnakeCase name).1

/-- C7: on every rendered field line over plain names, for all four leaf
emitters (primitive, reference, reference-array and primitive-array), the
json_name attribute appears if and only if the byte-scanning snake converter
reports a change, the attribute value is exactly the snake-cased name, and the
three documented examples render as stated: a plain name a carries no
attribute, helloWorld carries hello_world, and a1 carries a_1 at the digit
boundary. -/
theorem C7_theorem :
    (∀ name t i, plainName name = true → canonicalType t = true →
      hasJsonName (ToPrimitiveProperty name t i).1 = (toSnakeCase name).2 ∧
      ((toSnakeCase name).2 = true →
        (ToPrimitiveProperty name t i).1 =
          "\t" ++ protoScalarName t ++ " " ++ toCamelCase name ++ " = " ++ Nat.repr i ++
            " [json_name=\"" ++ (toSnakeCase name).1 ++ "\"];")) ∧
    (∀ name typeName i, plainName name = true → plainName typeName = true →
      hasJsonName (ToRefProperty name typeName i).1 = (toSnakeCase name).2 ∧
      ((toSnakeCase name).2 = true →
        (ToRefProperty name typeName i).1 =
          "\t" ++ toPascalCase typeName ++ " " ++ toCamelCase name ++ " = " ++
            Nat.repr i ++ " [json_name=\"" ++ (toSnakeCase name).1 ++ "\"];")) ∧
    (∀ name typeName i, plainName name = true → plainName typeName = true →
      hasJsonName (ToRefArrayProperty name typeName i).1 = (toSnakeCase name).2 ∧
      ((toSnakeCase name).2 = true →
        (ToRefArrayProperty name typeName i).1 =
          "\trepeated " ++ toPascalCase typeName ++ " " ++ toCamelCase name ++ " = " ++
            Nat.repr i ++ " [json_name=\"" ++ (toSnakeCase name).1 ++ "\"];")) ∧
    (∀ name t i, plainName name = true → canonicalType t = true →
      hasJsonName (ToPrimitiveArrayProperty name t i).1 = (toSnakeCase name).2 ∧
      ((toSnakeCase name).2 = true →
        (ToPrimitiveArrayProperty name t i).1 =
          "\trepeated " ++ protoScalarName t ++ " " ++ toCamelCase name ++ " = " ++
            Nat.repr i ++ " [json_name=\"" ++ (toSnakeCase name).1 ++ "\"];")) ∧
    toSnakeCase ("a") = (("a"), false) ∧
    toSnakeCase ("helloWorld") = (("hello_world"), true) ∧
    toSnakeCase ("a1") = (("a_1"), true) ∧
    ToPrimitiveProperty ("a") STRING 1 = (("\tstring a = 1;"), 2) ∧
    ToPrimitiveProperty ("helloWorld") STRING 1 =
      (("\tstring helloWorld = 1 [json_name=\"hello_world\"];"), 2) ∧
    ToPrimitiveProperty ("a1") STRING 1 = (("\tstring a1 = 1 [json_name=\"a_1\"];"), 2) := by
  refine ⟨?_, ?_, ?_, ?_, rfl, rfl, rfl, rfl, rfl, rfl⟩
  · intro name t i hname hcan
    refine ⟨hasJsonName_ToPrimitiveProperty name t i hname (noEq_protoScalar hcan), ?_⟩
    intro hsn
    unfold ToPrimitiveProperty
    simp only [hsn, if_true]
  · intro name typeName i hname hp
    refine ⟨hasJsonName_ToRefProperty name typeName i hname hp, ?_⟩
    intro hsn
    unfold ToRefProperty
    simp only [hsn, if_true]
  · intro name typeName i hname hp
    refine ⟨hasJsonName_ToRefArrayProperty name typeName i hname hp, ?_⟩
    intro hsn
    unfold ToRefArrayProperty
    simp only [hsn, if_true]
  · intro name t i hname hcan
    exact ⟨hasJsonName_ToPrimitiveArrayProperty name t i hname hcan,
      fun hsn => TPAP_line_attr name t i hsn⟩

/-- C7 witness: the attribute test evaluated through all four leaf emitters at
the documented names, with the changed flag, the snake name and the full
attribute-carrying lines concrete. -/
theorem C7_witness :
    (hasJsonName (ToPrimitiveProperty ("helloWorld") STRING 1).1 =
        (toSnakeCase ("helloWorld")).2 ∧
      ((toSnakeCase ("helloWorld")).2 = true →
        (ToPrimitiveProperty ("helloWorld") STRING 1).1 =
          "\t" ++ protoScalarName STRING ++ " " ++ toCamelCase ("helloWorld") ++ " = " ++
            Nat.repr 1 ++ " [json_name=\"" ++ (toSnakeCase ("helloWorld")).1 ++ "\"];")) ∧
    (hasJsonName (ToPrimitiveProperty ("a") STRING 2).1 = (toSnakeCase ("a")).2 ∧
      ((toSnakeCase ("a")).2 = true →
        (ToPrimitiveProperty ("a") STRING 2).1 =
          "\t" ++ protoScalarName STRING ++ " " ++ toCamelCase ("a") ++ " = " ++
            Nat.repr 2 ++ " [json_name=\"" ++ (toSnakeCase ("a")).1 ++ "\"];")) ∧
    (hasJsonName (ToRefProperty ("a1") ("Item") 3).1 = (toSnakeCase ("a1")).2 ∧
      ((toSnakeCase ("a1")).2 = true →
        (ToRefProperty ("a1") ("Item") 3).1 =
          "\t" ++ toPascalCase ("Item") ++ " " ++ toCamelCase ("a1") ++ " = " ++
            Nat.repr 3 ++ " [json_name=\"" ++ (toSnakeCase ("a1")).1 ++ "\"];")) ∧
    (hasJsonName (ToRefArrayProperty ("a1") ("Item") 4).1 = (toSnakeCase ("a1")).2 ∧
      ((toSnakeCase ("a1")).2 = true →
        (ToRefArrayProperty ("a1") ("Item") 4).1 =
          "\trepeated " ++ toPascalCase ("Item") ++ " " ++ toCamelCase ("a1") ++ " = " ++
            Nat.repr 4 ++ " [json_name=\"" ++ (toSnakeCase ("a1")).1 ++ "\"];")) ∧
    (hasJsonName (ToPrimitiveArrayProperty ("helloWorld") STRING 5).1 =
        (toSnakeCase ("helloWorld")).2 ∧
      ((toSnakeCase ("helloWorld")).2 = true →
        (ToPrimitiveArrayProperty ("helloWorld") STRING 5).1 =
          "\trepeated " ++ protoScalarName STRING ++ " " ++ toCamelCase ("helloWorld") ++
            " = " ++ Nat.repr 5 ++ " [json_name=\"" ++
            (toSnakeCase ("helloWorld")).1 ++ "\"];")) :=
  ⟨C7_theorem.1 ("helloWorld") STRING 1 (by decide) (by decide),
   C7_theorem.1 ("a") STRING 2 (by decide) (by decide),
   C7_theorem.2.1 ("a1") ("Item") 3 (by decide) (by decide),
   C7_theorem.2.2.1 ("a1") ("Item") 4 (by decide) (by decide),
   C7_theorem.2.2.2.1 ("helloWorld") STRING 5 (by decide) (by decide)⟩

-- Queue well-formedness: the resolved map of a reference into a well-formed
-- root is well-formed, and the queue operations preserve well-formedness.

theorem goodProps_properties {p : Properties} (h : goodProps p = true) :
    goodPropsAssoc p.properties = true := by
  obtain ⟨ty, it, rf, ao, en, pr⟩ := p
  exact (goodProps_fields h).2.2.2.2

theorem goodPropsAssoc_descend (segs : List String) :
    ∀ (m : List (String × Properties)), goodPropsAssoc m = true →
      goodPropsAssoc (descend m segs) = true := by
  induction segs with
  | nil => intro m hm; exact hm
  | cons s rest ih =>
    intro m hm
    exact ih _ (goodProps_properties (goodPropsAssoc_lookup s hm))

theorem GetRef_good {p : Properties} {root : List (String × Properties)} {key : String}
    {m : List (String × Properties)} (hroot : goodPropsAssoc root = true)
    (h : GetRef p root = .ok (key, m)) : goodPropsAssoc m = true := by
  obtain ⟨ty, it, rf, ao, en, pr⟩ := p
  cases rf with
  | none =>
    unfold GetRef at h
    simp [Properties.ref] at h
  | some r =>
    unfold GetRef at h
    simp only [Properties.ref] at h
    by_cases hh : startsWithHttp r
    · rw [if_pos hh] at h
      cases h
    · rw [if_neg hh] at h
      rcases hsp : splitOnSlash r with _ | ⟨s0, _ | ⟨s1, rest⟩⟩
      · rw [hsp] at h
        simp at h
        rw [← h.2]
        exact hroot
      · rw [hsp] at h
        simp at h
        rw [← h.2]
        exact hroot
      · rw [hsp] at h
        by_cases hd : s1 = "$defs"
        · subst hd
          simp at h
        · simp only [hd, Bool.false_eq_true, if_false, Except.ok.injEq, Prod.mk.injEq,
            if_neg] at h
          rw [← h.2]
          apply goodPropsAssoc_descend
          by_cases hdef : s1 = "definitions"
          · rw [if_pos hdef]
            exact hroot
          · rw [if_neg hdef]
            exact goodProps_properties (goodPropsAssoc_lookup s1 hroot)

theorem goodQueue_append {a b : List (String × QItem)} (ha : goodQueue a = true)
    (hb : goodQueue b = true) : goodQueue (a ++ b) = true := by
  induction a with
  | nil => simpa using hb
  | cons e rest ih =>
    obtain ⟨k, it⟩ := e
    rw [goodQueue, Bool.and_eq_true, Bool.and_eq_true] at ha
    rw [List.cons_append, goodQueue, Bool.and_eq_true, Bool.and_eq_true]
    exact ⟨⟨ha.1.1, ha.1.2⟩, ih ha.2⟩

theorem goodQueue_filter (f : (String × QItem) → Bool) {q : List (String × QItem)}
    (h : goodQueue q = true) : goodQueue (q.filter f) = true := by
  induction q with
  | nil => rfl
  | cons e rest ih =>
    obtain ⟨k, it⟩ := e
    rw [goodQueue, Bool.and_eq_true, Bool.and_eq_true] at h
    rw [List.filter_cons]
    split_ifs
    · rw [goodQueue, Bool.and_eq_true, Bool.and_eq_true]
      exact ⟨⟨h.1.1, h.1.2⟩, ih h.2⟩
    · exact ih h.2

theorem goodQueue_overwrite {q : List (String × QItem)} (k : String) (v : QItem)
    (h : goodQueue q = true) (hk : plainName k = true) (hv : goodItem v = true) :
    goodQueue (q.map (fun e => if e.1 == k then (k, v) else e)) = true := by
  induction q with
  | nil => rfl
  | cons e rest ih =>
    obtain ⟨k2, it2⟩ := e
    rw [goodQueue, Bool.and_eq_true, Bool.and_eq_true] at h
    rw [List.map_cons]
    by_cases he : ((k2, it2).1 == k) = true
    · simp only [he, if_true]
      rw [goodQueue, Bool.and_eq_true, Bool.and_eq_true]
      exact ⟨⟨hk, hv⟩, ih h.2⟩
    · simp only [he, Bool.false_eq_true, if_false]
      rw [goodQueue, Bool.and_eq_true, Bool.and_eq_true]
      exact ⟨⟨h.1.1, h.1.2⟩, ih h.2⟩

theorem goodQueue_qUpdate {q : List (String × QItem)} {k : String} {v : QItem}
    (h : goodQueue q = true) (hk : plainName k = true) (hv : goodItem v = true) :
    goodQueue (qUpdate q k v) = true := by
  rw [qUpdate]
  split_ifs
  · exact goodQueue_overwrite k v h hk hv
  · refine goodQueue_append h ?_
    rw [goodQueue, Bool.and_eq_true, Bool.and_eq_true]
    exact ⟨⟨hk, hv⟩, rfl⟩

theorem goodQueue_qUpdateAll : ∀ (adds q : List (String × QItem)),
    goodQueue q = true → goodQueue adds = true → goodQueue (qUpdateAll q adds) = true := by
  intro adds
  induction adds with
  | nil => intro q hq _; exact hq
  | cons e rest ih =>
    intro q hq ha
    obtain ⟨k, v⟩ := e
    rw [goodQueue, Bool.and_eq_true, Bool.and_eq_true] at ha
    exact ih _ (goodQueue_qUpdate hq ha.1.1 ha.1.2) ha.2

-- Every queue handed out by a successful field rendering over a well-formed
-- root and node is itself well-formed: plain keys, well-formed stored values.

set_option maxHeartbeats 3200000 in
mutual

theorem ToField_queue (root : List (String × Properties)) (name : String) (p : Properties)
    (i : Nat) (s : String) (i2 : Nat) (q : List (String × QItem))
    (hroot : goodPropsAssoc root = true) (hname : plainName name = true)
    (hp : goodProps p = true) (h : ToField root name p i = .ok (s, i2, q)) :
    goodQueue q = true := by
  cases hgt : GetType p with
  | none =>
    rw [ToField_red_none root name p i hgt] at h
    cases h
  | some pt =>
    cases pt with
    | PRIMITIVE_TYPE =>
      rw [ToField_red_primitive root name p i hgt] at h
      simp only [Except.ok.injEq, Prod.mk.injEq] at h
      obtain ⟨h1, h2, h3⟩ := h
      subst h3
      rfl
    | REF_TYPE =>
      cases hgr : GetRef p root with
      | error e =>
        rw [ToField_red_ref_err root name p i e hgt hgr] at h
        cases h
      | ok pr2 =>
        obtain ⟨refType, ref⟩ := pr2
        rw [ToField_red_ref root name p i refType ref hgt hgr] at h
        simp only [Except.ok.injEq, Prod.mk.injEq] at h
        obtain ⟨h1, h2, h3⟩ := h
        subst h3
        rw [goodQueue, Bool.and_eq_true, Bool.and_eq_true]
        exact ⟨⟨hname, GetRef_good hroot hgr⟩, rfl⟩
    | PRIMITIVE_ARRAY_TYPE =>
      obtain ⟨itv, hit⟩ := (GetType_inv p).2.2.1 hgt
      rw [ToField_red_primarray root name p itv i hgt hit] at h
      simp only [Except.ok.injEq, Prod.mk.injEq] at h
      obtain ⟨h1, h2, h3⟩ := h
      subst h3
      rfl
    | UNKOWN_ARRAY_TYPE =>
      rw [ToField_red_unknown root name p i hgt] at h
      simp only [Except.ok.injEq, Prod.mk.injEq] at h
      obtain ⟨h1, h2, h3⟩ := h
      subst h3
      rfl
    | REF_ARRAY_TYPE =>
      obtain ⟨itv, r, hit, hr⟩ := (GetType_inv p).2.2.2.1 hgt
      cases hgr : GetRef itv root with
      | error e =>
        rw [ToField_red_refarray_err root name p itv i e hgt hit hgr] at h
        cases h
      | ok pr2 =>
        obtain ⟨refType, ref⟩ := pr2
        rw [ToField_red_refarray root name p itv i refType ref hgt hit hgr] at h
        simp only [Except.ok.injEq, Prod.mk.injEq] at h
        obtain ⟨h1, h2, h3⟩ := h
        subst h3
        rw [goodQueue, Bool.and_eq_true, Bool.and_eq_true]
        exact ⟨⟨hname, GetRef_good hroot hgr⟩, rfl⟩
    | COMPLEX_ARRAY_TYPE =>
      rw [ToField_red_complex root name p i hgt] at h
      simp only [Except.ok.injEq, Prod.mk.injEq] at h
      obtain ⟨h1, h2, h3⟩ := h
      subst h3
      rfl
    | ENUM_TYPE =>
      obtain ⟨es, he⟩ := (GetType_inv p).1 hgt
      rw [ToField_red_enum root name p es i hgt he] at h
      simp only [Except.ok.injEq, Prod.mk.injEq] at h
      obtain ⟨h1, h2, h3⟩ := h
      subst h3
      rw [goodQueue, Bool.and_eq_true, Bool.and_eq_true]
      exact ⟨⟨hname, rfl⟩, rfl⟩
    | NESTED_OBJECT_TYPE =>
      rw [ToField_red_nested root name p i hgt] at h
      simp only [Except.ok.injEq, Prod.mk.injEq] at h
      obtain ⟨h1, h2, h3⟩ := h
      subst h3
      rw [goodQueue, Bool.and_eq_true, Bool.and_eq_true]
      exact ⟨⟨hname, hp⟩, rfl⟩
    | UNION_TYPE =>
      obtain ⟨l, ha⟩ := (GetType_inv p).2.1 hgt
      rw [ToField_red_union root name p l i hgt ha] at h
      exact ToUnionProperty_queue root name l i s i2 q hroot hname
        (goodProps_anyOf hp ha) h
termination_by sizeOf p
decreasing_by exact sizeOf_anyOf_lt ha

theorem ToUnionProperty_queue (root : List (String × Properties)) (unionName : String)
    (l : List Properties) (i : Nat) (s : String) (i2 : Nat) (q : List (String × QItem))
    (hroot : goodPropsAssoc root = true) (hname : plainName unionName = true)
    (hl : goodPropsList l = true)
    (h : ToUnionProperty root unionName l i = .ok (s, i2, q)) : goodQueue q = true := by
  rcases hleq : l with _ | ⟨a, _ | ⟨b, _ | ⟨c, tail⟩⟩⟩
  · rw [hleq] at h hl
    rw [TUP_red_nil root unionName i] at h
    simp only [Except.ok.injEq, Prod.mk.injEq] at h
    obtain ⟨h1, h2, h3⟩ := h
    subst h3
    rfl
  · rw [hleq] at h hl
    obtain ⟨hga, _⟩ := goodPropsList_cons hl
    by_cases ht : unionMemberType a root = ""
    · rw [TUP_red_single_panic root unionName a i ht] at h
      cases h
    · cases hf : ToField root
          (toCamelCase unionName ++ "_" ++ toCamelCase (unionMemberType a root)) a i with
      | error e =>
        rw [TUP_red_single_err root unionName a i e ht hf] at h
        cases h
      | ok trip =>
        obtain ⟨s1, j, q1⟩ := trip
        rw [TUP_red_single root unionName a i s1 j q1 ht hf] at h
        simp only [Except.ok.injEq, Prod.mk.injEq] at h
        obtain ⟨h1, h2, h3⟩ := h
        subst h3
        refine goodQueue_append ?_ rfl
        exact ToField_queue root
          (toCamelCase unionName ++ "_" ++ toCamelCase (unionMemberType a root)) a i s1 j q1
          hroot (plain_composite hname (plain_unionMemberType root hga)) hga hf
  · rw [hleq] at h hl
    obtain ⟨hga, hl2⟩ := goodPropsList_cons hl
    obtain ⟨hgb, _⟩ := goodPropsList_cons hl2
    by_cases hbN : b.type = NULL
    · by_cases haN : a.type = NULL
      · rw [TUP_red_bothnull root unionName a b i haN hbN] at h
        cases h
      · by_cases ht : unionMemberType a root = ""
        · rw [TUP_red_opt_panic root unionName a b i hbN haN ht] at h
          cases h
        · cases hf : ToField root
              (toCamelCase unionName ++ "_" ++ toCamelCase (unionMemberType a root)) a i with
          | error e =>
            rw [TUP_red_opt_err root unionName a b i e hbN haN ht hf] at h
            cases h
          | ok trip =>
            obtain ⟨s1, j, q1⟩ := trip
            rw [TUP_red_opt root unionName a b i s1 j q1 hbN haN ht hf] at h
            simp only [Except.ok.injEq, Prod.mk.injEq] at h
            obtain ⟨h1, h2, h3⟩ := h
            subst h3
            exact ToField_queue root
              (toCamelCase unionName ++ "_" ++ toCamelCase (unionMemberType a root)) a i
              s1 j q1 hroot (plain_composite hname (plain_unionMemberType root hga)) hga hf
    · by_cases haN : a.type = NULL
      · by_cases ht : unionMemberType b root = ""
        · rw [TUP_red_opt2_panic root unionName a b i hbN haN ht] at h
          cases h
        · cases hf : ToField root
              (toCamelCase unionName ++ "_" ++ toCamelCase (unionMemberType b root)) b i with
          | error e =>
            rw [TUP_red_opt2_err root unionName a b i e hbN haN ht hf] at h
            cases h
          | ok trip =>
            obtain ⟨s1, j, q1⟩ := trip
            rw [TUP_red_opt2 root unionName a b i s1 j q1 hbN haN ht hf] at h
            simp only [Except.ok.injEq, Prod.mk.injEq] at h
            obtain ⟨h1, h2, h3⟩ := h
            subst h3
            exact ToField_queue root
              (toCamelCase unionName ++ "_" ++ toCamelCase (unionMemberType b root)) b i
              s1 j q1 hroot (plain_composite hname (plain_unionMemberType root hgb)) hgb hf
      · by_cases hta : unionMemberType a root = ""
        · rw [TUP_red_pair_panic_a root unionName a b i hbN haN hta] at h
          cases h
        · cases hfa : ToField root
              (toCamelCase unionName ++ "_" ++ toCamelCase (unionMemberType a root)) a i with
          | error e =>
            rw [TUP_red_pair_err_a root unionName a b i e hbN haN hta hfa] at h
            cases h
          | ok tripa =>
            obtain ⟨s1, j, q1⟩ := tripa
            by_cases htb : unionMemberType b root = ""
            · rw [TUP_red_pair_panic_b root unionName a b i s1 j q1 hbN haN hta hfa htb] at h
              cases h
            · cases hfb : ToField root
                  (toCamelCase unionName ++ "_" ++
                    toCamelCase (unionMemberType b root)) b j with
              | error e =>
                rw [TUP_red_pair_err_b root unionName a b i s1 j q1 e hbN haN hta hfa
                  htb hfb] at h
                cases h
              | ok tripb =>
                obtain ⟨s2, i3, q2⟩ := tripb
                rw [TUP_red_pair root unionName a b i s1 s2 j i3 q1 q2 hbN haN hta hfa
                  htb hfb] at h
                simp only [Except.ok.injEq, Prod.mk.injEq] at h
                obtain ⟨h1, h2, h3⟩ := h
                subst h3
                refine goodQueue_append ?_ (goodQueue_append ?_ rfl)
                · exact ToField_queue root
                    (toCamelCase unionName ++ "_" ++ toCamelCase (unionMemberType a root))
                    a i s1 j q1 hroot
                    (plain_composite hname (plain_unionMemberType root hga)) hga hfa
                · exact ToField_queue root
                    (toCamelCase unionName ++ "_" ++ toCamelCase (unionMemberType b root))
                    b j s2 i3 q2 hroot
                    (plain_composite hname (plain_unionMemberType root hgb)) hgb hfb
  · rw [hleq] at h hl
    obtain ⟨hga, hl2⟩ := goodPropsList_cons hl
    by_cases ht : unionMemberType a root = ""
    · rw [TUP_red_big_panic root unionName a b c tail i ht] at h
      cases h
    · cases hf : ToField root
          (toCamelCase unionName ++ "_" ++ toCamelCase (unionMemberType a root)) a i with
      | error e =>
        rw [TUP_red_big_err root unionName a b c tail i e ht hf] at h
        cases h
      | ok trip =>
        obtain ⟨s1, j, q1⟩ := trip
        cases hlines : unionLines root unionName (b :: c :: tail) j with
        | error e =>
          rw [TUP_red_big_linerr root unionName a b c tail i s1 j q1 e ht hf hlines] at h
          cases h
        | ok trip2 =>
          obtain ⟨body, i3, q2⟩ := trip2
          rw [TUP_red_big root unionName a b c tail i s1 body j i3 q1 q2 ht hf hlines] at h
          simp only [Except.ok.injEq, Prod.mk.injEq] at h
          obtain ⟨h1, h2, h3⟩ := h
          subst h3
          refine goodQueue_append ?_ ?_
          · exact ToField_queue root
              (toCamelCase unionName ++ "_" ++ toCamelCase (unionMemberType a root)) a i
              s1 j q1 hroot (plain_composite hname (plain_unionMemberType root hga)) hga hf
          · exact unionLines_queue root unionName (b :: c :: tail) j body i3 q2 hroot
              hname hl2 hlines
termination_by sizeOf l
decreasing_by all_goals (rw [hleq]; simp_wf <;> omega)

theorem unionLines_queue (root : List (String × Properties)) (unionName : String)
    (l : List Properties) (i : Nat) (s : String) (i2 : Nat) (q : List (String × QItem))
    (hroot : goodPropsAssoc root = true) (hname : plainName unionName = true)
    (hl : goodPropsList l = true)
    (h : unionLines root unionName l i = .ok (s, i2, q)) : goodQueue q = true := by
  rcases hleq : l with _ | ⟨v, rest⟩
  · rw [hleq] at h hl
    rw [unionLines_red_nil root unionName i] at h
    simp only [Except.ok.injEq, Prod.mk.injEq] at h
    obtain ⟨h1, h2, h3⟩ := h
    subst h3
    rfl
  · rw [hleq] at h hl
    obtain ⟨hgv, hl2⟩ := goodPropsList_cons hl
    by_cases ht : unionMemberType v root = ""
    · rw [unionLines_red_panic root unionName v rest i ht] at h
      cases h
    · cases hf : ToField root
          (toCamelCase unionName ++ "_" ++ toCamelCase (unionMemberType v root)) v i with
      | error e =>
        rw [unionLines_red_err root unionName v rest i e ht hf] at h
        cases h
      | ok trip =>
        obtain ⟨s1, j, q1⟩ := trip
        cases hrest : unionLines root unionName rest j with
        | error e =>
          rw [unionLines_red_resterr root unionName v rest i s1 j q1 e ht hf hrest] at h
          cases h
        | ok trip2 =>
          obtain ⟨s2, i3, q2⟩ := trip2
          rw [unionLines_red_cons root unionName v rest i s1 s2 j i3 q1 q2 ht hf hrest] at h
          simp only [Except.ok.injEq, Prod.mk.injEq] at h
          obtain ⟨h1, h2, h3⟩ := h
          subst h3
          refine goodQueue_append ?_ ?_
          · exact ToField_queue root
              (toCamelCase unionName ++ "_" ++ toCamelCase (unionMemberType v root)) v i
              s1 j q1 hroot (plain_composite hname (plain_unionMemberType root hgv)) hgv hf
          · exact unionLines_queue root unionName rest j s2 i3 q2 hroot hname hl2 hrest
termination_by sizeOf l
decreasing_by all_goals (rw [hleq]; simp_wf <;> omega)

end

theorem ToMessageFields_queue (root props : List (String × Properties)) (keys : List String)
    (i : Nat) (fs : List String) (i2 : Nat) (q : List (String × QItem))
    (hroot : goodPropsAssoc root = true) (hassoc : goodPropsAssoc props = true)
    (hkeys : ∀ k ∈ keys, plainName k = true)
    (h : ToMessageFields root props keys i = .ok (fs, i2, q)) : goodQueue q = true := by
  induction keys generalizing i fs i2 q with
  | nil =>
    rw [TMF_red_nil root props i] at h
    simp only [Except.ok.injEq, Prod.mk.injEq] at h
    obtain ⟨h1, h2, h3⟩ := h
    subst h3
    rfl
  | cons k rest ih =>
    cases hf : ToField root k (lookupProps props k) i with
    | error e =>
      rw [TMF_red_err root props k rest i e hf] at h
      cases h
    | ok trip =>
      obtain ⟨s1, j, q1⟩ := trip
      cases hrest : ToMessageFields root props rest j with
      | error e =>
        rw [TMF_red_resterr root props k rest i s1 j q1 e hf hrest] at h
        cases h
      | ok trip2 =>
        obtain ⟨fs2, i3, q2⟩ := trip2
        rw [TMF_red_cons root props k rest i s1 j q1 fs2 i3 q2 hf hrest] at h
        simp only [Except.ok.injEq, Prod.mk.injEq] at h
        obtain ⟨h1, h2, h3⟩ := h
        subst h3
        refine goodQueue_append ?_ ?_
        · exact ToField_queue root k (lookupProps props k) i s1 j q1 hroot
            (hkeys k (by simp)) (goodPropsAssoc_lookup k hassoc) hf
        · exact ih j fs2 i3 q2 (fun x hx => hkeys x (by simp [hx])) hrest

theorem ToMessage_queue (root : List (String × Properties)) (messageName : String)
    (props : List (String × Properties)) (tn : List String) (b : String)
    (tn2 : List String) (q : List (String × QItem)) (hroot : goodPropsAssoc root = true)
    (hassoc : goodPropsAssoc props = true)
    (h : ToMessage root messageName props tn = .ok (b, tn2, q)) : goodQueue q = true := by
  by_cases hdup : tn.contains (toPascalCase messageName) = true
  · rw [ToMessage_red_dup root messageName props tn hdup] at h
    simp only [Except.ok.injEq, Prod.mk.injEq] at h
    obtain ⟨h1, h2, h3⟩ := h
    subst h3
    rfl
  · rw [Bool.not_eq_true] at hdup
    cases hfm : ToMessageFields root props (sortedKeys props) 1 with
    | error e =>
      rw [ToMessage_red_err root messageName props tn e hdup hfm] at h
      cases h
    | ok trip =>
      obtain ⟨fs, i3, q2⟩ := trip
      rw [ToMessage_red_ok root messageName props tn fs i3 q2 hdup hfm] at h
      simp only [Except.ok.injEq, Prod.mk.injEq] at h
      obtain ⟨h1, h2, h3⟩ := h
      subst h3
      exact ToMessageFields_queue root props (sortedKeys props) 1 fs i3 q2 hroot hassoc
        (sortedKeys_plain props hassoc) hfm

-- Reading the defined name off a rendered block.

theorem takeWhile_plain : ∀ (N : List Char), (∀ c ∈ N, ¬(c = ' ')) → ∀ (z : List Char),
    (N ++ ' ' :: z).takeWhile (fun c => c ≠ ' ') = N := by
  intro N
  induction N with
  | nil =>
    intro _ z
    rw [List.nil_append, List.takeWhile_cons, if_neg (by simp)]
  | cons a as ih =>
    intro hN z
    have ha : ¬(a = ' ') := hN a (by simp)
    rw [List.cons_append, List.takeWhile_cons, if_pos (by simp [ha]),
      ih (fun c hc => hN c (by simp [hc])) z]

theorem idName_no_space {s : String} (h : idName s = true) : ∀ c ∈ s.toList, ¬(c = ' ') := by
  intro c hc
  exact (idChar_excludes (List.all_eq_true.mp h c hc)).2.1

theorem blockName_renderMessage (N body : String) (hN : ∀ c ∈ N.toList, ¬(c = ' ')) :
    blockName (renderMessage N body) = some N := by
  unfold blockName
  have hlist : (renderMessage N body).toList =
      '\n' :: 'm' :: 'e' :: 's' :: 's' :: 'a' :: 'g' :: 'e' :: ' ' ::
        (N.toList ++ ' ' :: ("\x7b\n" ++ body ++ "\t\n\x7d\n").toList) := by
    simp [renderMessage, toList_append, List.append_assoc]
  rw [hlist]
  show some (String.mk ((N.toList ++ ' ' ::
    ("\x7b\n" ++ body ++ "\t\n\x7d\n").toList).takeWhile (fun c => c ≠ ' '))) = some N
  rw [takeWhile_plain N.toList hN]
  rfl

theorem blockName_renderEnum (N body : String) (hN : ∀ c ∈ N.toList, ¬(c = ' ')) :
    blockName (renderEnum N body) = some N := by
  unfold blockName
  have hlist : (renderEnum N body).toList =
      '\n' :: 'e' :: 'n' :: 'u' :: 'm' :: ' ' ::
        (N.toList ++ ' ' :: ("\x7b\n" ++ body ++ "\n\x7d\n").toList) := by
    simp [renderEnum, toList_append, List.append_assoc]
  rw [hlist]
  show some (String.mk ((N.toList ++ ' ' ::
    ("\x7b\n" ++ body ++ "\n\x7d\n").toList).takeWhile (fun c => c ≠ ' '))) = some N
  rw [takeWhile_plain N.toList hN]
  rfl

theorem ToMessage_names (root : List (String × Properties)) (messageName : String)
    (props : List (String × Properties)) (tn : List String) (b : String) (tn2 : List String)
    (q : List (String × QItem)) (hname : plainName messageName = true)
    (h : ToMessage root messageName props tn = .ok (b, tn2, q)) :
    (b = "" ∧ tn2 = tn) ∨ (∃ N, blockName b = some N ∧ N ∉ tn ∧ tn2 = tn ++ [N]) := by
  by_cases hdup : tn.contains (toPascalCase messageName) = true
  · rw [ToMessage_red_dup root messageName props tn hdup] at h
    simp only [Except.ok.injEq, Prod.mk.injEq] at h
    obtain ⟨h1, h2, h3⟩ := h
    subst h1 h2
    exact Or.inl ⟨rfl, rfl⟩
  · rw [Bool.not_eq_true] at hdup
    cases hfm : ToMessageFields root props (sortedKeys props) 1 with
    | error e =>
      rw [ToMessage_red_err root messageName props tn e hdup hfm] at h
      cases h
    | ok trip =>
      obtain ⟨fs, i3, q2⟩ := trip
      rw [ToMessage_red_ok root messageName props tn fs i3 q2 hdup hfm] at h
      simp only [Except.ok.injEq, Prod.mk.injEq] at h
      obtain ⟨h1, h2, h3⟩ := h
      subst h1 h2
      refine Or.inr ⟨toPascalCase messageName, ?_, by simpa using hdup, rfl⟩
      exact blockName_renderMessage _ _ (idName_no_space (idName_toPascalCase hname))

theorem ToEnum_names (enumName : String) (enumValue : List String) (tn : List String)
    (hname : plainName enumName = true) :
    ((ToEnum enumName enumValue tn).1 = "" ∧ (ToEnum enumName enumValue tn).2 = tn) ∨
      (∃ N, blockName (ToEnum enumName enumValue tn).1 = some N ∧ N ∉ tn ∧
        (ToEnum enumName enumValue tn).2 = tn ++ [N]) := by
  unfold ToEnum
  by_cases hdup : tn.contains (toPascalCase enumName) = true
  · simp only []
    rw [if_pos hdup]
    exact Or.inl ⟨rfl, rfl⟩
  · rw [Bool.not_eq_true] at hdup
    simp only []
    rw [if_neg (by simpa using hdup)]
    refine Or.inr ⟨toPascalCase enumName, ?_, by simpa using hdup, rfl⟩
    exact blockName_renderEnum _ _ (idName_no_space (idName_toPascalCase hname))

theorem nodup_snoc {tn : List String} {N : String} (h : tn.Nodup) (hn : N ∉ tn) :
    (tn ++ [N]).Nodup := by
  simp [List.nodup_append, h, hn]

-- Reduction lemmas for the root definition loop.

theorem TPB_red_nil (root defs : List (String × Properties)) (tn : List String) :
    ToProtobufBlocks root defs [] tn = .ok ([], tn, []) := rfl

theorem TPB_red_gtnone (root defs : List (String × Properties)) (k : String)
    (rest : List String) (tn : List String)
    (hgt : GetType (lookupProps defs k) = none) :
    ToProtobufBlocks root defs (k :: rest) tn = .error .nilDeref := by
  rw [ToProtobufBlocks.eq_def]
  simp [hgt]

theorem TPB_red_enum_none (root defs : List (String × Properties)) (k : String)
    (rest : List String) (tn : List String)
    (hgt : GetType (lookupProps defs k) = some .ENUM_TYPE)
    (he : (lookupProps defs k).enum = none) :
    ToProtobufBlocks root defs (k :: rest) tn = .error .nilDeref := by
  rw [ToProtobufBlocks.eq_def]
  simp [hgt, he]

theorem TPB_red_enum_resterr (root defs : List (String × Properties)) (k : String)
    (rest : List String) (tn : List String) (es : List String) (e : Fault)
    (hgt : GetType (lookupProps defs k) = some .ENUM_TYPE)
    (he : (lookupProps defs k).enum = some es)
    (hrest : ToProtobufBlocks root defs rest (ToEnum k es tn).2 = .error e) :
    ToProtobufBlocks root defs (k :: rest) tn = .error e := by
  rw [ToProtobufBlocks.eq_def]
  simp [hgt, he, hrest]

theorem TPB_red_enum (root defs : List (String × Properties)) (k : String)
    (rest : List String) (tn : List String) (es : List String) (bs : List String)
    (tn3 : List String) (q2 : List (String × QItem))
    (hgt : GetType (lookupProps defs k) = some .ENUM_TYPE)
    (he : (lookupProps defs k).enum = some es)
    (hrest : ToProtobufBlocks root defs rest (ToEnum k es tn).2 = .ok (bs, tn3, q2)) :
    ToProtobufBlocks root defs (k :: rest) tn = .ok ((ToEnum k es tn).1 :: bs, tn3, q2) := by
  rw [ToProtobufBlocks.eq_def]
  simp [hgt, he, hrest]

theorem TPB_red_msg_err (root defs : List (String × Properties)) (k : String)
    (rest : List String) (tn : List String) (e : Fault) (gt : PropertyType)
    (hgt : GetType (lookupProps defs k) = some gt) (hne : gt ≠ .ENUM_TYPE)
    (hm : ToMessage root k (lookupProps defs k).properties tn = .error e) :
    ToProtobufBlocks root defs (k :: rest) tn = .error e := by
  rw [ToProtobufBlocks.eq_def]
  cases gt
  case ENUM_TYPE => exact absurd rfl hne
  all_goals simp [hgt, hm]

theorem TPB_red_msg_resterr (root defs : List (String × Properties)) (k : String)
    (rest : List String) (tn : List String) (e : Fault) (gt : PropertyType) (s : String)
    (tnm : List String) (q1 : List (String × QItem))
    (hgt : GetType (lookupProps defs k) = some gt) (hne : gt ≠ .ENUM_TYPE)
    (hm : ToMessage root k (lookupProps defs k).properties tn = .ok (s, tnm, q1))
    (hrest : ToProtobufBlocks root defs rest tnm = .error e) :
    ToProtobufBlocks root defs (k :: rest) tn = .error e := by
  rw [ToProtobufBlocks.eq_def]
  cases gt
  case ENUM_TYPE => exact absurd rfl hne
  all_goals simp [hgt, hm, hrest]

theorem TPB_red_msg (root defs : List (String × Properties)) (k : String)
    (rest : List String) (tn : List String) (gt : PropertyType) (s : String)
    (tnm : List String) (q1 : List (String × QItem)) (bs : List String) (tn3 : List String)
    (q2 : List (String × QItem))
    (hgt : GetType (lookupProps defs k) = some gt) (hne : gt ≠ .ENUM_TYPE)
    (hm : ToMessage root k (lookupProps defs k).properties tn = .ok (s, tnm, q1))
    (hrest : ToProtobufBlocks root defs rest tnm = .ok (bs, tn3, q2)) :
    ToProtobufBlocks root defs (k :: rest) tn = .ok (s :: bs, tn3, q1 ++ q2) := by
  rw [ToProtobufBlocks.eq_def]
  cases gt
  case ENUM_TYPE => exact absurd rfl hne
  all_goals simp [hgt, hm, hrest]

theorem TPB_inv (root defs : List (String × Properties)) (keys : List String) :
    ∀ (tn bs tn2 : List String) (q : List (String × QItem)),
    goodPropsAssoc root = true → goodPropsAssoc defs = true →
    (∀ k ∈ keys, plainName k = true) →
    ToProtobufBlocks root defs keys tn = .ok (bs, tn2, q) →
    tn2 = tn ++ bs.filterMap blockName ∧ (tn.Nodup → tn2.Nodup) ∧ goodQueue q = true := by
  induction keys with
  | nil =>
    intro tn bs tn2 q hroot hdefs hkeys h
    rw [TPB_red_nil root defs tn] at h
    simp only [Except.ok.injEq, Prod.mk.injEq] at h
    obtain ⟨h1, h2, h3⟩ := h
    subst h1 h2 h3
    exact ⟨by simp, fun hh => hh, rfl⟩
  | cons k rest ih =>
    intro tn bs tn2 q hroot hdefs hkeys h
    have hk : plainName k = true := hkeys k (by simp)
    have hkrest : ∀ x ∈ rest, plainName x = true := fun x hx => hkeys x (by simp [hx])
    cases hgt : GetType (lookupProps defs k) with
    | none =>
      rw [TPB_red_gtnone root defs k rest tn hgt] at h
      cases h
    | some gt =>
      by_cases hEN : gt = .ENUM_TYPE
      · subst hEN
        obtain ⟨es, he⟩ := (GetType_inv (lookupProps defs k)).1 hgt
        cases hrest : ToProtobufBlocks root defs rest (ToEnum k es tn).2 with
        | error e =>
          rw [TPB_red_enum_resterr root defs k rest tn es e hgt he hrest] at h
          cases h
        | ok trip =>
          obtain ⟨bs2, tn3, q2⟩ := trip
          rw [TPB_red_enum root defs k rest tn es bs2 tn3 q2 hgt he hrest] at h
          simp only [Except.ok.injEq, Prod.mk.injEq] at h
          obtain ⟨h1, h2, h3⟩ := h
          subst h1 h2 h3
          obtain ⟨ht3, hnd3, hq3⟩ := ih _ _ _ _ hroot hdefs hkrest hrest
          rcases ToEnum_names k es tn hk with ⟨hb, htn⟩ | ⟨N, hbN, hNt, htn⟩
          · refine ⟨?_, ?_, hq3⟩
            · rw [ht3, htn, hb]
              simp [blockName]
            · intro hnd
              refine hnd3 ?_
              rw [htn]
              exact hnd
          · refine ⟨?_, ?_, hq3⟩
            · rw [ht3, htn, List.filterMap_cons, hbN]
              simp
            · intro hnd
              refine hnd3 ?_
              rw [htn]
              exact nodup_snoc hnd hNt
      · cases hm : ToMessage root k (lookupProps defs k).properties tn with
        | error e =>
          rw [TPB_red_msg_err root defs k rest tn e gt hgt hEN hm] at h
          cases h
        | ok tripm =>
          obtain ⟨s, tnm, q1⟩ := tripm
          cases hrest : ToProtobufBlocks root defs rest tnm with
          | error e =>
            rw [TPB_red_msg_resterr root defs k rest tn e gt s tnm q1 hgt hEN hm hrest] at h
            cases h
          | ok trip =>
            obtain ⟨bs2, tn3, q2⟩ := trip
            rw [TPB_red_msg root defs k rest tn gt s tnm q1 bs2 tn3 q2 hgt hEN hm
              hrest] at h
            simp only [Except.ok.injEq, Prod.mk.injEq] at h
            obtain ⟨h1, h2, h3⟩ := h
            subst h1 h2 h3
            obtain ⟨ht3, hnd3, hq3⟩ := ih _ _ _ _ hroot hdefs hkrest hrest
            have hq1 : goodQueue q1 = true :=
              ToMessage_queue root k (lookupProps defs k).properties tn s tnm q1 hroot
                (goodProps_properties (goodPropsAssoc_lookup k hdefs)) hm
            rcases ToMessage_names root k (lookupProps defs k).properties tn s tnm q1 hk hm
              with ⟨hb, htn⟩ | ⟨N, hbN, hNt, htn⟩
            · refine ⟨?_, ?_, goodQueue_append hq1 hq3⟩
              · rw [ht3, htn, hb]
                simp [blockName]
              · intro hnd
                refine hnd3 ?_
                rw [htn]
                exact hnd
            · refine ⟨?_, ?_, goodQueue_append hq1 hq3⟩
              · rw [ht3, htn, List.filterMap_cons, hbN]
                simp
              · intro hnd
                refine hnd3 ?_
                rw [htn]
                exact nodup_snoc hnd hNt

-- Reduction lemmas for the queue handlers and the drain loop.

theorem PE_red_props (root : List (String × Properties)) (k : String)
    (m : List (String × Properties)) (tn : List String) :
    processEntry root k (.props m) tn = ToMessage root k m tn := rfl

theorem PE_red_node (root : List (String × Properties)) (k : String) (p : Properties)
    (tn : List String) :
    processEntry root k (.node p) tn = ToMessage root k p.properties tn := rfl

theorem PE_red_enum (root : List (String × Properties)) (k : String) (l : List String)
    (tn : List String) :
    processEntry root k (.enumVals l) tn = .ok ((ToEnum k l tn).1, (ToEnum k l tn).2, []) :=
  rfl

theorem processEntry_inv (root : List (String × Properties)) (k : String) (item : QItem)
    (tn : List String) (s : String) (tn2 : List String) (q : List (String × QItem))
    (hroot : goodPropsAssoc root = true) (hk : plainName k = true)
    (hit : goodItem item = true) (h : processEntry root k item tn = .ok (s, tn2, q)) :
    ((s = "" ∧ tn2 = tn) ∨ (∃ N, blockName s = some N ∧ N ∉ tn ∧ tn2 = tn ++ [N])) ∧
      goodQueue q = true := by
  cases item with
  | props m =>
    rw [PE_red_props] at h
    exact ⟨ToMessage_names root k m tn s tn2 q hk h,
      ToMessage_queue root k m tn s tn2 q hroot hit h⟩
  | node p =>
    rw [PE_red_node] at h
    exact ⟨ToMessage_names root k p.properties tn s tn2 q hk h,
      ToMessage_queue root k p.properties tn s tn2 q hroot (goodProps_properties hit) h⟩
  | enumVals l =>
    rw [PE_red_enum] at h
    simp only [Except.ok.injEq, Prod.mk.injEq] at h
    obtain ⟨h1, h2, h3⟩ := h
    subst h1 h2 h3
    exact ⟨ToEnum_names k l tn hk, rfl⟩

theorem PP_red_nil (root : List (String × Properties)) (tn : List String) :
    processPass root [] tn = .ok ([], tn, []) := rfl

theorem PP_red_err (root : List (String × Properties)) (k : String) (item : QItem)
    (rest : List (String × QItem)) (tn : List String) (e : Fault)
    (hf : processEntry root k item tn = .error e) :
    processPass root ((k, item) :: rest) tn = .error e := by
  rw [processPass.eq_def]
  simp [hf]

theorem PP_red_resterr (root : List (String × Properties)) (k : String) (item : QItem)
    (rest : List (String × QItem)) (tn : List String) (s : String) (tnp : List String)
    (q1 : List (String × QItem)) (e : Fault)
    (hf : processEntry root k item tn = .ok (s, tnp, q1))
    (hrest : processPass root rest tnp = .error e) :
    processPass root ((k, item) :: rest) tn = .error e := by
  rw [processPass.eq_def]
  simp [hf, hrest]

theorem PP_red_cons (root : List (String × Properties)) (k : String) (item : QItem)
    (rest : List (String × QItem)) (tn : List String) (s : String) (tnp : List String)
    (q1 : List (String × QItem)) (fs : List String) (tn3 : List String)
    (q2 : List (String × QItem)) (hf : processEntry root k item tn = .ok (s, tnp, q1))
    (hrest : processPass root rest tnp = .ok (fs, tn3, q2)) :
    processPass root ((k, item) :: rest) tn = .ok (s :: fs, tn3, q1 ++ q2) := by
  rw [processPass.eq_def]
  simp [hf, hrest]

theorem processPass_inv (root : List (String × Properties)) :
    ∀ (entries : List (String × QItem)) (tn fs tn2 : List String)
      (adds : List (String × QItem)),
    goodPropsAssoc root = true → goodQueue entries = true →
    processPass root entries tn = .ok (fs, tn2, adds) →
    tn2 = tn ++ fs.filterMap blockName ∧ (tn.Nodup → tn2.Nodup) ∧ goodQueue adds = true := by
  intro entries
  induction entries with
  | nil =>
    intro tn fs tn2 adds hroot hq h
    rw [PP_red_nil root tn] at h
    simp only [Except.ok.injEq, Prod.mk.injEq] at h
    obtain ⟨h1, h2, h3⟩ := h
    subst h1 h2 h3
    exact ⟨by simp, fun hh => hh, rfl⟩
  | cons e rest ih =>
    intro tn fs tn2 adds hroot hq h
    obtain ⟨k, item⟩ := e
    rw [goodQueue, Bool.and_eq_true, Bool.and_eq_true] at hq
    cases hf : processEntry root k item tn with
    | error e2 =>
      rw [PP_red_err root k item rest tn e2 hf] at h
      cases h
    | ok trip =>
      obtain ⟨s, tnp, q1⟩ := trip
      cases hrest : processPass root rest tnp with
      | error e2 =>
        rw [PP_red_resterr root k item rest tn s tnp q1 e2 hf hrest] at h
        cases h
      | ok trip2 =>
        obtain ⟨fs2, tn3, q2⟩ := trip2
        rw [PP_red_cons root k item rest tn s tnp q1 fs2 tn3 q2 hf hrest] at h
        simp only [Except.ok.injEq, Prod.mk.injEq] at h
        obtain ⟨h1, h2, h3⟩ := h
        subst h1 h2 h3
        obtain ⟨hnames, hq1⟩ := processEntry_inv root k item tn s tnp q1 hroot hq.1.1
          hq.1.2 hf
        obtain ⟨ht3, hnd3, hq3⟩ := ih tnp fs2 tn3 q2 hroot hq.2 hrest
        rcases hnames with ⟨hb, htn⟩ | ⟨N, hbN, hNt, htn⟩
        · refine ⟨?_, ?_, goodQueue_append hq1 hq3⟩
          · rw [ht3, htn, hb]
            simp [blockName]
          · intro hnd
            refine hnd3 ?_
            rw [htn]
            exact hnd
        · refine ⟨?_, ?_, goodQueue_append hq1 hq3⟩
          · rw [ht3, htn, List.filterMap_cons, hbN]
            simp
          · intro hnd
            refine hnd3 ?_
            rw [htn]
            exact nodup_snoc hnd hNt

theorem drain_red_zero_nil (root : List (String × Properties)) (tn : List String) :
    drain root 0 [] tn = .ok ([], tn) := rfl

theorem drain_red_zero_cons (root : List (String × Properties)) (e : String × QItem)
    (es : List (String × QItem)) (tn : List String) :
    drain root 0 (e :: es) tn = .error .fuel := rfl

theorem drain_red_nil (root : List (String × Properties)) (fuel : Nat) (tn : List String) :
    drain root (fuel + 1) [] tn = .ok ([], tn) := rfl

theorem drain_red_perr (root : List (String × Properties)) (fuel : Nat) (e : String × QItem)
    (es : List (String × QItem)) (tn : List String) (e2 : Fault)
    (hp : processPass root (e :: es) tn = .error e2) :
    drain root (fuel + 1) (e :: es) tn = .error e2 := by
  rw [drain.eq_def]
  simp [hp]

theorem drain_red_rerr (root : List (String × Properties)) (fuel : Nat) (e : String × QItem)
    (es : List (String × QItem)) (tn : List String) (fs1 : List String) (tnp : List String)
    (adds : List (String × QItem)) (e2 : Fault)
    (hp : processPass root (e :: es) tn = .ok (fs1, tnp, adds))
    (hrec : drain root fuel ((qUpdateAll (e :: es) adds).filter
      (fun x => ¬ ((e :: es).map Prod.fst).contains x.1)) tnp = .error e2) :
    drain root (fuel + 1) (e :: es) tn = .error e2 := by
  rw [drain.eq_def]
  simp only [hp, hrec]

theorem drain_red_step (root : List (String × Properties)) (fuel : Nat) (e : String × QItem)
    (es : List (String × QItem)) (tn : List String) (fs1 : List String) (tnp : List String)
    (adds : List (String × QItem)) (fs2 : List String) (tn3 : List String)
    (hp : processPass root (e :: es) tn = .ok (fs1, tnp, adds))
    (hrec : drain root fuel ((qUpdateAll (e :: es) adds).filter
      (fun x => ¬ ((e :: es).map Prod.fst).contains x.1)) tnp = .ok (fs2, tn3)) :
    drain root (fuel + 1) (e :: es) tn = .ok (fs1 ++ fs2, tn3) := by
  rw [drain.eq_def]
  simp only [hp, hrec]

theorem drain_inv (root : List (String × Properties)) : ∀ (fuel : Nat)
    (queue : List (String × QItem)) (tn fs tn2 : List String),
    goodPropsAssoc root = true → goodQueue queue = true →
    drain root fuel queue tn = .ok (fs, tn2) →
    tn2 = tn ++ fs.filterMap blockName ∧ (tn.Nodup → tn2.Nodup) := by
  intro fuel
  induction fuel with
  | zero =>
    intro queue tn fs tn2 hroot hq h
    cases queue with
    | nil =>
      rw [drain_red_zero_nil root tn] at h
      simp only [Except.ok.injEq, Prod.mk.injEq] at h
      obtain ⟨h1, h2⟩ := h
      subst h1 h2
      exact ⟨by simp, fun hh => hh⟩
    | cons e es =>
      rw [drain_red_zero_cons root e es tn] at h
      cases h
  | succ fuel ih =>
    intro queue tn fs tn2 hroot hq h
    cases queue with
    | nil =>
      rw [drain_red_nil root fuel tn] at h
      simp only [Except.ok.injEq, Prod.mk.injEq] at h
      obtain ⟨h1, h2⟩ := h
      subst h1 h2
      exact ⟨by simp, fun hh => hh⟩
    | cons e es =>
      cases hp : processPass root (e :: es) tn with
      | error e2 =>
        rw [drain_red_perr root fuel e es tn e2 hp] at h
        cases h
      | ok trip =>
        obtain ⟨fs1, tnp, adds⟩ := trip
        cases hrec : drain root fuel ((qUpdateAll (e :: es) adds).filter
            (fun x => ¬ ((e :: es).map Prod.fst).contains x.1)) tnp with
        | error e2 =>
          rw [drain_red_rerr root fuel e es tn fs1 tnp adds e2 hp hrec] at h
          cases h
        | ok trip2 =>
          obtain ⟨fs2, tn3⟩ := trip2
          rw [drain_red_step root fuel e es tn fs1 tnp adds fs2 tn3 hp hrec] at h
          simp only [Except.ok.injEq, Prod.mk.injEq] at h
          obtain ⟨h1, h2⟩ := h
          subst h1 h2
          obtain ⟨htp, hndp, hadds⟩ := processPass_inv root (e :: es) tn fs1 tnp adds
            hroot hq hp
          have hnewq : goodQueue ((qUpdateAll (e :: es) adds).filter
              (fun x => ¬ ((e :: es).map Prod.fst).contains x.1)) = true :=
            goodQueue_filter _ (goodQueue_qUpdateAll adds (e :: es) hq hadds)
          obtain ⟨ht3, hnd3⟩ := ih _ tnp fs2 tn3 hroot hnewq hrec
          refine ⟨?_, ?_⟩
          · rw [ht3, htp, List.filterMap_append, List.append_assoc]
          · intro hnd
            exact hnd3 (hndp hnd)

theorem PB_red_berr (schema : Schema) (fuel : Nat) (e : Fault)
    (hb : ToProtobufBlocks schema.definitions schema.definitions
      (sortedKeys schema.definitions) [] = .error e) :
    ParseBlocks schema fuel = .error e := by
  unfold ParseBlocks
  simp [hb]

theorem PB_red_derr (schema : Schema) (fuel : Nat) (bs tn : List String)
    (adds : List (String × QItem)) (e : Fault)
    (hb : ToProtobufBlocks schema.definitions schema.definitions
      (sortedKeys schema.definitions) [] = .ok (bs, tn, adds))
    (hd : drain schema.definitions fuel (qUpdateAll [] adds) tn = .error e) :
    ParseBlocks schema fuel = .error e := by
  unfold ParseBlocks
  simp [hb, hd]

theorem PB_red_ok (schema : Schema) (fuel : Nat) (bs tn : List String)
    (adds : List (String × QItem)) (fs tn2 : List String)
    (hb : ToProtobufBlocks schema.definitions schema.definitions
      (sortedKeys schema.definitions) [] = .ok (bs, tn, adds))
    (hd : drain schema.definitions fuel (qUpdateAll [] adds) tn = .ok (fs, tn2)) :
    ParseBlocks schema fuel = .ok (bs ++ fs, tn2) := by
  unfold ParseBlocks
  simp [hb, hd]

/-- C6: across one whole translation of a well-formed schema, no type name is
defined more than once: the defined names readable off the emitted blocks are
pairwise distinct and are exactly the final dedup list, and every emission
path consults the dedup list, returning the empty block and leaving the list
unchanged for a name already recorded. -/
theorem C6_theorem (schema : Schema) (fuel : Nat) (bs tn2 : List String)
    (hgood : goodPropsAssoc schema.definitions = true)
    (h : ParseBlocks schema fuel = .ok (bs, tn2)) :
    tn2 = bs.filterMap blockName ∧ (bs.filterMap blockName).Nodup ∧
    (∀ root m props tn, tn.contains (toPascalCase m) = true →
      ToMessage root m props tn = .ok ("", tn, [])) ∧
    (∀ en vals tn, tn.contains (toPascalCase en) = true →
      ToEnum en vals tn = ("", tn)) := by
  cases hb : ToProtobufBlocks schema.definitions schema.definitions
      (sortedKeys schema.definitions) [] with
  | error e =>
    rw [PB_red_berr schema fuel e hb] at h
    cases h
  | ok trip =>
    obtain ⟨bs0, tn0, adds⟩ := trip
    cases hd : drain schema.definitions fuel (qUpdateAll [] adds) tn0 with
    | error e =>
      rw [PB_red_derr schema fuel bs0 tn0 adds e hb hd] at h
      cases h
    | ok trip2 =>
      obtain ⟨fs, tn3⟩ := trip2
      rw [PB_red_ok schema fuel bs0 tn0 adds fs tn3 hb hd] at h
      simp only [Except.ok.injEq, Prod.mk.injEq] at h
      obtain ⟨h1, h2⟩ := h
      subst h1 h2
      obtain ⟨ht0, hnd0, hadds⟩ := TPB_inv schema.definitions schema.definitions
        (sortedKeys schema.definitions) [] bs0 tn0 adds hgood hgood
        (sortedKeys_plain schema.definitions hgood) hb
      have hq0 : goodQueue (qUpdateAll [] adds) = true :=
        goodQueue_qUpdateAll adds [] rfl hadds
      obtain ⟨ht3, hnd3⟩ := drain_inv schema.definitions fuel (qUpdateAll [] adds) tn0
        fs tn3 hgood hq0 hd
      have heq : tn3 = (bs0 ++ fs).filterMap blockName := by
        rw [ht3, ht0, List.filterMap_append]
        simp
      refine ⟨heq, ?_, ?_, ?_⟩
      · rw [← heq]
        exact hnd3 (hnd0 List.nodup_nil)
      · intro root m props tn hdup
        exact ToMessage_red_dup root m props tn hdup
      · intro en vals tn hdup
        unfold ToEnum
        simp only []
        rw [if_pos hdup]

/-- C6 witness: the uniqueness statement evaluated on the two-definition schema
whose run emits the four distinct names Foo, Item, X and Y. -/
theorem C6_witness :
    goodPropsAssoc c4Schema.definitions = true ∧
    (["Foo", "Item", "X", "Y"] =
        (["\nmessage Foo \x7b\n\tItem x = 1;\n\tItem y = 2;\n\t\n\x7d\n",
          "\nmessage Item \x7b\n\tstring a = 1;\n\t\n\x7d\n",
          "\nmessage X \x7b\n\tstring a = 1;\n\t\n\x7d\n",
          "\nmessage Y \x7b\n\tstring a = 1;\n\t\n\x7d\n"].filterMap blockName) ∧
      (["\nmessage Foo \x7b\n\tItem x = 1;\n\tItem y = 2;\n\t\n\x7d\n",
        "\nmessage Item \x7b\n\tstring a = 1;\n\t\n\x7d\n",
        "\nmessage X \x7b\n\tstring a = 1;\n\t\n\x7d\n",
        "\nmessage Y \x7b\n\tstring a = 1;\n\t\n\x7d\n"].filterMap blockName).Nodup ∧
      (∀ root m props tn, tn.contains (toPascalCase m) = true →
        ToMessage root m props tn = .ok ("", tn, [])) ∧
      (∀ en vals tn, tn.contains (toPascalCase en) = true →
        ToEnum en vals tn = ("", tn))) :=
  ⟨by decide, C6_theorem c4Schema 3
    ["\nmessage Foo \x7b\n\tItem x = 1;\n\tItem y = 2;\n\t\n\x7d\n",
     "\nmessage Item \x7b\n\tstring a = 1;\n\t\n\x7d\n",
     "\nmessage X \x7b\n\tstring a = 1;\n\t\n\x7d\n",
     "\nmessage Y \x7b\n\tstring a = 1;\n\t\n\x7d\n"]
    ["Foo", "Item", "X", "Y"] (by decide) rfl⟩

-- C2 machinery: the translator output depends on the root definitions map only
-- through key lookups and the length-sorted key list.  refDeep rules out the
-- references GetRef answers with the root map itself, so two iteration orders
-- of the root map that agree on every lookup and on the sorted key list run
-- identically.

theorem refDeep_fields {ty : Types} {it : Option Properties} {rf : Option String}
    {ao : Option (List Properties)} {en : Option (List String)}
    {pr : List (String × Properties)}
    (h : refDeep (.mk ty it rf ao en pr) = true) :
    (∀ r, rf = some r → refOk r = true) ∧
    (∀ itv, it = some itv → refDeep itv = true) ∧
    (∀ l, ao = some l → refDeepList l = true) ∧
    refDeepAssoc pr = true := by
  rw [refDeep.eq_def] at h
  simp only [Bool.and_eq_true] at h
  obtain ⟨⟨⟨h1, h2⟩, h3⟩, h4⟩ := h
  refine ⟨?_, ?_, ?_, h4⟩
  · intro r hr
    rw [hr] at h1
    exact h1
  · intro itv hit
    rw [hit] at h2
    exact h2
  · intro l hl
    rw [hl] at h3
    exact h3

theorem refDeep_ref {p : Properties} {r : String} (h : refDeep p = true)
    (hr : p.ref = some r) : refOk r = true := by
  obtain ⟨ty, it, rf, ao, en, pr⟩ := p
  exact (refDeep_fields h).1 r hr

theorem refDeep_items {p itv : Properties} (h : refDeep p = true)
    (hit : p.items = some itv) : refDeep itv = true := by
  obtain ⟨ty, it, rf, ao, en, pr⟩ := p
  exact (refDeep_fields h).2.1 itv hit

theorem refDeep_anyOf {p : Properties} {l : List Properties} (h : refDeep p = true)
    (ha : p.anyOf = some l) : refDeepList l = true := by
  obtain ⟨ty, it, rf, ao, en, pr⟩ := p
  exact (refDeep_fields h).2.2.1 l ha

theorem refDeep_properties {p : Properties} (h : refDeep p = true) :
    refDeepAssoc p.properties = true := by
  obtain ⟨ty, it, rf, ao, en, pr⟩ := p
  exact (refDeep_fields h).2.2.2

theorem refDeepList_cons {a : Properties} {rest : List Properties}
    (h : refDeepList (a :: rest) = true) :
    refDeep a = true ∧ refDeepList rest = true := by
  rw [refDeepList, Bool.and_eq_true] at h
  exact h

theorem refDeep_empty : refDeep Properties.empty = true := rfl

theorem refDeepAssoc_mem {m : List (String × Properties)} {k : String} {p : Properties}
    (h : refDeepAssoc m = true) (hm : (k, p) ∈ m) : refDeep p = true := by
  induction m with
  | nil => cases hm
  | cons a rest ih =>
    obtain ⟨ak, ap⟩ := a
    rw [refDeepAssoc, Bool.and_eq_true] at h
    rcases List.mem_cons.mp hm with heq | hv2
    · injection heq with e1 e2
      subst e2
      exact h.1
    · exact ih h.2 hv2

theorem refDeepAssoc_lookup {m : List (String × Properties)} (k : String)
    (h : refDeepAssoc m = true) : refDeep (lookupProps m k) = true := by
  unfold lookupProps
  cases hf : m.find? (fun e => e.1 == k) with
  | none => exact refDeep_empty
  | some e =>
    have hmem : e ∈ m := List.mem_of_find?_eq_some hf
    exact refDeepAssoc_mem h (by rw [← Prod.mk.eta (p := e)] at hmem; exact hmem)

theorem refDeepAssoc_descend (segs : List String) :
    ∀ (m : List (String × Properties)), refDeepAssoc m = true →
      refDeepAssoc (descend m segs) = true := by
  induction segs with
  | nil => intro m hm; exact hm
  | cons s rest ih =>
    intro m hm
    exact ih _ (refDeep_properties (refDeepAssoc_lookup s hm))

theorem GetRef_refDeep {p : Properties} {root : List (String × Properties)} {key : String}
    {m : List (String × Properties)} (hroot : refDeepAssoc root = true)
    (h : GetRef p root = .ok (key, m)) : refDeepAssoc m = true := by
  obtain ⟨ty, it, rf, ao, en, pr⟩ := p
  cases rf with
  | none =>
    unfold GetRef at h
    simp [Properties.ref] at h
  | some r =>
    unfold GetRef at h
    simp only [Properties.ref] at h
    by_cases hh : startsWithHttp r
    · rw [if_pos hh] at h
      cases h
    · rw [if_neg hh] at h
      rcases hsp : splitOnSlash r with _ | ⟨s0, _ | ⟨s1, rest⟩⟩
      · rw [hsp] at h
        simp at h
        rw [← h.2]
        exact hroot
      · rw [hsp] at h
        simp at h
        rw [← h.2]
        exact hroot
      · rw [hsp] at h
        by_cases hd : s1 = "$defs"
        · subst hd
          simp at h
        · simp only [hd, Bool.false_eq_true, if_false, Except.ok.injEq, Prod.mk.injEq,
            if_neg] at h
          rw [← h.2]
          apply refDeepAssoc_descend
          by_cases hdef : s1 = "definitions"
          · rw [if_pos hdef]
            exact hroot
          · rw [if_neg hdef]
            exact refDeep_properties (refDeepAssoc_lookup s1 hroot)

theorem refDeepQueue_append {a b : List (String × QItem)} (ha : refDeepQueue a = true)
    (hb : refDeepQueue b = true) : refDeepQueue (a ++ b) = true := by
  induction a with
  | nil => simpa using hb
  | cons e rest ih =>
    obtain ⟨k, it⟩ := e
    rw [refDeepQueue, Bool.and_eq_true] at ha
    rw [List.cons_append, refDeepQueue, Bool.and_eq_true]
    exact ⟨ha.1, ih ha.2⟩

theorem refDeepQueue_filter (f : (String × QItem) → Bool) {q : List (String × QItem)}
    (h : refDeepQueue q = true) : refDeepQueue (q.filter f) = true := by
  induction q with
  | nil => rfl
  | cons e rest ih =>
    obtain ⟨k, it⟩ := e
    rw [refDeepQueue, Bool.and_eq_true] at h
    rw [List.filter_cons]
    split_ifs
    · rw [refDeepQueue, Bool.and_eq_true]
      exact ⟨h.1, ih h.2⟩
    · exact ih h.2

theorem refDeepQueue_overwrite {q : List (String × QItem)} (k : String) (v : QItem)
    (h : refDeepQueue q = true) (hv : refDeepItem v = true) :
    refDeepQueue (q.map (fun e => if e.1 == k then (k, v) else e)) = true := by
  induction q with
  | nil => rfl
  | cons e rest ih =>
    obtain ⟨k2, it2⟩ := e
    rw [refDeepQueue, Bool.and_eq_true] at h
    rw [List.map_cons]
    by_cases he : ((k2, it2).1 == k) = true
    · simp only [he, if_true]
      rw [refDeepQueue, Bool.and_eq_true]
      exact ⟨hv, ih h.2⟩
    · simp only [he, Bool.false_eq_true, if_false]
      rw [refDeepQueue, Bool.and_eq_true]
      exact ⟨h.1, ih h.2⟩

theorem refDeepQueue_qUpdate {q : List (String × QItem)} {k : String} {v : QItem}
    (h : refDeepQueue q = true) (hv : refDeepItem v = true) :
    refDeepQueue (qUpdate q k v) = true := by
  rw [qUpdate]
  split_ifs
  · exact refDeepQueue_overwrite k v h hv
  · refine refDeepQueue_append h ?_
    rw [refDeepQueue, Bool.and_eq_true]
    exact ⟨hv, rfl⟩

theorem refDeepQueue_qUpdateAll : ∀ (adds q : List (String × QItem)),
    refDeepQueue q = true → refDeepQueue adds = true →
    refDeepQueue (qUpdateAll q adds) = true := by
  intro adds
  induction adds with
  | nil => intro q hq _; exact hq
  | cons e rest ih =>
    intro q hq ha
    obtain ⟨k, v⟩ := e
    rw [refDeepQueue, Bool.and_eq_true] at ha
    exact ih _ (refDeepQueue_qUpdate hq ha.1) ha.2

-- A permutation of an association list with duplicate-free keys answers every
-- lookup identically; with pairwise-distinct key lengths the length sort also
-- arranges the keys identically.

theorem lookupProps_perm {d1 d2 : List (String × Properties)}
    (hperm : d1.Perm d2) (hnd : (d1.map Prod.fst).Nodup) (k : String) :
    lookupProps d1 k = lookupProps d2 k := by
  unfold lookupProps
  cases h1 : d1.find? (fun e => e.1 == k) with
  | none =>
    cases h2 : d2.find? (fun e => e.1 == k) with
    | none => rfl
    | some e =>
      have hmem : e ∈ d1 := hperm.mem_iff.mpr (List.mem_of_find?_eq_some h2)
      have hps := List.find?_some h2
      have hnone := List.find?_eq_none.mp h1 e hmem
      exact absurd hps hnone
  | some e =>
    have hmem1 : e ∈ d1 := List.mem_of_find?_eq_some h1
    have hek := List.find?_some h1
    cases h2 : d2.find? (fun e => e.1 == k) with
    | none =>
      have hnone := List.find?_eq_none.mp h2 e (hperm.mem_iff.mp hmem1)
      exact absurd hek hnone
    | some e2 =>
      have hmem2 : e2 ∈ d1 := hperm.mem_iff.mpr (List.mem_of_find?_eq_some h2)
      have hek2 := List.find?_some h2
      have hee : e = e2 := by
        refine List.inj_on_of_nodup_map hnd hmem1 hmem2 ?_
        have a1 : e.1 = k := by simpa using hek
        have a2 : e2.1 = k := by simpa using hek2
        rw [a1, a2]
      rw [hee]

instance : IsTotal String (fun a b => a.length ≤ b.length) :=
  ⟨fun a b => Nat.le_total a.length b.length⟩

instance : IsTrans String (fun a b => a.length ≤ b.length) :=
  ⟨fun _ _ _ h1 h2 => Nat.le_trans h1 h2⟩

theorem sorted_lens_eq : ∀ (l1 l2 : List String), l1.Perm l2 →
    l1.Sorted (fun a b => a.length ≤ b.length) →
    l2.Sorted (fun a b => a.length ≤ b.length) →
    (l1.map String.length).Nodup → l1 = l2 := by
  intro l1
  induction l1 with
  | nil =>
    intro l2 hperm _ _ _
    exact hperm.nil_eq
  | cons a t1 ih =>
    intro l2 hperm hs1 hs2 hnd
    cases l2 with
    | nil =>
      have hx := hperm.symm.nil_eq
      simp at hx
    | cons b t2 =>
      have hab : a = b := by
        by_contra hne
        have ha2 : a ∈ t2 := by
          have hmm : a ∈ b :: t2 := hperm.mem_iff.mp (by simp)
          rcases List.mem_cons.mp hmm with h | h
          · exact absurd h hne
          · exact h
        have hb1 : b ∈ t1 := by
          have hmm : b ∈ a :: t1 := hperm.mem_iff.mpr (by simp)
          rcases List.mem_cons.mp hmm with h | h
          · exact absurd h.symm hne
          · exact h
        have hle1 : a.length ≤ b.length := List.rel_of_sorted_cons hs1 b hb1
        have hle2 : b.length ≤ a.length := List.rel_of_sorted_cons hs2 a ha2
        have hlen2 : a.length = b.length := Nat.le_antisymm hle1 hle2
        have hmm2 : b.length ∈ t1.map String.length := List.mem_map_of_mem String.length hb1
        rw [List.map_cons, List.nodup_cons] at hnd
        rw [hlen2] at hnd
        exact hnd.1 hmm2
      subst hab
      have ht : t1.Perm t2 := hperm.cons_inv
      rw [List.map_cons, List.nodup_cons] at hnd
      rw [ih t2 ht hs1.of_cons hs2.of_cons hnd.2]

theorem sortedKeys_perm_eq {d1 d2 : List (String × Properties)}
    (hperm : d1.Perm d2) (hlen : (d1.map (fun e => e.1.length)).Nodup) :
    sortedKeys d1 = sortedKeys d2 := by
  unfold sortedKeys
  have hkp : (d1.map Prod.fst).Perm (d2.map Prod.fst) := hperm.map Prod.fst
  have hnd1 : ((d1.map Prod.fst).map String.length).Nodup := by
    have he : (d1.map Prod.fst).map String.length = d1.map (fun e => e.1.length) := by
      rw [List.map_map]
      rfl
    rw [he]
    exact hlen
  refine sorted_lens_eq _ _ ?_ ?_ ?_ ?_
  · exact (List.perm_insertionSort _ _).trans (hkp.trans (List.perm_insertionSort _ _).symm)
  · exact List.sorted_insertionSort _ _
  · exact List.sorted_insertionSort _ _
  · have hp2 : ((List.insertionSort (fun a b => a.length ≤ b.length)
        (d1.map Prod.fst)).map String.length).Perm
        ((d1.map Prod.fst).map String.length) :=
      (List.perm_insertionSort _ _).map String.length
    exact hp2.nodup_iff.mpr hnd1

-- Extensionality in the root: the effective union member type never reads the
-- root, and reference resolution of a three-or-more-segment path reads it only
-- through lookups.

theorem unionMemberType_ext (v : Properties) (r1 r2 : List (String × Properties)) :
    unionMemberType v r1 = unionMemberType v r2 := rfl

theorem descend_ext {r1 r2 : List (String × Properties)}
    (hL : ∀ k, lookupProps r1 k = lookupProps r2 k) (s : String) (rest : List String) :
    descend r1 (s :: rest) = descend r2 (s :: rest) := by
  simp only [descend, hL s]

theorem GetRef_ext {p : Properties} {r1 r2 : List (String × Properties)}
    (hL : ∀ k, lookupProps r1 k = lookupProps r2 k)
    (hok : ∀ r, p.ref = some r → refOk r = true) :
    GetRef p r1 = GetRef p r2 := by
  obtain ⟨ty, it, rf, ao, en, pr⟩ := p
  cases rf with
  | none =>
    unfold GetRef
    simp [Properties.ref]
  | some r =>
    have hro : refOk r = true := hok r (by simp [Properties.ref])
    simp only [refOk, decide_eq_true_eq] at hro
    unfold GetRef
    simp only [Properties.ref]
    by_cases hh : startsWithHttp r
    · rw [if_pos hh, if_pos hh]
    · rw [if_neg hh, if_neg hh]
      rcases hsp : splitOnSlash r with _ | ⟨s0, _ | ⟨s1, _ | ⟨s2, rest⟩⟩⟩
      · rw [hsp] at hro
        simp at hro
      · rw [hsp] at hro
        simp at hro
      · rw [hsp] at hro
        simp at hro
      · simp only []
        by_cases hd : s1 = "$defs"
        · rw [if_pos hd, if_pos hd]
        · rw [if_neg hd, if_neg hd]
          by_cases hdef : s1 = "definitions"
          · rw [if_pos hdef, if_pos hdef]
            simp only [descend, hL s2]
          · rw [if_neg hdef, if_neg hdef, hL s1]

-- Every field rendering is invariant in the root map up to lookups, and over a
-- deep-reference root it hands out only deep-reference queue entries.

set_option maxHeartbeats 3200000 in
mutual

theorem ToField_ext (r1 r2 : List (String × Properties)) (name : String) (p : Properties)
    (i : Nat) (hL : ∀ k, lookupProps r1 k = lookupProps r2 k)
    (hroot : refDeepAssoc r1 = true) (hp : refDeep p = true) :
    ToField r1 name p i = ToField r2 name p i ∧
    (∀ s i2 q, ToField r1 name p i = .ok (s, i2, q) → refDeepQueue q = true) := by
  cases hgt : GetType p with
  | none =>
    rw [ToField_red_none r1 name p i hgt, ToField_red_none r2 name p i hgt]
    exact ⟨rfl, fun s i2 q h => by cases h⟩
  | some pt =>
    cases pt with
    | PRIMITIVE_TYPE =>
      rw [ToField_red_primitive r1 name p i hgt, ToField_red_primitive r2 name p i hgt]
      refine ⟨rfl, fun s i2 q h => ?_⟩
      simp only [Except.ok.injEq, Prod.mk.injEq] at h
      obtain ⟨h1, h2, h3⟩ := h
      subst h3
      rfl
    | REF_TYPE =>
      have hge : GetRef p r1 = GetRef p r2 :=
        GetRef_ext hL (fun r hr => refDeep_ref hp hr)
      cases hgr : GetRef p r1 with
      | error e =>
        rw [ToField_red_ref_err r1 name p i e hgt hgr,
          ToField_red_ref_err r2 name p i e hgt (hge.symm.trans hgr)]
        exact ⟨rfl, fun s i2 q h => by cases h⟩
      | ok pr2 =>
        obtain ⟨refType, ref⟩ := pr2
        rw [ToField_red_ref r1 name p i refType ref hgt hgr,
          ToField_red_ref r2 name p i refType ref hgt (hge.symm.trans hgr)]
        refine ⟨rfl, fun s i2 q h => ?_⟩
        simp only [Except.ok.injEq, Prod.mk.injEq] at h
        obtain ⟨h1, h2, h3⟩ := h
        subst h3
        rw [refDeepQueue, Bool.and_eq_true]
        exact ⟨GetRef_refDeep hroot hgr, rfl⟩
    | PRIMITIVE_ARRAY_TYPE =>
      obtain ⟨itv, hit⟩ := (GetType_inv p).2.2.1 hgt
      rw [ToField_red_primarray r1 name p itv i hgt hit,
        ToField_red_primarray r2 name p itv i hgt hit]
      refine ⟨rfl, fun s i2 q h => ?_⟩
      simp only [Except.ok.injEq, Prod.mk.injEq] at h
      obtain ⟨h1, h2, h3⟩ := h
      subst h3
      rfl
    | UNKOWN_ARRAY_TYPE =>
      rw [ToField_red_unknown r1 name p i hgt, ToField_red_unknown r2 name p i hgt]
      refine ⟨rfl, fun s i2 q h => ?_⟩
      simp only [Except.ok.injEq, Prod.mk.injEq] at h
      obtain ⟨h1, h2, h3⟩ := h
      subst h3
      rfl
    | REF_ARRAY_TYPE =>
      obtain ⟨itv, r, hit, hr⟩ := (GetType_inv p).2.2.2.1 hgt
      have hge : GetRef itv r1 = GetRef itv r2 :=
        GetRef_ext hL (fun r3 hr3 => refDeep_ref (refDeep_items hp hit) hr3)
      cases hgr : GetRef itv r1 with
      | error e =>
        rw [ToField_red_refarray_err r1 name p itv i e hgt hit hgr,
          ToField_red_refarray_err r2 name p itv i e hgt hit (hge.symm.trans hgr)]
        exact ⟨rfl, fun s i2 q h => by cases h⟩
      | ok pr2 =>
        obtain ⟨refType, ref⟩ := pr2
        rw [ToField_red_refarray r1 name p itv i refType ref hgt hit hgr,
          ToField_red_refarray r2 name p itv i refType ref hgt hit (hge.symm.trans hgr)]
        refine ⟨rfl, fun s i2 q h => ?_⟩
        simp only [Except.ok.injEq, Prod.mk.injEq] at h
        obtain ⟨h1, h2, h3⟩ := h
        subst h3
        rw [refDeepQueue, Bool.and_eq_true]
        exact ⟨GetRef_refDeep hroot hgr, rfl⟩
    | COMPLEX_ARRAY_TYPE =>
      rw [ToField_red_complex r1 name p i hgt, ToField_red_complex r2 name p i hgt]
      refine ⟨rfl, fun s i2 q h => ?_⟩
      simp only [Except.ok.injEq, Prod.mk.injEq] at h
      obtain ⟨h1, h2, h3⟩ := h
      subst h3
      rfl
    | ENUM_TYPE =>
      obtain ⟨es, he⟩ := (GetType_inv p).1 hgt
      rw [ToField_red_enum r1 name p es i hgt he, ToField_red_enum r2 name p es i hgt he]
      refine ⟨rfl, fun s i2 q h => ?_⟩
      simp only [Except.ok.injEq, Prod.mk.injEq] at h
      obtain ⟨h1, h2, h3⟩ := h
      subst h3
      rw [refDeepQueue, Bool.and_eq_true]
      exact ⟨rfl, rfl⟩
    | NESTED_OBJECT_TYPE =>
      rw [ToField_red_nested r1 name p i hgt, ToField_red_nested r2 name p i hgt]
      refine ⟨rfl, fun s i2 q h => ?_⟩
      simp only [Except.ok.injEq, Prod.mk.injEq] at h
      obtain ⟨h1, h2, h3⟩ := h
      subst h3
      rw [refDeepQueue, Bool.and_eq_true]
      exact ⟨hp, rfl⟩
    | UNION_TYPE =>
      obtain ⟨l, ha⟩ := (GetType_inv p).2.1 hgt
      rw [ToField_red_union r1 name p l i hgt ha, ToField_red_union r2 name p l i hgt ha]
      exact ToUnionProperty_ext r1 r2 name l i hL hroot (refDeep_anyOf hp ha)
termination_by sizeOf p
decreasing_by exact sizeOf_anyOf_lt ha

theorem ToUnionProperty_ext (r1 r2 : List (String × Properties)) (unionName : String)
    (l : List Properties) (i : Nat)
    (hL : ∀ k, lookupProps r1 k = lookupProps r2 k)
    (hroot : refDeepAssoc r1 = true) (hl : refDeepList l = true) :
    ToUnionProperty r1 unionName l i = ToUnionProperty r2 unionName l i ∧
    (∀ s i2 q, ToUnionProperty r1 unionName l i = .ok (s, i2, q) →
      refDeepQueue q = true) := by
  rcases hleq : l with _ | ⟨a, _ | ⟨b, _ | ⟨c, tail⟩⟩⟩
  · rw [TUP_red_nil r1 unionName i, TUP_red_nil r2 unionName i]
    refine ⟨rfl, fun s i2 q h => ?_⟩
    simp only [Except.ok.injEq, Prod.mk.injEq] at h
    obtain ⟨h1, h2, h3⟩ := h
    subst h3
    rfl
  · rw [hleq] at hl
    obtain ⟨hga, _⟩ := refDeepList_cons hl
    obtain ⟨hfe, hfq⟩ := ToField_ext r1 r2
      (toCamelCase unionName ++ "_" ++ toCamelCase (unionMemberType a r1)) a i hL hroot hga
    by_cases ht : unionMemberType a r1 = ""
    · rw [TUP_red_single_panic r1 unionName a i ht, TUP_red_single_panic r2 unionName a i ht]
      exact ⟨rfl, fun s i2 q h => by cases h⟩
    · cases hf : ToField r1
          (toCamelCase unionName ++ "_" ++ toCamelCase (unionMemberType a r1)) a i with
      | error e =>
        rw [TUP_red_single_err r1 unionName a i e ht hf,
          TUP_red_single_err r2 unionName a i e ht (hfe.symm.trans hf)]
        exact ⟨rfl, fun s i2 q h => by cases h⟩
      | ok trip =>
        obtain ⟨s1, j, q1⟩ := trip
        rw [TUP_red_single r1 unionName a i s1 j q1 ht hf,
          TUP_red_single r2 unionName a i s1 j q1 ht (hfe.symm.trans hf)]
        refine ⟨rfl, fun s i2 q h => ?_⟩
        simp only [Except.ok.injEq, Prod.mk.injEq] at h
        obtain ⟨h1, h2, h3⟩ := h
        subst h3
        exact refDeepQueue_append (hfq s1 j q1 hf) rfl
  · rw [hleq] at hl
    obtain ⟨hga, hl2⟩ := refDeepList_cons hl
    obtain ⟨hgb, _⟩ := refDeepList_cons hl2
    by_cases hbN : b.type = NULL
    · by_cases haN : a.type = NULL
      · rw [TUP_red_bothnull r1 unionName a b i haN hbN,
          TUP_red_bothnull r2 unionName a b i haN hbN]
        exact ⟨rfl, fun s i2 q h => by cases h⟩
      · obtain ⟨hfe, hfq⟩ := ToField_ext r1 r2
          (toCamelCase unionName ++ "_" ++ toCamelCase (unionMemberType a r1)) a i hL
          hroot hga
        by_cases ht : unionMemberType a r1 = ""
        · rw [TUP_red_opt_panic r1 unionName a b i hbN haN ht,
            TUP_red_opt_panic r2 unionName a b i hbN haN ht]
          exact ⟨rfl, fun s i2 q h => by cases h⟩
        · cases hf : ToField r1
              (toCamelCase unionName ++ "_" ++ toCamelCase (unionMemberType a r1)) a i with
          | error e =>
            rw [TUP_red_opt_err r1 unionName a b i e hbN haN ht hf,
              TUP_red_opt_err r2 unionName a b i e hbN haN ht (hfe.symm.trans hf)]
            exact ⟨rfl, fun s i2 q h => by cases h⟩
          | ok trip =>
            obtain ⟨s1, j, q1⟩ := trip
            rw [TUP_red_opt r1 unionName a b i s1 j q1 hbN haN ht hf,
              TUP_red_opt r2 unionName a b i s1 j q1 hbN haN ht (hfe.symm.trans hf)]
            refine ⟨rfl, fun s i2 q h => ?_⟩
            simp only [Except.ok.injEq, Prod.mk.injEq] at h
            obtain ⟨h1, h2, h3⟩ := h
            subst h3
            exact hfq s1 j q1 hf
    · by_cases haN : a.type = NULL
      · obtain ⟨hfe, hfq⟩ := ToField_ext r1 r2
          (toCamelCase unionName ++ "_" ++ toCamelCase (unionMemberType b r1)) b i hL
          hroot hgb
        by_cases ht : unionMemberType b r1 = ""
        · rw [TUP_red_opt2_panic r1 unionName a b i hbN haN ht,
            TUP_red_opt2_panic r2 unionName a b i hbN haN ht]
          exact ⟨rfl, fun s i2 q h => by cases h⟩
        · cases hf : ToField r1
              (toCamelCase unionName ++ "_" ++ toCamelCase (unionMemberType b r1)) b i with
          | error e =>
            rw [TUP_red_opt2_err r1 unionName a b i e hbN haN ht hf,
              TUP_red_opt2_err r2 unionName a b i e hbN haN ht (hfe.symm.trans hf)]
            exact ⟨rfl, fun s i2 q h => by cases h⟩
          | ok trip =>
            obtain ⟨s1, j, q1⟩ := trip
            rw [TUP_red_opt2 r1 unionName a b i s1 j q1 hbN haN ht hf,
              TUP_red_opt2 r2 unionName a b i s1 j q1 hbN haN ht (hfe.symm.trans hf)]
            refine ⟨rfl, fun s i2 q h => ?_⟩
            simp only [Except.ok.injEq, Prod.mk.injEq] at h
            obtain ⟨h1, h2, h3⟩ := h
            subst h3
            exact hfq s1 j q1 hf
      · obtain ⟨hfae, hfaq⟩ := ToField_ext r1 r2
          (toCamelCase unionName ++ "_" ++ toCamelCase (unionMemberType a r1)) a i hL
          hroot hga
        by_cases hta : unionMemberType a r1 = ""
        · rw [TUP_red_pair_panic_a r1 unionName a b i hbN haN hta,
            TUP_red_pair_panic_a r2 unionName a b i hbN haN hta]
          exact ⟨rfl, fun s i2 q h => by cases h⟩
        · cases hfa : ToField r1
              (toCamelCase unionName ++ "_" ++ toCamelCase (unionMemberType a r1)) a i with
          | error e =>
            rw [TUP_red_pair_err_a r1 unionName a b i e hbN haN hta hfa,
              TUP_red_pair_err_a r2 unionName a b i e hbN haN hta (hfae.symm.trans hfa)]
            exact ⟨rfl, fun s i2 q h => by cases h⟩
          | ok tripa =>
            obtain ⟨s1, j, q1⟩ := tripa
            obtain ⟨hfbe, hfbq⟩ := ToField_ext r1 r2
              (toCamelCase unionName ++ "_" ++ toCamelCase (unionMemberType b r1)) b j hL
              hroot hgb
            by_cases htb : unionMemberType b r1 = ""
            · rw [TUP_red_pair_panic_b r1 unionName a b i s1 j q1 hbN haN hta hfa htb,
                TUP_red_pair_panic_b r2 unionName a b i s1 j q1 hbN haN hta
                  (hfae.symm.trans hfa) htb]
              exact ⟨rfl, fun s i2 q h => by cases h⟩
            · cases hfb : ToField r1
                  (toCamelCase unionName ++ "_" ++
                    toCamelCase (unionMemberType b r1)) b j with
              | error e =>
                rw [TUP_red_pair_err_b r1 unionName a b i s1 j q1 e hbN haN hta hfa
                    htb hfb,
                  TUP_red_pair_err_b r2 unionName a b i s1 j q1 e hbN haN hta
                    (hfae.symm.trans hfa) htb (hfbe.symm.trans hfb)]
                exact ⟨rfl, fun s i2 q h => by cases h⟩
              | ok tripb =>
                obtain ⟨s2, i3, q2⟩ := tripb
                rw [TUP_red_pair r1 unionName a b i s1 s2 j i3 q1 q2 hbN haN hta hfa
                    htb hfb,
                  TUP_red_pair r2 unionName a b i s1 s2 j i3 q1 q2 hbN haN hta
                    (hfae.symm.trans hfa) htb (hfbe.symm.trans hfb)]
                refine ⟨rfl, fun s i2 q h => ?_⟩
                simp only [Except.ok.injEq, Prod.mk.injEq] at h
                obtain ⟨h1, h2, h3⟩ := h
                subst h3
                refine refDeepQueue_append (hfaq s1 j q1 hfa)
                  (refDeepQueue_append (hfbq s2 i3 q2 hfb) rfl)
  · rw [hleq] at hl
    obtain ⟨hga, hl2⟩ := refDeepList_cons hl
    obtain ⟨hfe, hfq⟩ := ToField_ext r1 r2
      (toCamelCase unionName ++ "_" ++ toCamelCase (unionMemberType a r1)) a i hL hroot hga
    by_cases ht : unionMemberType a r1 = ""
    · rw [TUP_red_big_panic r1 unionName a b c tail i ht,
        TUP_red_big_panic r2 unionName a b c tail i ht]
      exact ⟨rfl, fun s i2 q h => by cases h⟩
    · cases hf : ToField r1
          (toCamelCase unionName ++ "_" ++ toCamelCase (unionMemberType a r1)) a i with
      | error e =>
        rw [TUP_red_big_err r1 unionName a b c tail i e ht hf,
          TUP_red_big_err r2 unionName a b c tail i e ht (hfe.symm.trans hf)]
        exact ⟨rfl, fun s i2 q h => by cases h⟩
      | ok trip =>
        obtain ⟨s1, j, q1⟩ := trip
        obtain ⟨hle, hlq⟩ := unionLines_ext r1 r2 unionName (b :: c :: tail) j hL hroot hl2
        cases hlines : unionLines r1 unionName (b :: c :: tail) j with
        | error e =>
          rw [TUP_red_big_linerr r1 unionName a b c tail i s1 j q1 e ht hf hlines,
            TUP_red_big_linerr r2 unionName a b c tail i s1 j q1 e ht
              (hfe.symm.trans hf) (hle.symm.trans hlines)]
          exact ⟨rfl, fun s i2 q h => by cases h⟩
        | ok trip2 =>
          obtain ⟨body, i3, q2⟩ := trip2
          rw [TUP_red_big r1 unionName a b c tail i s1 body j i3 q1 q2 ht hf hlines,
            TUP_red_big r2 unionName a b c tail i s1 body j i3 q1 q2 ht
              (hfe.symm.trans hf) (hle.symm.trans hlines)]
          refine ⟨rfl, fun s i2 q h => ?_⟩
          simp only [Except.ok.injEq, Prod.mk.injEq] at h
          obtain ⟨h1, h2, h3⟩ := h
          subst h3
          exact refDeepQueue_append (hfq s1 j q1 hf) (hlq body i3 q2 hlines)
termination_by sizeOf l
decreasing_by all_goals (rw [hleq]; simp_wf <;> omega)

theorem unionLines_ext (r1 r2 : List (String × Properties)) (unionName : String)
    (l : List Properties) (i : Nat)
    (hL : ∀ k, lookupProps r1 k = lookupProps r2 k)
    (hroot : refDeepAssoc r1 = true) (hl : refDeepList l = true) :
    unionLines r1 unionName l i = unionLines r2 unionName l i ∧
    (∀ s i2 q, unionLines r1 unionName l i = .ok (s, i2, q) →
      refDeepQueue q = true) := by
  rcases hleq : l with _ | ⟨v, rest⟩
  · rw [unionLines_red_nil r1 unionName i, unionLines_red_nil r2 unionName i]
    refine ⟨rfl, fun s i2 q h => ?_⟩
    simp only [Except.ok.injEq, Prod.mk.injEq] at h
    obtain ⟨h1, h2, h3⟩ := h
    subst h3
    rfl
  · rw [hleq] at hl
    obtain ⟨hgv, hl2⟩ := refDeepList_cons hl
    obtain ⟨hfe, hfq⟩ := ToField_ext r1 r2
      (toCamelCase unionName ++ "_" ++ toCamelCase (unionMemberType v r1)) v i hL hroot hgv
    by_cases ht : unionMemberType v r1 = ""
    · rw [unionLines_red_panic r1 unionName v rest i ht,
        unionLines_red_panic r2 unionName v rest i ht]
      exact ⟨rfl, fun s i2 q h => by cases h⟩
    · cases hf : ToField r1
          (toCamelCase unionName ++ "_" ++ toCamelCase (unionMemberType v r1)) v i with
      | error e =>
        rw [unionLines_red_err r1 unionName v rest i e ht hf,
          unionLines_red_err r2 unionName v rest i e ht (hfe.symm.trans hf)]
        exact ⟨rfl, fun s i2 q h => by cases h⟩
      | ok trip =>
        obtain ⟨s1, j, q1⟩ := trip
        obtain ⟨hre, hrq⟩ := unionLines_ext r1 r2 unionName rest j hL hroot hl2
        cases hrest : unionLines r1 unionName rest j with
        | error e =>
          rw [unionLines_red_resterr r1 unionName v rest i s1 j q1 e ht hf hrest,
            unionLines_red_resterr r2 unionName v rest i s1 j q1 e ht
              (hfe.symm.trans hf) (hre.symm.trans hrest)]
          exact ⟨rfl, fun s i2 q h => by cases h⟩
        | ok trip2 =>
          obtain ⟨s2, i3, q2⟩ := trip2
          rw [unionLines_red_cons r1 unionName v rest i s1 s2 j i3 q1 q2 ht hf hrest,
            unionLines_red_cons r2 unionName v rest i s1 s2 j i3 q1 q2 ht
              (hfe.symm.trans hf) (hre.symm.trans hrest)]
          refine ⟨rfl, fun s i2 q h => ?_⟩
          simp only [Except.ok.injEq, Prod.mk.injEq] at h
          obtain ⟨h1, h2, h3⟩ := h
          subst h3
          exact refDeepQueue_append (hfq s1 j q1 hf) (hrq s2 i3 q2 hrest)
termination_by sizeOf l
decreasing_by all_goals (rw [hleq]; simp_wf <;> omega)

end

theorem ToMessageFields_ext (r1 r2 m : List (String × Properties)) (keys : List String)
    (i : Nat) (hL : ∀ k, lookupProps r1 k = lookupProps r2 k)
    (hroot : refDeepAssoc r1 = true) (hm : refDeepAssoc m = true) :
    ToMessageFields r1 m keys i = ToMessageFields r2 m keys i ∧
    (∀ fs i2 q, ToMessageFields r1 m keys i = .ok (fs, i2, q) →
      refDeepQueue q = true) := by
  induction keys generalizing i with
  | nil =>
    rw [TMF_red_nil r1 m i, TMF_red_nil r2 m i]
    refine ⟨rfl, fun fs i2 q h => ?_⟩
    simp only [Except.ok.injEq, Prod.mk.injEq] at h
    obtain ⟨h1, h2, h3⟩ := h
    subst h3
    rfl
  | cons k rest ih =>
    obtain ⟨hfe, hfq⟩ := ToField_ext r1 r2 k (lookupProps m k) i hL hroot
      (refDeepAssoc_lookup k hm)
    cases hf : ToField r1 k (lookupProps m k) i with
    | error e =>
      rw [TMF_red_err r1 m k rest i e hf, TMF_red_err r2 m k rest i e (hfe.symm.trans hf)]
      exact ⟨rfl, fun fs i2 q h => by cases h⟩
    | ok trip =>
      obtain ⟨s1, j, q1⟩ := trip
      obtain ⟨hre, hrq⟩ := ih j
      cases hrest : ToMessageFields r1 m rest j with
      | error e =>
        rw [TMF_red_resterr r1 m k rest i s1 j q1 e hf hrest,
          TMF_red_resterr r2 m k rest i s1 j q1 e (hfe.symm.trans hf)
            (hre.symm.trans hrest)]
        exact ⟨rfl, fun fs i2 q h => by cases h⟩
      | ok trip2 =>
        obtain ⟨fs2, i3, q2⟩ := trip2
        rw [TMF_red_cons r1 m k rest i s1 j q1 fs2 i3 q2 hf hrest,
          TMF_red_cons r2 m k rest i s1 j q1 fs2 i3 q2 (hfe.symm.trans hf)
            (hre.symm.trans hrest)]
        refine ⟨rfl, fun fs i2 q h => ?_⟩
        simp only [Except.ok.injEq, Prod.mk.injEq] at h
        obtain ⟨h1, h2, h3⟩ := h
        subst h3
        exact refDeepQueue_append (hfq s1 j q1 hf) (hrq fs2 i3 q2 hrest)

theorem ToMessage_ext (r1 r2 m : List (String × Properties)) (messageName : String)
    (tn : List String) (hL : ∀ k, lookupProps r1 k = lookupProps r2 k)
    (hroot : refDeepAssoc r1 = true) (hm : refDeepAssoc m = true) :
    ToMessage r1 messageName m tn = ToMessage r2 messageName m tn ∧
    (∀ s tn2 q, ToMessage r1 messageName m tn = .ok (s, tn2, q) →
      refDeepQueue q = true) := by
  cases hdup : tn.contains (toPascalCase messageName) with
  | true =>
    rw [ToMessage_red_dup r1 messageName m tn hdup,
      ToMessage_red_dup r2 messageName m tn hdup]
    refine ⟨rfl, fun s tn2 q h => ?_⟩
    simp only [Except.ok.injEq, Prod.mk.injEq] at h
    obtain ⟨h1, h2, h3⟩ := h
    subst h3
    rfl
  | false =>
    obtain ⟨hfe, hfq⟩ := ToMessageFields_ext r1 r2 m (sortedKeys m) 1 hL hroot hm
    cases hfm : ToMessageFields r1 m (sortedKeys m) 1 with
    | error e =>
      rw [ToMessage_red_err r1 messageName m tn e hdup hfm,
        ToMessage_red_err r2 messageName m tn e hdup (hfe.symm.trans hfm)]
      exact ⟨rfl, fun s tn2 q h => by cases h⟩
    | ok trip =>
      obtain ⟨fs, i3, q1⟩ := trip
      rw [ToMessage_red_ok r1 messageName m tn fs i3 q1 hdup hfm,
        ToMessage_red_ok r2 messageName m tn fs i3 q1 hdup (hfe.symm.trans hfm)]
      refine ⟨rfl, fun s tn2 q h => ?_⟩
      simp only [Except.ok.injEq, Prod.mk.injEq] at h
      obtain ⟨h1, h2, h3⟩ := h
      subst h3
      exact hfq fs i3 q1 hfm

theorem processEntry_ext (r1 r2 : List (String × Properties)) (k : String) (item : QItem)
    (tn : List String) (hL : ∀ k2, lookupProps r1 k2 = lookupProps r2 k2)
    (hroot : refDeepAssoc r1 = true) (hit : refDeepItem item = true) :
    processEntry r1 k item tn = processEntry r2 k item tn ∧
    (∀ s tn2 q, processEntry r1 k item tn = .ok (s, tn2, q) →
      refDeepQueue q = true) := by
  cases item with
  | props m =>
    rw [PE_red_props r1 k m tn, PE_red_props r2 k m tn]
    exact ToMessage_ext r1 r2 m k tn hL hroot hit
  | node p =>
    rw [PE_red_node r1 k p tn, PE_red_node r2 k p tn]
    exact ToMessage_ext r1 r2 p.properties k tn hL hroot (refDeep_properties hit)
  | enumVals l =>
    rw [PE_red_enum r1 k l tn, PE_red_enum r2 k l tn]
    refine ⟨rfl, fun s tn2 q h => ?_⟩
    simp only [Except.ok.injEq, Prod.mk.injEq] at h
    obtain ⟨h1, h2, h3⟩ := h
    subst h3
    rfl

theorem processPass_ext (r1 r2 : List (String × Properties))
    (hL : ∀ k, lookupProps r1 k = lookupProps r2 k) (hroot : refDeepAssoc r1 = true) :
    ∀ (entries : List (String × QItem)) (tn : List String),
    refDeepQueue entries = true →
    processPass r1 entries tn = processPass r2 entries tn ∧
    (∀ fs tn2 adds, processPass r1 entries tn = .ok (fs, tn2, adds) →
      refDeepQueue adds = true) := by
  intro entries
  induction entries with
  | nil =>
    intro tn hq
    rw [PP_red_nil r1 tn, PP_red_nil r2 tn]
    refine ⟨rfl, fun fs tn2 adds h => ?_⟩
    simp only [Except.ok.injEq, Prod.mk.injEq] at h
    obtain ⟨h1, h2, h3⟩ := h
    subst h3
    rfl
  | cons e rest ih =>
    intro tn hq
    obtain ⟨k, item⟩ := e
    rw [refDeepQueue, Bool.and_eq_true] at hq
    obtain ⟨hpe, hpq⟩ := processEntry_ext r1 r2 k item tn hL hroot hq.1
    cases hf : processEntry r1 k item tn with
    | error e2 =>
      rw [PP_red_err r1 k item rest tn e2 hf,
        PP_red_err r2 k item rest tn e2 (hpe.symm.trans hf)]
      exact ⟨rfl, fun fs tn2 adds h => by cases h⟩
    | ok trip =>
      obtain ⟨s, tnp, q1⟩ := trip
      obtain ⟨hre, hrq⟩ := ih tnp hq.2
      cases hrest : processPass r1 rest tnp with
      | error e2 =>
        rw [PP_red_resterr r1 k item rest tn s tnp q1 e2 hf hrest,
          PP_red_resterr r2 k item rest tn s tnp q1 e2 (hpe.symm.trans hf)
            (hre.symm.trans hrest)]
        exact ⟨rfl, fun fs tn2 adds h => by cases h⟩
      | ok trip2 =>
        obtain ⟨fs2, tn3, q2⟩ := trip2
        rw [PP_red_cons r1 k item rest tn s tnp q1 fs2 tn3 q2 hf hrest,
          PP_red_cons r2 k item rest tn s tnp q1 fs2 tn3 q2 (hpe.symm.trans hf)
            (hre.symm.trans hrest)]
        refine ⟨rfl, fun fs tn2 adds h => ?_⟩
        simp only [Except.ok.injEq, Prod.mk.injEq] at h
        obtain ⟨h1, h2, h3⟩ := h
        subst h3
        exact refDeepQueue_append (hpq s tnp q1 hf) (hrq fs2 tn3 q2 hrest)

theorem drain_ext (r1 r2 : List (String × Properties))
    (hL : ∀ k, lookupProps r1 k = lookupProps r2 k) (hroot : refDeepAssoc r1 = true) :
    ∀ (fuel : Nat) (queue : List (String × QItem)) (tn : List String),
    refDeepQueue queue = true →
    drain r1 fuel queue tn = drain r2 fuel queue tn := by
  intro fuel
  induction fuel with
  | zero =>
    intro queue tn hq
    cases queue with
    | nil => rw [drain_red_zero_nil r1 tn, drain_red_zero_nil r2 tn]
    | cons e es => rw [drain_red_zero_cons r1 e es tn, drain_red_zero_cons r2 e es tn]
  | succ fuel ih =>
    intro queue tn hq
    cases queue with
    | nil => rw [drain_red_nil r1 fuel tn, drain_red_nil r2 fuel tn]
    | cons e es =>
      obtain ⟨hpe, hpq⟩ := processPass_ext r1 r2 hL hroot (e :: es) tn hq
      cases hp : processPass r1 (e :: es) tn with
      | error e2 =>
        rw [drain_red_perr r1 fuel e es tn e2 hp,
          drain_red_perr r2 fuel e es tn e2 (hpe.symm.trans hp)]
      | ok trip =>
        obtain ⟨fs1, tnp, adds⟩ := trip
        have hadds : refDeepQueue adds = true := hpq fs1 tnp adds hp
        have hnew : refDeepQueue ((qUpdateAll (e :: es) adds).filter
            (fun x => ¬ ((e :: es).map Prod.fst).contains x.1)) = true :=
          refDeepQueue_filter _ (refDeepQueue_qUpdateAll adds (e :: es) hq hadds)
        have hrec := ih ((qUpdateAll (e :: es) adds).filter
            (fun x => ¬ ((e :: es).map Prod.fst).contains x.1)) tnp hnew
        cases hd : drain r1 fuel ((qUpdateAll (e :: es) adds).filter
            (fun x => ¬ ((e :: es).map Prod.fst).contains x.1)) tnp with
        | error e2 =>
          rw [drain_red_rerr r1 fuel e es tn fs1 tnp adds e2 hp hd,
            drain_red_rerr r2 fuel e es tn fs1 tnp adds e2 (hpe.symm.trans hp)
              (hrec.symm.trans hd)]
        | ok pr2 =>
          obtain ⟨fs2, tn3⟩ := pr2
          rw [drain_red_step r1 fuel e es tn fs1 tnp adds fs2 tn3 hp hd,
            drain_red_step r2 fuel e es tn fs1 tnp adds fs2 tn3 (hpe.symm.trans hp)
              (hrec.symm.trans hd)]

theorem ToProtobufBlocks_ext (r1 r2 defs1 defs2 : List (String × Properties))
    (hL : ∀ k, lookupProps r1 k = lookupProps r2 k)
    (hLd : ∀ k, lookupProps defs1 k = lookupProps defs2 k)
    (hroot : refDeepAssoc r1 = true) (hd : refDeepAssoc defs1 = true) :
    ∀ (keys : List String) (tn : List String),
    ToProtobufBlocks r1 defs1 keys tn = ToProtobufBlocks r2 defs2 keys tn ∧
    (∀ bs tn2 q, ToProtobufBlocks r1 defs1 keys tn = .ok (bs, tn2, q) →
      refDeepQueue q = true) := by
  intro keys
  induction keys with
  | nil =>
    intro tn
    rw [TPB_red_nil r1 defs1 tn, TPB_red_nil r2 defs2 tn]
    refine ⟨rfl, fun bs tn2 q h => ?_⟩
    simp only [Except.ok.injEq, Prod.mk.injEq] at h
    obtain ⟨h1, h2, h3⟩ := h
    subst h3
    rfl
  | cons k rest ih =>
    intro tn
    cases hgt : GetType (lookupProps defs1 k) with
    | none =>
      rw [TPB_red_gtnone r1 defs1 k rest tn hgt,
        TPB_red_gtnone r2 defs2 k rest tn (hLd k ▸ hgt)]
      exact ⟨rfl, fun bs tn2 q h => by cases h⟩
    | some gt =>
      by_cases hE : gt = .ENUM_TYPE
      · subst hE
        cases he : (lookupProps defs1 k).enum with
        | none =>
          rw [TPB_red_enum_none r1 defs1 k rest tn hgt he,
            TPB_red_enum_none r2 defs2 k rest tn (hLd k ▸ hgt) (hLd k ▸ he)]
          exact ⟨rfl, fun bs tn2 q h => by cases h⟩
        | some es =>
          obtain ⟨hre, hrq⟩ := ih (ToEnum k es tn).2
          cases hrest : ToProtobufBlocks r1 defs1 rest (ToEnum k es tn).2 with
          | error e =>
            rw [TPB_red_enum_resterr r1 defs1 k rest tn es e hgt he hrest,
              TPB_red_enum_resterr r2 defs2 k rest tn es e (hLd k ▸ hgt) (hLd k ▸ he)
                (hre.symm.trans hrest)]
            exact ⟨rfl, fun bs tn2 q h => by cases h⟩
          | ok trip =>
            obtain ⟨bs2, tn3, q2⟩ := trip
            rw [TPB_red_enum r1 defs1 k rest tn es bs2 tn3 q2 hgt he hrest,
              TPB_red_enum r2 defs2 k rest tn es bs2 tn3 q2 (hLd k ▸ hgt) (hLd k ▸ he)
                (hre.symm.trans hrest)]
            refine ⟨rfl, fun bs tn2 q h => ?_⟩
            simp only [Except.ok.injEq, Prod.mk.injEq] at h
            obtain ⟨h1, h2, h3⟩ := h
            subst h3
            exact hrq bs2 tn3 q2 hrest
      · obtain ⟨hme, hmq⟩ := ToMessage_ext r1 r2 (lookupProps defs1 k).properties k tn hL
          hroot (refDeep_properties (refDeepAssoc_lookup k hd))
        cases hm : ToMessage r1 k (lookupProps defs1 k).properties tn with
        | error e =>
          rw [TPB_red_msg_err r1 defs1 k rest tn e gt hgt hE hm,
            TPB_red_msg_err r2 defs2 k rest tn e gt (hLd k ▸ hgt) hE
              (hLd k ▸ (hme.symm.trans hm))]
          exact ⟨rfl, fun bs tn2 q h => by cases h⟩
        | ok trip =>
          obtain ⟨s, tnm, q1⟩ := trip
          obtain ⟨hre, hrq⟩ := ih tnm
          cases hrest : ToProtobufBlocks r1 defs1 rest tnm with
          | error e =>
            rw [TPB_red_msg_resterr r1 defs1 k rest tn e gt s tnm q1 hgt hE hm hrest,
              TPB_red_msg_resterr r2 defs2 k rest tn e gt s tnm q1 (hLd k ▸ hgt) hE
                (hLd k ▸ (hme.symm.trans hm)) (hre.symm.trans hrest)]
            exact ⟨rfl, fun bs tn2 q h => by cases h⟩
          | ok trip2 =>
            obtain ⟨bs2, tn3, q2⟩ := trip2
            rw [TPB_red_msg r1 defs1 k rest tn gt s tnm q1 bs2 tn3 q2 hgt hE hm hrest,
              TPB_red_msg r2 defs2 k rest tn gt s tnm q1 bs2 tn3 q2 (hLd k ▸ hgt) hE
                (hLd k ▸ (hme.symm.trans hm)) (hre.symm.trans hrest)]
            refine ⟨rfl, fun bs tn2 q h => ?_⟩
            simp only [Except.ok.injEq, Prod.mk.injEq] at h
            obtain ⟨h1, h2, h3⟩ := h
            subst h3
            exact refDeepQueue_append (hmq s tnm q1 hm) (hrq bs2 tn3 q2 hrest)

theorem TP_red_err (defs : List (String × Properties)) (tn : List String) (e : Fault)
    (h : ToProtobufBlocks defs defs (sortedKeys defs) tn = .error e) :
    ToProtobuf defs tn = .error e := by
  unfold ToProtobuf
  simp only [h]

theorem TP_red_ok (defs : List (String × Properties)) (tn : List String)
    (bs tn2 : List String) (q : List (String × QItem))
    (h : ToProtobufBlocks defs defs (sortedKeys defs) tn = .ok (bs, tn2, q)) :
    ToProtobuf defs tn = .ok (sjoin (bs.map (· ++ "\n")), tn2, q) := by
  unfold ToProtobuf
  simp only [h]

theorem Parse_red_err (schema : Schema) (pkg : String) (fuel : Nat) (e : Fault)
    (h : ToProtobuf schema.definitions [] = .error e) : Parse schema pkg fuel = .error e := by
  unfold Parse
  simp only [h]

theorem Parse_red_derr (schema : Schema) (pkg : String) (fuel : Nat) (body : String)
    (tn : List String) (adds : List (String × QItem)) (e : Fault)
    (h1 : ToProtobuf schema.definitions [] = .ok (body, tn, adds))
    (h2 : drain schema.definitions fuel (qUpdateAll [] adds) tn = .error e) :
    Parse schema pkg fuel = .error e := by
  unfold Parse
  simp only [h1, h2]

theorem Parse_red_ok (schema : Schema) (pkg : String) (fuel : Nat) (body : String)
    (tn : List String) (adds : List (String × QItem)) (fs : List String)
    (tn3 : List String)
    (h1 : ToProtobuf schema.definitions [] = .ok (body, tn, adds))
    (h2 : drain schema.definitions fuel (qUpdateAll [] adds) tn = .ok (fs, tn3)) :
    Parse schema pkg fuel = .ok (headers pkg :: body :: fs) := by
  unfold Parse
  simp only [h1, h2]

/-- C2: the translator output is not invariant across runs in general, but it
is invariant under the iteration order of the root definitions map whenever the
root keys have pairwise-distinct lengths (so the length sort fixes their order)
and every reference path in the schema has at least three segments (so
reference resolution reads the root only through key lookups): the full parse
result is then byte-identical for any two iteration orders. -/
theorem C2_amended (d1 d2 : List (String × Properties)) (pkg : String) (fuel : Nat)
    (hperm : d1.Perm d2) (hlen : (d1.map (fun e => e.1.length)).Nodup)
    (hrefs : refDeepAssoc d1 = true) :
    Parse ⟨d1⟩ pkg fuel = Parse ⟨d2⟩ pkg fuel := by
  have hnd : (d1.map Prod.fst).Nodup := by
    refine List.Nodup.of_map String.length ?_
    have he : (d1.map Prod.fst).map String.length = d1.map (fun e => e.1.length) := by
      rw [List.map_map]
      rfl
    rw [he]
    exact hlen
  have hL : ∀ k, lookupProps d1 k = lookupProps d2 k := lookupProps_perm hperm hnd
  have hS : sortedKeys d1 = sortedKeys d2 := sortedKeys_perm_eq hperm hlen
  obtain ⟨htpb, htpbq⟩ :=
    ToProtobufBlocks_ext d1 d2 d1 d2 hL hL hrefs hrefs (sortedKeys d1) []
  cases htpbv : ToProtobufBlocks d1 d1 (sortedKeys d1) [] with
  | error e =>
    have h1 : ToProtobuf d1 [] = .error e := TP_red_err d1 [] e htpbv
    have h2 : ToProtobuf d2 [] = .error e := by
      refine TP_red_err d2 [] e ?_
      rw [← hS]
      exact htpb.symm.trans htpbv
    rw [Parse_red_err ⟨d1⟩ pkg fuel e h1, Parse_red_err ⟨d2⟩ pkg fuel e h2]
  | ok trip =>
    obtain ⟨bs, tn, adds⟩ := trip
    have h1 : ToProtobuf d1 [] = .ok (sjoin (bs.map (· ++ "\n")), tn, adds) :=
      TP_red_ok d1 [] bs tn adds htpbv
    have h2 : ToProtobuf d2 [] = .ok (sjoin (bs.map (· ++ "\n")), tn, adds) := by
      refine TP_red_ok d2 [] bs tn adds ?_
      rw [← hS]
      exact htpb.symm.trans htpbv
    have hq : refDeepQueue (qUpdateAll [] adds) = true :=
      refDeepQueue_qUpdateAll adds [] rfl (htpbq bs tn adds htpbv)
    have hde : drain d1 fuel (qUpdateAll [] adds) tn =
        drain d2 fuel (qUpdateAll [] adds) tn :=
      drain_ext d1 d2 hL hrefs fuel (qUpdateAll [] adds) tn hq
    cases hd : drain d1 fuel (qUpdateAll [] adds) tn with
    | error e2 =>
      rw [Parse_red_derr ⟨d1⟩ pkg fuel (sjoin (bs.map (· ++ "\n"))) tn adds e2 h1 hd,
        Parse_red_derr ⟨d2⟩ pkg fuel (sjoin (bs.map (· ++ "\n"))) tn adds e2 h2
          (hde.symm.trans hd)]
    | ok pr2 =>
      obtain ⟨fs, tn3⟩ := pr2
      rw [Parse_red_ok ⟨d1⟩ pkg fuel (sjoin (bs.map (· ++ "\n"))) tn adds fs tn3 h1 hd,
        Parse_red_ok ⟨d2⟩ pkg fuel (sjoin (bs.map (· ++ "\n"))) tn adds fs tn3 h2
          (hde.symm.trans hd)]

/-- C2 witness: the order-invariance theorem applied to the two iteration
orders of a two-definition schema with distinct key lengths and a
three-segment reference. -/
theorem C2_amended_witness :
    c2cDefs.Perm c2dDefs ∧ (c2cDefs.map (fun e => e.1.length)).Nodup ∧
    refDeepAssoc c2cDefs = true ∧
    Parse ⟨c2cDefs⟩ ("pkg") 2 = Parse ⟨c2dDefs⟩ ("pkg") 2 :=
  ⟨List.Perm.swap _ _ _, by decide, by decide,
    C2_amended c2cDefs c2dDefs ("pkg") 2 (List.Perm.swap _ _ _) (by decide) (by decide)⟩

end J2P
